import Mathlib

/-!
Seza JSON driver: a shallow embedding.

The embedding follows `JsonSerializer.h`, `JsonDeserializer.h` and the parts of
`Seza.h` they drive.  Narrow streams only (`std::istream` / `std::ostream`).

* An output stream is the list of characters written so far.
* An input stream is the list of characters not yet extracted together with
  the `eofbit` and `failbit` of its state (`badbit` is never raised by an
  in-memory buffer).
* The stream operations (`is >> c`, `peek`, `ignore`, `getline`, the numeric
  and boolean extractors, the inserters) are models of the C++11 standard
  library in the classic locale; they are not code of the repository.
* A loop that the code does not bound is run with fuel; running out of fuel
  is a separate outcome, never confused with a thrown exception.
-/

set_option autoImplicit false

namespace Seza

/-! ## Constants of `JsonDefinitions.h` -/

namespace JSON

/-- Modelled from the spec: `JsonDefinitions.h` is not among the sources; the
wire grammar of the spec fixes the quote character as the string delimiter. -/
def quotationMark : Char := Char.ofNat 34

/-- Modelled from the spec: opening bracket of the `array` rule. -/
def beginArray : Char := '['

/-- Modelled from the spec: closing bracket of the `array` rule. -/
def endArray : Char := ']'

/-- Modelled from the spec: opening brace of the `object` rule. -/
def beginObject : Char := Char.ofNat 123

/-- Modelled from the spec: closing brace of the `object` rule. -/
def endObject : Char := Char.ofNat 125

/-- Modelled from the spec: the colon between a name and its value. -/
def valueSeparator : Char := ':'

/-- Modelled from the spec: the comma between elements and members. -/
def elementSeparator : Char := ','

end JSON

/-! ## Streams -/

/-- State of a `std::istream` over an in-memory buffer. -/
structure IStream where
  /-- characters not yet extracted -/
  buf : List Char
  eofbit : Bool
  failbit : Bool
  deriving DecidableEq, Repr

namespace IStream

/-- A fresh stream over the given text (`std::istringstream(text)`). -/
def ofList (text : List Char) : IStream := ⟨text, false, false⟩

/-- Member `good()`: no state bit is set. -/
def good (is : IStream) : Bool := !is.eofbit && !is.failbit

/-- Call `setstate(failbit)`. -/
def setFail (is : IStream) : IStream := { is with failbit := true }

end IStream

/-- Classic-locale `isspace`: space, `\t`, `\n`, `\v`, `\f`, `\r`. -/
def isSpace (c : Char) : Bool :=
  c.toNat == 32 || (9 ≤ c.toNat && c.toNat ≤ 13)

/-- Formatted extraction `is >> c` of one `char` (flag `skipws` set, as by default).
The sentry fails on a stream that is not good (raising `failbit`); otherwise it
skips white space and, when that reaches the end of the buffer, raises
`eofbit | failbit`.  On failure `c` keeps its previous value. -/
def extractChar (is : IStream) (c : Char) : IStream × Char :=
  if is.good then
    match is.buf.dropWhile isSpace with
    | [] => (⟨[], true, true⟩, c)
    | x :: rest => ({ is with buf := rest }, x)
  else (is.setFail, c)

/-- Member `peek()`: `none` stands for `traits::eof()`.  On a stream that is not
good the sentry raises `failbit`; at the end of the buffer `eofbit` is raised. -/
def peek (is : IStream) : IStream × Option Char :=
  if is.good then
    match is.buf with
    | [] => ({ is with eofbit := true }, none)
    | x :: _ => (is, some x)
  else (is.setFail, none)

/-- Member `ignore(1)`: extracts and discards one character.  On a stream that is
not good nothing is extracted and `failbit` is raised; at the end of the buffer
`eofbit` is raised. -/
def ignore1 (is : IStream) : IStream :=
  if is.good then
    match is.buf with
    | [] => { is with eofbit := true }
    | _ :: rest => { is with buf := rest }
  else is.setFail

/-- Free function `std::getline(is, str, delim)`.  With a failing sentry `str` is untouched
and `failbit` is raised.  Otherwise `str` is erased and characters are moved
into it until the delimiter (extracted, not stored) or the end of the buffer
(`eofbit`); when nothing at all was extracted `failbit` is raised too. -/
def getline (is : IStream) (str : List Char) (delim : Char) : IStream × List Char :=
  if is.good then
    let taken := is.buf.takeWhile (fun x => x != delim)
    match is.buf.dropWhile (fun x => x != delim) with
    | [] => (⟨[], true, taken.isEmpty⟩, taken)
    | _ :: rest => ({ is with buf := rest }, taken)
  else (is.setFail, str)

/-- Contents of `s.c_str()` seen as a C string: the characters before the first NUL. -/
def cstr (s : List Char) : List Char := s.takeWhile (fun x => x != Char.ofNat 0)

/-- Exceptions the library throws.  `readNull` throws a `JsonException` by value,
every other check of the JSON driver throws `new JsonException()`, a pointer;
the container adapters throw `OutOfRangeException`. -/
inductive Exception where
  | jsonException
  | jsonExceptionPtr
  | outOfRange
  deriving DecidableEq, Repr

/-- Outcome of a call that may throw or may not return: `thrown` carries the
state reached when the exception left the call. -/
inductive Outcome (σ : Type) where
  | ok (s : σ)
  | thrown (e : Exception) (s : σ)
  | outOfFuel
  deriving DecidableEq, Repr

/-! ## Strings (`writeString`, `readString`) -/

namespace JsonSerializer

/-- Source `JsonSerializer::writeString`:
`os << JSON::quotationMark << value.c_str() << JSON::quotationMark`. -/
def writeString (os : List Char) (value : List Char) : List Char :=
  os ++ [JSON.quotationMark] ++ cstr value ++ [JSON.quotationMark]

end JsonSerializer

namespace JsonDeserializer

/-- The search loop of `readString`:
`while(is.peek() != JSON::quotationMark) is.ignore(1);`
One unit of fuel per evaluation of the loop condition; `none` when the fuel is
used up before the condition turns false. -/
def searchQuote : Nat → IStream → Option IStream
  | 0, _ => none
  | fuel + 1, is =>
    let r := peek is
    if r.2 = some JSON.quotationMark then some r.1
    else searchQuote fuel (ignore1 r.1)

/-- Source `JsonDeserializer::readString`: search the opening quote, drop it, then
`std::getline(is, value, JSON::quotationMark)`.  It never throws. -/
def readString (fuel : Nat) (is : IStream) (value : List Char) :
    Option (IStream × List Char) :=
  match searchQuote fuel is with
  | none => none
  | some is1 => some (getline (ignore1 is1) value JSON.quotationMark)

end JsonDeserializer

/-! ## Scalars (`writeValue`, `readValue`) -/

/-- An integral type of the host: its width in bits and its signedness. -/
structure IntType where
  bits : Nat
  signed : Bool
  deriving DecidableEq, Repr

namespace IntType

/-- Least value of the type (`numeric_limits<T>::min()`). -/
def minVal (t : IntType) : Int := if t.signed then -(2 ^ (t.bits - 1)) else 0

/-- Greatest value of the type (`numeric_limits<T>::max()`). -/
def maxVal (t : IntType) : Int := if t.signed then 2 ^ (t.bits - 1) - 1 else 2 ^ t.bits - 1

/-- The values a variable of the type can hold. -/
def holds (t : IntType) (n : Int) : Prop := t.minVal ≤ n ∧ n ≤ t.maxVal

instance (t : IntType) (n : Int) : Decidable (t.holds n) := by
  unfold holds; infer_instance

/-- Type `short`. -/
def short : IntType := ⟨16, true⟩
/-- Type `unsigned short`. -/
def unsignedShort : IntType := ⟨16, false⟩
/-- Type `int`. -/
def int : IntType := ⟨32, true⟩
/-- Type `unsigned int`. -/
def unsignedInt : IntType := ⟨32, false⟩
/-- Type `long`, of `longBits` bits (32 or 64 depending on the data model). -/
def long (longBits : Nat) : IntType := ⟨longBits, true⟩
/-- Type `unsigned long`, of `longBits` bits. -/
def unsignedLong (longBits : Nat) : IntType := ⟨longBits, false⟩
/-- Type `long long`. -/
def longLong : IntType := ⟨64, true⟩
/-- Type `unsigned long long`. -/
def unsignedLongLong : IntType := ⟨64, false⟩

end IntType

/-- Inserter `os << n` for an integer (flags `dec`, no `showpos`): a minus sign for a
negative value, then the decimal digits without leading zeros. -/
def insertInt (os : List Char) (n : Int) : List Char :=
  if n < 0 then os ++ '-' :: Nat.toDigits 10 n.natAbs else os ++ Nat.toDigits 10 n.natAbs

/-- Inserter `os << std::boolalpha << b`: the classic-locale names. -/
def insertBool (os : List Char) (b : Bool) : List Char :=
  os ++ (if b then "true".toList else "false".toList)

/-- Classic-locale decimal digit test. -/
def isDigit (c : Char) : Bool := 48 ≤ c.toNat && c.toNat ≤ 57

/-- Value of a run of decimal digits, most significant first. -/
def digitsValue (ds : List Char) : Nat :=
  ds.foldl (fun acc c => 10 * acc + (c.toNat - 48)) 0

/-- Extractor `is >> n` for an integral type (`num_get`, flag `dec`, classic locale).
A failing sentry leaves `n` untouched.  Otherwise the field is an optional
sign followed by the longest run of digits; `eofbit` is raised when the run
reaches the end of the buffer.  A field without digits stores 0 and raises
`failbit`; a value outside the type stores the nearest limit and raises
`failbit`.  For an unsigned type a field with a minus sign whose magnitude
fits is stored negated modulo `2 ^ bits`, as `strtoull` does. -/
def extractInt (t : IntType) (is : IStream) (n : Int) : IStream × Int :=
  if is.good then
    match is.buf.dropWhile isSpace with
    | [] => (⟨[], true, true⟩, n)
    | c :: rest =>
      let neg := c == '-'
      let body := if c == '-' || c == '+' then rest else c :: rest
      let ds := body.takeWhile isDigit
      let rem := body.dropWhile isDigit
      let m : Int := digitsValue ds
      if ds.isEmpty then (⟨rem, rem.isEmpty, true⟩, 0)
      else if t.signed then
        if neg then
          if -m < t.minVal then (⟨rem, rem.isEmpty, true⟩, t.minVal)
          else (⟨rem, rem.isEmpty, false⟩, -m)
        else
          if t.maxVal < m then (⟨rem, rem.isEmpty, true⟩, t.maxVal)
          else (⟨rem, rem.isEmpty, false⟩, m)
      else
        if t.maxVal < m then (⟨rem, rem.isEmpty, true⟩, t.maxVal)
        else (⟨rem, rem.isEmpty, false⟩, if neg then (2 ^ t.bits - m) % 2 ^ t.bits else m)
  else (is.setFail, n)

/-- Matching of the buffer against one boolean name: the unread rest, whether
the buffer ended while a character was still wanted, and whether the whole
name was matched. -/
def matchName : List Char → List Char → List Char × Bool × Bool
  | [], buf => (buf, false, true)
  | _ :: _, [] => ([], true, false)
  | n :: ns, b :: bs => if b = n then matchName ns bs else (b :: bs, false, false)

/-- Extractor `is >> std::boolalpha >> b` (`num_get` for `bool`, classic locale).
A failing sentry leaves `b` untouched.  Otherwise characters are consumed
while they match `true` or `false`; a full match stores the value, anything
else stores `false` and raises `failbit` (and `eofbit` when the buffer ended
inside a name). -/
def extractBool (is : IStream) (b : Bool) : IStream × Bool :=
  if is.good then
    match is.buf.dropWhile isSpace with
    | [] => (⟨[], true, true⟩, b)
    | c :: rest =>
      if c = 't' then
        let r := matchName "true".toList (c :: rest)
        if r.2.2 then (⟨r.1, false, false⟩, true) else (⟨r.1, r.2.1, true⟩, false)
      else if c = 'f' then
        let r := matchName "false".toList (c :: rest)
        if r.2.2 then (⟨r.1, false, false⟩, false) else (⟨r.1, r.2.1, true⟩, false)
      else (⟨c :: rest, false, true⟩, false)
  else (is.setFail, b)

/-- A value of one of the scalar types that `writeValue` / `readValue` are
instantiated at by the `write` / `read` overloads (floating types and
`wchar_t` are left out). -/
inductive Scalar where
  | bool (b : Bool)
  | char (c : Char)
  | unsignedChar (c : Char)
  | int (t : IntType) (n : Int)
  deriving DecidableEq, Repr

/-- Static types of the scalars. -/
inductive ScalarType where
  | bool
  | char
  | unsignedChar
  | int (t : IntType)
  deriving DecidableEq, Repr

namespace Scalar

/-- Static type of a scalar. -/
def type : Scalar → ScalarType
  | bool _ => .bool
  | char _ => .char
  | unsignedChar _ => .unsignedChar
  | int t _ => .int t

end Scalar

namespace JsonSerializer

/-- Source `JsonSerializer::writeValue`:
`os << std::boolalpha << std::setprecision(20) << value` at the scalar types
(the inserters for `char` and `unsigned char` write the character itself). -/
def writeValue (os : List Char) : Scalar → List Char
  | .bool b => insertBool os b
  | .char c => os ++ [c]
  | .unsignedChar c => os ++ [c]
  | .int _ n => insertInt os n

end JsonSerializer

namespace JsonDeserializer

/-- Source `JsonDeserializer::readValue`: `is >> std::boolalpha >> value` at the scalar
types.  It never throws: a failed extraction only raises `failbit`. -/
def readValue (is : IStream) : Scalar → IStream × Scalar
  | .bool b => let r := extractBool is b; (r.1, .bool r.2)
  | .char c => let r := extractChar is c; (r.1, .char r.2)
  | .unsignedChar c => let r := extractChar is c; (r.1, .unsignedChar r.2)
  | .int t n => let r := extractInt t is n; (r.1, .int t r.2)

end JsonDeserializer

/-! ## Values and registered objects -/

/-- A value as the dispatch core sees it, tagged with its static type: the
overload of `write` / `read` is chosen by this type. -/
inductive Value where
  | scalar (x : Scalar)
  | string (s : List Char)
  deriving DecidableEq, Repr

/-- Static types of the values. -/
inductive ValueType where
  | scalar (t : ScalarType)
  | string
  deriving DecidableEq, Repr

namespace Value

/-- Static type of a value. -/
def type : Value → ValueType
  | scalar x => .scalar x.type
  | string _ => .string

end Value

/-- Order of `std::string` keys (`operator<`): lexicographic on character codes. -/
def strLt : List Char → List Char → Bool
  | _, [] => false
  | [], _ :: _ => true
  | a :: as, b :: bs => a.toNat < b.toNat || (a == b && strLt as bs)

/-- The member table `_members` of a `Serializable`: a `std::map` from member name to
a reference to the member, listed in iteration order with the current value
of the referred member in place of the reference. -/
abbrev Members := List (List Char × Value)

namespace Members

/-- Lookup `_members.find(name)`: the entry found, `none` for `end()`. -/
def find : Members → List Char → Option (List Char × Value)
  | [], _ => none
  | (k, v) :: rest, name => if k = name then some (k, v) else find rest name

/-- Assignment to the member that the entry `name` refers to. -/
def assign : Members → List Char → Value → Members
  | [], _, _ => []
  | (k, w) :: rest, name, v =>
    if k = name then (k, v) :: rest else (k, w) :: assign rest name v

/-- Statement `_members[name] = ...` of `ADD_MEMBER`: the entry is created at its place in
key order, or replaced when the key is present. -/
def set : Members → List Char → Value → Members
  | [], name, v => [(name, v)]
  | (k, w) :: rest, name, v =>
    if k = name then (name, v) :: rest
    else if strLt name k then (name, v) :: (k, w) :: rest
    else (k, w) :: set rest name v

/-- Member names in iteration order. -/
def names (m : Members) : List (List Char) := m.map Prod.fst

end Members

/-- An instance wrapped by `SerializableClass<C>`: the literal behind `getClassName()`
and the member table.  The cursor `_it` is passed explicitly by the loops
that use it. -/
structure Serializable where
  className : List Char
  members : Members
  deriving DecidableEq, Repr

namespace Serializable

/-- Method `getClassName()`: a `char const *`, read as a C string. -/
def getClassName (object : Serializable) : List Char := cstr object.className

end Serializable

/-- Expansion of `REGISTER_SERIALIZABLE(className, members)` on an instance: every
`ADD_MEMBER(name, type)` of `members`, in order, binds `name` to the member. -/
def registerSerializable (className : List Char) (decls : List (List Char × Value)) :
    Serializable :=
  ⟨className, decls.foldl (fun m d => m.set d.1 d.2) []⟩

/-- Dispatch of `Serializer::write` through `SerializerImpl<JsonSerializer>`: scalars go to
`writeValue`, strings to `writeString`. -/
def Serializer.write (os : List Char) : Value → List Char
  | .scalar x => JsonSerializer.writeValue os x
  | .string s => JsonSerializer.writeString os s

/-- Dispatch of `Deserializer::read` through `DeserializerImpl<JsonDeserializer>`: scalars go
to `readValue`, strings to `readString`. -/
def Deserializer.read (fuel : Nat) (is : IStream) : Value → Outcome (IStream × Value)
  | .scalar x => let r := JsonDeserializer.readValue is x; .ok (r.1, .scalar r.2)
  | .string s =>
    match JsonDeserializer.readString fuel is s with
    | none => .outOfFuel
    | some r => .ok (r.1, .string r.2)

namespace Serializable

/-- Source `Serializable::serializeElemName`: `sez->write(os, _it->first)`, a `std::string`. -/
def serializeElemName (os : List Char) (it : List Char × Value) : List Char :=
  Serializer.write os (.string it.1)

/-- Source `Serializable::serializeElemValue`: `_it->second->serializeElem(sez, os)`, which is
`sez->write(os, _ref)`. -/
def serializeElemValue (os : List Char) (it : List Char × Value) : List Char :=
  Serializer.write os it.2

/-- Source `Serializable::deserializeElemName`: reads the member name with
`dez->read(is, memberName)`, which is `readString`, and sets `_it` to
`_members.find(memberName)`.  The result holds the stream and the entry `_it`
points to, `none` when `_it` is `end()`, in which case the method returns false.
The outer `none` is lack of fuel. -/
def deserializeElemName (fuel : Nat) (is : IStream) (object : Serializable) :
    Option (IStream × Option (List Char × Value)) :=
  match JsonDeserializer.readString fuel is [] with
  | none => none
  | some r => some (r.1, object.members.find r.2)

/-- Source `Serializable::deserializeElemValue`: `_it->second->deserializeElem(dez, is)`, which is
`dez->read(is, _ref)` on the member that the entry `it` refers to. -/
def deserializeElemValue (fuel : Nat) (is : IStream) (object : Serializable)
    (it : List Char × Value) : Outcome (IStream × Serializable) :=
  match Deserializer.read fuel is it.2 with
  | .ok s => .ok (s.1, { object with members := object.members.assign it.1 s.2 })
  | .thrown e s => .thrown e (s.1, { object with members := object.members.assign it.1 s.2 })
  | .outOfFuel => .outOfFuel

end Serializable

/-! ## Objects (`writeSerializable`, `readSerializable`) -/

/-- The literal `"_className_"`. -/
def classNameKey : List Char := "_className_".toList

/-- Comparison `c != EOF` for a `char c`: with a signed 8-bit `char` the byte 0xFF
converts to -1, the value of `EOF`; no other character does. -/
def isEOFChar (c : Char) : Bool := c.toNat == 255

namespace JsonSerializer

/-- The member loop of `writeSerializable`:
`for(object.begin(); !object.isEnd(); object.next())`, over the entries the
cursor has not passed yet. -/
def writeMembers (os : List Char) : Members → List Char
  | [] => os
  | it :: rest =>
    let os1 := os ++ [JSON.elementSeparator]
    let os2 := Serializable.serializeElemName os1 it
    let os3 := os2 ++ [JSON.valueSeparator]
    let os4 := Serializable.serializeElemValue os3 it
    writeMembers os4 rest

/-- Source `JsonSerializer::writeSerializable`. -/
def writeSerializable (os : List Char) (object : Serializable) : List Char :=
  let os1 := os ++ [JSON.beginObject]
  let os2 := writeString os1 classNameKey
  let os3 := os2 ++ [JSON.valueSeparator]
  let os4 := writeString os3 object.getClassName
  let os5 := writeMembers os4 object.members
  os5 ++ [JSON.endObject]

end JsonSerializer

namespace JsonDeserializer

/-- The member loop of `readSerializable`:
`while((c != JSON::endObject) && (c != EOF))`, with the lookahead character `c`.
One unit of fuel per evaluation of the loop condition.  On a normal exit the
result carries the final `c`. -/
def readMembers : Nat → IStream → Char → Serializable →
    Outcome (IStream × Char × Serializable)
  | 0, _, _, _ => .outOfFuel
  | fuel + 1, is, c, object =>
    if c != JSON.endObject && !isEOFChar c then
      if c != JSON.elementSeparator then .thrown .jsonExceptionPtr (is, c, object)
      else
        match Serializable.deserializeElemName fuel is object with
        | none => .outOfFuel
        | some (is1, none) => .thrown .jsonExceptionPtr (is1, c, object)
        | some (is1, some it) =>
          let r := extractChar is1 c
          if r.2 != JSON.valueSeparator then .thrown .jsonExceptionPtr (r.1, r.2, object)
          else
            match Serializable.deserializeElemValue fuel r.1 object it with
            | .ok s =>
              let r2 := extractChar s.1 r.2
              readMembers fuel r2.1 r2.2 s.2
            | .thrown e s => .thrown e (s.1, r.2, s.2)
            | .outOfFuel => .outOfFuel
    else .ok (is, c, object)

/-- Source `JsonDeserializer::readSerializable` on a narrow stream.  The local `c` is
declared without a value; `c0` is the value it happens to hold. -/
def readSerializable (fuel : Nat) (c0 : Char) (is : IStream) (object : Serializable) :
    Outcome (IStream × Serializable) :=
  let r := extractChar is c0
  if r.2 != JSON.beginObject then .thrown .jsonExceptionPtr (r.1, object)
  else
    match readString fuel r.1 [] with
    | none => .outOfFuel
    | some k =>
      if k.2 != classNameKey then .thrown .jsonExceptionPtr (k.1, object)
      else
        let r1 := extractChar k.1 r.2
        if r1.2 != JSON.valueSeparator then .thrown .jsonExceptionPtr (r1.1, object)
        else
          match readString fuel r1.1 k.2 with
          | none => .outOfFuel
          | some n =>
            if n.2 != object.getClassName then .thrown .jsonExceptionPtr (n.1, object)
            else
              let r2 := extractChar n.1 JSON.elementSeparator
              match readMembers fuel r2.1 r2.2 object with
              | .ok s =>
                if s.2.1 != JSON.endObject then .thrown .jsonExceptionPtr (s.1, s.2.2)
                else .ok (s.1, s.2.2)
              | .thrown e s => .thrown e (s.1, s.2.2)
              | .outOfFuel => .outOfFuel

end JsonDeserializer

/-- The example class of the spec: `Point` with the `int` members `x` and `y`. -/
def point (x y : Int) : Serializable :=
  registerSerializable "Point".toList
    [("x".toList, .scalar (.int .int x)), ("y".toList, .scalar (.int .int y))]

/-- The text `{"_className_":"Point","x":1,"y":2}`. -/
def pointText : List Char := "\x7b\"_className_\":\"Point\",\"x\":1,\"y\":2\x7d".toList

/-! ## Vocabulary of the statements -/

/-- Spec-side `string` rule: the raw characters between two quotes. -/
def quoted (s : List Char) : List Char :=
  JSON.quotationMark :: (s ++ [JSON.quotationMark])

/-- Spec-side member of the `object` rule, `',' string ':' value`. -/
def memberText (e : List Char × Value) : List Char :=
  JSON.elementSeparator :: (quoted e.1 ++ JSON.valueSeparator :: Serializer.write [] e.2)

/-- Spec-side `object` rule:
`'{' '"_className_"' ':' string (',' string ':' value)* '}'`. -/
def objectText (className : List Char) (members : Members) : List Char :=
  JSON.beginObject :: (quoted classNameKey ++ JSON.valueSeparator :: (quoted className ++
    (members.flatMap memberText ++ [JSON.endObject])))

/-- Scalars that are read back from their own text: every boolean, every
integer that its type holds, every character that is not white space. -/
def Scalar.roundTrips : Scalar → Prop
  | .bool _ => True
  | .char c => isSpace c = false
  | .unsignedChar c => isSpace c = false
  | .int t n => t.holds n

instance (x : Scalar) : Decidable x.roundTrips := by
  cases x <;> unfold Scalar.roundTrips <;> infer_instance

/-- Values that are read back from their own text: the scalars above and the
strings without a quote and without a NUL. -/
def Value.roundTrips : Value → Prop
  | .scalar x => x.roundTrips
  | .string s => JSON.quotationMark ∉ s ∧ Char.ofNat 0 ∉ s

instance (v : Value) : Decidable v.roundTrips := by
  cases v <;> unfold Value.roundTrips <;> infer_instance

/-- A value that round-trips on its own: read from the text written for it alone,
into a target of its type, whatever the target held, the value comes back. -/
def Value.roundTripsAlone (v : Value) : Prop :=
  ∀ (old : Value) (fuel : Nat), old.type = v.type → 0 < fuel →
    ∃ is1, Deserializer.read fuel (IStream.ofList (Serializer.write [] v)) old = .ok (is1, v)

/-- The member table after the assignments `es`, made in order. -/
def Members.assignAll (m : Members) (es : Members) : Members :=
  es.foldl (fun acc e => acc.assign e.1 e.2) m

/-- Static type of the member registered under `name`, `none` when there is none. -/
def Members.typeOf (m : Members) (name : List Char) : Option ValueType :=
  (m.find name).map (fun x => x.2.type)

/-- An entry of an object text that decode can take: its name holds no quote
and is registered in `object`, its value round-trips and has the static type
of the registered member. -/
def Serializable.takes (object : Serializable) (e : List Char × Value) : Prop :=
  JSON.quotationMark ∉ e.1 ∧ e.2.roundTrips ∧ object.members.typeOf e.1 = some e.2.type

instance (object : Serializable) (e : List Char × Value) : Decidable (object.takes e) := by
  unfold Serializable.takes; infer_instance

/-- Member names with the static type of each member, in iteration order. -/
def Members.signature (m : Members) : List (List Char × ValueType) :=
  m.map (fun e => (e.1, e.2.type))

/-- Names as `REGISTER_SERIALIZABLE` produces them from identifiers: no quote in the class
name, neither quote nor NUL in a member name, and no member name twice (the
table is a `std::map`). -/
def Serializable.plainNames (object : Serializable) : Prop :=
  JSON.quotationMark ∉ object.className ∧ Char.ofNat 0 ∉ object.className ∧
  (∀ e ∈ object.members, JSON.quotationMark ∉ e.1 ∧ Char.ofNat 0 ∉ e.1) ∧
  object.members.names.Nodup

instance (object : Serializable) : Decidable object.plainNames := by
  unfold Serializable.plainNames; infer_instance

/-- Two instances of the same registered class: same class name, same member
names and member types. -/
def Serializable.sameClass (a b : Serializable) : Prop :=
  a.className = b.className ∧ a.members.signature = b.members.signature

instance (a b : Serializable) : Decidable (a.sameClass b) := by
  unfold Serializable.sameClass; infer_instance

/-! ## Null, fixed arrays and STL containers of integers

Containers are modelled with elements of an integral type `t`: the element
overload `read(std::istream&, T&)` is then `readValue`, the extraction `is >> value`,
and `write(std::ostream&, const T&)` is `writeValue`.  The value an uninitialised
local (`char c;`, `T tmp;`, `char value[5];`) happens to hold is a parameter of
the function that declares it. -/

/-- Overload `Deserializer::read(std::istream&, T&)` at an integral type `T`:
`readValue(is, value)`, which is `is >> std::boolalpha >> value`. -/
def Deserializer.readInt (t : IntType) (is : IStream) (value : Int) : IStream × Int :=
  extractInt t is value

/-- Overload `Serializer::write(std::ostream&, const T&)` at an integral type `T`:
`writeValue(os, value)`. -/
def Serializer.writeInt (t : IntType) (os : List Char) (value : Int) : List Char :=
  JsonSerializer.writeValue os (.int t value)

/-- Member `read(s, n)` of `std::istream` into a buffer whose present contents are
`buffer`: with a failing sentry nothing is stored and `failbit` is raised;
otherwise up to `n` characters are moved to the front of the buffer, and when
the input ends before `n` characters `eofbit | failbit` is raised.  No white
space is skipped. -/
def readBlock (n : Nat) (is : IStream) (buffer : List Char) : IStream × List Char :=
  if is.good then
    let got := is.buf.take n
    if got.length < n then (⟨[], true, true⟩, got ++ buffer.drop got.length)
    else ({ is with buf := is.buf.drop n }, got ++ buffer.drop got.length)
  else (is.setFail, buffer)

namespace JsonSerializer

/-- Source `JsonSerializer::writeNull`: `os << "null"`. -/
def writeNull (os : List Char) : List Char := os ++ "null".toList

/-- The loop of `writeArray`, `for(size_t i=0; i<size; ++i)`, over the elements
from index `i` on. -/
def writeArrayFrom (t : IntType) (os : List Char) (i : Nat) : List Int → List Char
  | [] => os
  | x :: rest =>
    let os1 := if i > 0 then os ++ [JSON.elementSeparator] else os
    writeArrayFrom t (Serializer.writeInt t os1 x) (i + 1) rest

/-- Source `JsonSerializer::writeArray` on an array of `size = vector.length` integers. -/
def writeArray (t : IntType) (os : List Char) (vector : List Int) : List Char :=
  writeArrayFrom t (os ++ [JSON.beginArray]) 0 vector ++ [JSON.endArray]

/-- The loop of `writeSTLContainer`,
`for(container.begin(); !container.isEnd(); container.next())`, over the elements
the cursor has not passed; `isBegin` tells whether the cursor is at the first
one, and `serializeElem` is the virtual method of the adapter. -/
def writeElements {ε : Type} (serializeElem : List Char → ε → List Char)
    (os : List Char) (isBegin : Bool) : List ε → List Char
  | [] => os
  | e :: rest =>
    let os1 := if !isBegin then os ++ [JSON.elementSeparator] else os
    writeElements serializeElem (serializeElem os1 e) false rest

/-- Source `JsonSerializer::writeSTLContainer`, on the sequence the cursor of the adapter
runs through. -/
def writeSTLContainer {ε : Type} (serializeElem : List Char → ε → List Char)
    (os : List Char) (elements : List ε) : List Char :=
  writeElements serializeElem (os ++ [JSON.beginArray]) true elements ++ [JSON.endArray]

end JsonSerializer

namespace JsonDeserializer

/-- Source `JsonDeserializer::readNull` on a narrow stream.  The array `value` is declared
without a value: `value0` lists what `value[0..3]` hold before the call (entries
that are missing count as NUL).  The exception is a `JsonException` thrown by
value. -/
def readNull (value0 : List Char) (is : IStream) : Outcome IStream :=
  let r := readBlock 4 is value0
  let value := r.2.take 4 ++ [Char.ofNat 0]
  if cstr value != "null".toList then .thrown .jsonException r.1
  else .ok r.1

/-- The loop of `readArray`,
`for(length = 0; ((length < size) && (c != JSON::endArray)); ++length)`.
The first argument is `size - length`, the slots left; `vector` holds the
slots of the target. -/
def readArrayFrom (t : IntType) : Nat → Nat → IStream → Char → List Int →
    Outcome (IStream × Char × Nat × List Int)
  | 0, length, is, c, vector => .ok (is, c, length, vector)
  | left + 1, length, is, c, vector =>
    if c != JSON.endArray then
      if c != JSON.elementSeparator then .thrown .jsonExceptionPtr (is, c, length, vector)
      else
        let r := Deserializer.readInt t is (vector.getD length 0)
        let r1 := extractChar r.1 c
        readArrayFrom t left (length + 1) r1.1 r1.2 (vector.set length r.2)
    else .ok (is, c, length, vector)

/-- Source `JsonDeserializer::readArray` on a narrow stream, into an array of
`size = vector.length` integers; the result carries the returned length (in a
thrown state: the value of the counter `length`, 0 before the loop).
The local `c` is declared without a value; `c0` is the value it happens to hold. -/
def readArray (t : IntType) (c0 : Char) (is : IStream) (vector : List Int) :
    Outcome (IStream × Nat × List Int) :=
  let r := extractChar is c0
  if r.2 != JSON.beginArray then .thrown .jsonExceptionPtr (r.1, 0, vector)
  else
    match readArrayFrom t vector.length 0 r.1 JSON.elementSeparator vector with
    | .ok s =>
      if s.2.1 != JSON.endArray then .thrown .jsonExceptionPtr (s.1, s.2.2.1, s.2.2.2)
      else .ok (s.1, s.2.2.1, s.2.2.2)
    | .thrown e s => .thrown e (s.1, s.2.2.1, s.2.2.2)
    | .outOfFuel => .outOfFuel

/-- The loop of `readSTLContainer`, `while((c != JSON::endArray) && (c != EOF))`, with the
lookahead character `c`; `deserializeElem` is the virtual method of the adapter
and `σ` its state.  One unit of fuel per evaluation of the loop condition. -/
def readElements {σ : Type} (deserializeElem : Nat → IStream → σ → Outcome (IStream × σ)) :
    Nat → IStream → Char → σ → Outcome (IStream × Char × σ)
  | 0, _, _, _ => .outOfFuel
  | fuel + 1, is, c, container =>
    if c != JSON.endArray && !isEOFChar c then
      if c != JSON.elementSeparator then .thrown .jsonExceptionPtr (is, c, container)
      else
        match deserializeElem fuel is container with
        | .ok s =>
          let r := extractChar s.1 c
          readElements deserializeElem fuel r.1 r.2 s.2
        | .thrown e s => .thrown e (s.1, c, s.2)
        | .outOfFuel => .outOfFuel
    else .ok (is, c, container)

/-- Source `JsonDeserializer::readSTLContainer` on a narrow stream.  After the opening
bracket `c` is set to the separator and the loop is entered without reading
a character.  The local `c` is declared without a value; `c0` is the value it
happens to hold. -/
def readSTLContainer {σ : Type}
    (deserializeElem : Nat → IStream → σ → Outcome (IStream × σ))
    (fuel : Nat) (c0 : Char) (is : IStream) (container : σ) : Outcome (IStream × σ) :=
  let r := extractChar is c0
  if r.2 != JSON.beginArray then .thrown .jsonExceptionPtr (r.1, container)
  else
    match readElements deserializeElem fuel r.1 JSON.elementSeparator container with
    | .ok s =>
      if s.2.1 != JSON.endArray then .thrown .jsonExceptionPtr (s.1, s.2.2)
      else .ok (s.1, s.2.2)
    | .thrown e s => .thrown e (s.1, s.2.2)
    | .outOfFuel => .outOfFuel

end JsonDeserializer

/-! ### Adapters (`SerializableSTLContainer`) and the `write` / `read` templates -/

/-- State of a `SerializableSTLPair<K, T>` over a pair of integers: the static types of
the two members, the pair it refers to, and the insert position `_pos`. -/
structure SerializableSTLPair where
  firstType : IntType
  secondType : IntType
  first : Int
  second : Int
  pos : Nat
  deriving DecidableEq, Repr

namespace SerializableSTLPair

/-- What the cursor `_it` = 0, 1 runs through: the two members with their types. -/
def elements (p : SerializableSTLPair) : List (IntType × Int) :=
  [(p.firstType, p.first), (p.secondType, p.second)]

/-- Source `SerializableSTLPair::serializeElem`: `sez->write(os, _instance.first)` at `_it == 0`,
`sez->write(os, _instance.second)` at `_it == 1`. -/
def serializeElem (os : List Char) (e : IntType × Int) : List Char :=
  Serializer.writeInt e.1 os e.2

/-- Source `SerializableSTLPair::deserializeElem`: reads into `first` at `_pos == 0`, into
`second` at `_pos == 1`, throws `OutOfRangeException` otherwise; then `_pos++`. -/
def deserializeElem (is : IStream) (p : SerializableSTLPair) :
    Outcome (IStream × SerializableSTLPair) :=
  if p.pos = 0 then
    let r := Deserializer.readInt p.firstType is p.first
    .ok (r.1, { p with first := r.2, pos := p.pos + 1 })
  else if p.pos = 1 then
    let r := Deserializer.readInt p.secondType is p.second
    .ok (r.1, { p with second := r.2, pos := p.pos + 1 })
  else .thrown .outOfRange (is, p)

end SerializableSTLPair

/-- Template `Serializer::write(std::ostream&, std::pair<K, T>&)`. -/
def Serializer.writePair (kt vt : IntType) (os : List Char) (container : Int × Int) :
    List Char :=
  JsonSerializer.writeSTLContainer SerializableSTLPair.serializeElem os
    (SerializableSTLPair.elements ⟨kt, vt, container.1, container.2, 0⟩)

/-- Template `Deserializer::read(std::istream&, std::pair<K, T>&)`: a fresh adapter, `_pos` 0. -/
def Deserializer.readPair (kt vt : IntType) (fuel : Nat) (c0 : Char) (is : IStream)
    (container : Int × Int) : Outcome (IStream × SerializableSTLPair) :=
  JsonDeserializer.readSTLContainer (fun _ i p => SerializableSTLPair.deserializeElem i p)
    fuel c0 is ⟨kt, vt, container.1, container.2, 0⟩

/-- Templates `Serializer::write` for the containers whose adapter serialises the element
under the cursor with `sez->write(os, *_it)`: vector, deque, list, forward_list,
`std::array`, set, multiset, and stack and queue through their backing
sequence.  `elements` is the sequence in iteration order. -/
def Serializer.writeSequence (t : IntType) (os : List Char) (elements : List Int) :
    List Char :=
  JsonSerializer.writeSTLContainer (Serializer.writeInt t) os elements

/-- Source `SerializableSTLList<C, T>::deserializeElem` (vector, deque, list):
`T tmp; dez->read(is, tmp); _instance.push_back(tmp);`, where `tmp` holds the
value `tmp0` before the read. -/
def SerializableSTLList.deserializeElem (t : IntType) (tmp0 : Int) (is : IStream)
    (container : List Int) : Outcome (IStream × List Int) :=
  let r := Deserializer.readInt t is tmp0
  .ok (r.1, container ++ [r.2])

/-- Templates `Deserializer::read` for `std::vector<T>`, `std::deque<T>` and `std::list<T>`. -/
def Deserializer.readList (t : IntType) (fuel : Nat) (c0 : Char) (tmp0 : Int) (is : IStream)
    (container : List Int) : Outcome (IStream × List Int) :=
  JsonDeserializer.readSTLContainer (fun _ i s => SerializableSTLList.deserializeElem t tmp0 i s)
    fuel c0 is container

/-- State of the adapter of a `std::array<T, N>`: the `N` slots of the array, the insert
position `_pos`, and the assignments `_instance[_pos] = tmp` that were made at an
index past the last slot (position and value), which land outside the array. -/
structure SerializableSTLArray where
  slots : List Int
  pos : Nat
  outside : List (Nat × Int)
  deriving DecidableEq, Repr

/-- Source `SerializableSTLList<std::array<T, N>, T>::deserializeElem`:
`if(_pos > _instance.size()) throw OutOfRangeException();` then
`T tmp; dez->read(is, tmp); _instance[_pos] = tmp; _pos++;`. -/
def SerializableSTLArray.deserializeElem (t : IntType) (tmp0 : Int) (is : IStream)
    (a : SerializableSTLArray) : Outcome (IStream × SerializableSTLArray) :=
  if a.pos > a.slots.length then .thrown .outOfRange (is, a)
  else
    let r := Deserializer.readInt t is tmp0
    if a.pos < a.slots.length then
      .ok (r.1, { a with slots := a.slots.set a.pos r.2, pos := a.pos + 1 })
    else
      .ok (r.1, { a with outside := a.outside ++ [(a.pos, r.2)], pos := a.pos + 1 })

/-- Template `Deserializer::read(std::istream&, std::array<T, N>&)`: a fresh adapter, `_pos` 0. -/
def Deserializer.readStdArray (t : IntType) (fuel : Nat) (c0 : Char) (tmp0 : Int)
    (is : IStream) (container : List Int) : Outcome (IStream × SerializableSTLArray) :=
  JsonDeserializer.readSTLContainer
    (fun _ i s => SerializableSTLArray.deserializeElem t tmp0 i s) fuel c0 is ⟨container, 0, []⟩

/-- Source `SerializableSTLList<std::forward_list<T>, T>::deserializeElem`:
`T tmp; dez->read(is, tmp); _instance.push_front(tmp);`. -/
def SerializableSTLForwardList.deserializeElem (t : IntType) (tmp0 : Int) (is : IStream)
    (container : List Int) : Outcome (IStream × List Int) :=
  let r := Deserializer.readInt t is tmp0
  .ok (r.1, r.2 :: container)

/-- Template `Deserializer::read(std::istream&, std::forward_list<T>&)`: the container read, then
`container.reverse()`; an exception leaves before the reversal. -/
def Deserializer.readForwardList (t : IntType) (fuel : Nat) (c0 : Char) (tmp0 : Int)
    (is : IStream) (container : List Int) : Outcome (IStream × List Int) :=
  match JsonDeserializer.readSTLContainer
      (fun _ i s => SerializableSTLForwardList.deserializeElem t tmp0 i s) fuel c0 is container with
  | .ok s => .ok (s.1, s.2.reverse)
  | .thrown e s => .thrown e s
  | .outOfFuel => .outOfFuel

/-- Method `insert` of `std::set<int>` (`multi` false: an element that is present is not
inserted again) and of `std::multiset<int>` (`multi` true: the element goes after
its equals), on the elements in ascending order. -/
def setInsert (multi : Bool) (x : Int) : List Int → List Int
  | [] => [x]
  | y :: ys =>
    if x < y then x :: y :: ys
    else if !multi && x == y then y :: ys
    else y :: setInsert multi x ys

/-- Source `SerializableSTLSet<C, T>::deserializeElem`:
`T tmp; dez->read(is, tmp); _instance.insert(tmp);`. -/
def SerializableSTLSet.deserializeElem (multi : Bool) (t : IntType) (tmp0 : Int)
    (is : IStream) (container : List Int) : Outcome (IStream × List Int) :=
  let r := Deserializer.readInt t is tmp0
  .ok (r.1, setInsert multi r.2 container)

/-- Templates `Deserializer::read` for `std::set<T>` and `std::multiset<T>`. -/
def Deserializer.readSet (multi : Bool) (t : IntType) (fuel : Nat) (c0 : Char) (tmp0 : Int)
    (is : IStream) (container : List Int) : Outcome (IStream × List Int) :=
  JsonDeserializer.readSTLContainer
    (fun _ i s => SerializableSTLSet.deserializeElem multi t tmp0 i s) fuel c0 is container

/-- Method `insert` of `std::map<int, int>` (`multi` false: an entry whose key is present is
not inserted) and of `std::multimap<int, int>` (`multi` true: the entry goes after
the entries of equal key), on the entries in ascending key order. -/
def mapInsert (multi : Bool) (e : Int × Int) : List (Int × Int) → List (Int × Int)
  | [] => [e]
  | y :: ys =>
    if e.1 < y.1 then e :: y :: ys
    else if !multi && e.1 == y.1 then y :: ys
    else y :: mapInsert multi e ys

/-- Source `SerializableSTLMap<C, K, T>::serializeElem`:
`std::pair<K, T> tmp = (*_it); sez->write(os, tmp);`. -/
def SerializableSTLMap.serializeElem (kt vt : IntType) (os : List Char) (e : Int × Int) :
    List Char :=
  Serializer.writePair kt vt os e

/-- Source `SerializableSTLMap<C, K, T>::deserializeElem`:
`std::pair<K, T> tmp; dez->read(is, tmp); _instance.insert(tmp);`, where the
default-constructed pair holds zeros. -/
def SerializableSTLMap.deserializeElem (multi : Bool) (kt vt : IntType) (c0 : Char)
    (fuel : Nat) (is : IStream) (container : List (Int × Int)) :
    Outcome (IStream × List (Int × Int)) :=
  match Deserializer.readPair kt vt fuel c0 is (0, 0) with
  | .ok s => .ok (s.1, mapInsert multi (s.2.first, s.2.second) container)
  | .thrown e s => .thrown e (s.1, container)
  | .outOfFuel => .outOfFuel

/-- Templates `Serializer::write` for `std::map<K, T>` and `std::multimap<K, T>`, on the entries in
iteration order. -/
def Serializer.writeMap (kt vt : IntType) (os : List Char) (entries : List (Int × Int)) :
    List Char :=
  JsonSerializer.writeSTLContainer (SerializableSTLMap.serializeElem kt vt) os entries

/-- Templates `Deserializer::read` for `std::map<K, T>` and `std::multimap<K, T>`. -/
def Deserializer.readMap (multi : Bool) (kt vt : IntType) (fuel : Nat) (c0 : Char)
    (is : IStream) (container : List (Int × Int)) : Outcome (IStream × List (Int × Int)) :=
  JsonDeserializer.readSTLContainer (SerializableSTLMap.deserializeElem multi kt vt c0)
    fuel c0 is container

/-- Source `SerializableSTLQueue<C, T>::deserializeElem` for `std::stack<T>` and `std::queue<T>`:
`T tmp; dez->read(is, tmp); _instance.push(tmp);`, and `push` of either adapter
is `push_back` on the backing sequence.  (For `std::priority_queue`, whose `push` also
restores the heap, see `SerializableSTLQueue.deserializeElemPriority`.) -/
def SerializableSTLQueue.deserializeElem (t : IntType) (tmp0 : Int) (is : IStream)
    (backing : List Int) : Outcome (IStream × List Int) :=
  let r := Deserializer.readInt t is tmp0
  .ok (r.1, backing ++ [r.2])

/-- Templates `Deserializer::read` for `std::stack<T>` and `std::queue<T>`, on the backing sequence. -/
def Deserializer.readQueue (t : IntType) (fuel : Nat) (c0 : Char) (tmp0 : Int) (is : IStream)
    (backing : List Int) : Outcome (IStream × List Int) :=
  JsonDeserializer.readSTLContainer
    (fun _ i s => SerializableSTLQueue.deserializeElem t tmp0 i s) fuel c0 is backing

/-! ### Vocabulary of the container statements -/

/-- Spec-side `value (',' value)*`: the item texts joined by single commas. -/
def joinItems : List (List Char) → List Char
  | [] => []
  | [x] => x
  | x :: y :: rest => x ++ JSON.elementSeparator :: joinItems (y :: rest)

/-- Spec-side `array` rule: `'[' [ value (',' value)* ] ']'`. -/
def arrayText (items : List (List Char)) : List Char :=
  JSON.beginArray :: (joinItems items ++ [JSON.endArray])

/-- Decimal text of an integer, as `writeValue` writes it. -/
def intText (n : Int) : List Char := insertInt [] n

/-- Text of a map entry: the two-element array `[key,value]`. -/
def entryText (e : Int × Int) : List Char := arrayText [intText e.1, intText e.2]

/-- The slots after the assignments `vector[i] = n`, `vector[i + 1] = ...` of the values
`ns`, in order. -/
def fillFrom : List Int → Nat → List Int → List Int
  | vector, _, [] => vector
  | vector, i, n :: ns => fillFrom (vector.set i n) (i + 1) ns

/-- Keys in the iteration order of an ordered container: strictly ascending when
equal keys are not kept (`std::set`, `std::map`), ascending when they are (`std::multiset`,
`std::multimap`). -/
def ascending (multi : Bool) (keys : List Int) : Prop :=
  keys.Pairwise (fun a b => if multi then a ≤ b else a < b)

instance (multi : Bool) (keys : List Int) : Decidable (ascending multi keys) := by
  unfold ascending; infer_instance

/-! ## Enumerations, unregistered classes, adapters of stacks and queues -/

/-- An object of an enumeration type `C` whose underlying type is `int`: the values
of the enumerators that `C` declares and the integer the object holds.  Every
`int` is a value of such an enumeration, declared or not. -/
structure EnumObject where
  enumerators : List Int
  value : Int
  deriving DecidableEq, Repr

/-- Template `Serializer::write(std::ostream&, const C&)` for an enumeration `C`:
`this->write(os, (int)object)`, the overload for `int`. -/
def Serializer.writeEnum (os : List Char) (object : EnumObject) : List Char :=
  Serializer.writeInt IntType.int os object.value

/-- Template `Deserializer::read(std::istream&, C&)` for an enumeration `C`:
`int tmp; this->read(is, tmp); object = static_cast<C>(tmp);`, where `tmp` holds the
value `tmp0` before the read.  The cast keeps the integer; the enumerators are
not looked at. -/
def Deserializer.readEnum (tmp0 : Int) (is : IStream) (object : EnumObject) :
    IStream × EnumObject :=
  let r := Deserializer.readInt IntType.int is tmp0
  (r.1, { object with value := r.2 })

/-- Template `Serializer::write(std::ostream&, const C&)` for a class `C` that is neither
registered nor an enumeration: `this->write(os)`, which is `writeNull(os)`; `object`
is not looked at. -/
def Serializer.writeNonSerializable {C : Type} (os : List Char) (_object : C) : List Char :=
  JsonSerializer.writeNull os

/-- Template `Deserializer::read(std::istream&, C&)` for a class `C` that is neither
registered nor an enumeration: `this->read(is)`, which is `readNull(is)`; nothing
is assigned to `object`. -/
def Deserializer.readNonSerializable {C : Type} (value0 : List Char) (is : IStream)
    (object : C) : Outcome (IStream × C) :=
  match JsonDeserializer.readNull value0 is with
  | .ok s => .ok (s, object)
  | .thrown e s => .thrown e (s, object)
  | .outOfFuel => .outOfFuel

/-- Source `SerializableSTLQueue<C, T>::serializeElem`: `sez->write(os, *_it)`, with the cursor
`_it` on the backing sequence `_adapter->getContainer()`. -/
def SerializableSTLQueue.serializeElem (t : IntType) (os : List Char) (e : Int) : List Char :=
  Serializer.writeInt t os e

/-- Templates `Serializer::write` for `std::stack<T>`, `std::queue<T>` and `std::priority_queue<T>`:
the adapter's cursor runs through the backing sequence from `begin()` to `end()`. -/
def Serializer.writeQueue (t : IntType) (os : List Char) (backing : List Int) : List Char :=
  JsonSerializer.writeSTLContainer (SerializableSTLQueue.serializeElem t) os backing

/-- Algorithm `std::push_heap` with `std::less`, as the standard libraries implement it:
the new value, at index `hole`, moves up while its parent is less.  The first
argument bounds the number of moves. -/
def pushHeap : Nat → List Int → Nat → Int → List Int
  | 0, c, hole, value => c.set hole value
  | steps + 1, c, hole, value =>
    let parent := (hole - 1) / 2
    if 0 < hole ∧ c.getD parent 0 < value then
      pushHeap steps (c.set hole (c.getD parent 0)) parent value
    else c.set hole value

/-- Method `push` of `std::priority_queue<int>` on its backing vector `c`:
`c.push_back(x); std::push_heap(c.begin(), c.end(), comp);`. -/
def priorityQueuePush (c : List Int) (x : Int) : List Int :=
  pushHeap c.length (c ++ [x]) c.length x

/-! ### Vocabulary of the later statements -/

/-- The exception that leaves a call: `none` when the call returns, or does not
end. -/
def Outcome.exception {σ : Type} : Outcome σ → Option Exception
  | .ok _ => none
  | .thrown e _ => some e
  | .outOfFuel => none

/-- Elements listed from the greatest down, the order in which a priority queue
with `std::less` hands them out. -/
def descending (keys : List Int) : Prop := keys.Pairwise (fun a b => b ≤ a)

instance (keys : List Int) : Decidable (descending keys) := by
  unfold descending; infer_instance

/-- The backing vector of the priority queue built by pushing `xs` in order into an
empty one. -/
def priorityQueueOf (xs : List Int) : List Int := xs.foldl priorityQueuePush []

/-- The text `{"_className_":"Point"`, cut before the closing brace. -/
def pointTextCut : List Char := "\x7b\"_className_\":\"Point\"".toList

/-- The text `{"_className_":"Point","x":1,"z":2}`, with the unregistered name `z`. -/
def pointTextUnknown : List Char :=
  "\x7b\"_className_\":\"Point\",\"x\":1,\"z\":2\x7d".toList

/-! ### Vocabulary of the statements on field order and white space -/

/-- Names in ascending order of `std::string`, each one once: the iteration order of
a `std::map` keyed by name. -/
def Members.sorted (m : Members) : Prop := m.names.Pairwise (fun a b => strLt a b = true)

instance (m : Members) : Decidable m.sorted := by
  unfold Members.sorted; infer_instance

/-- The text `{"_className_":"Point"}`, which names no member. -/
def pointTextEmpty : List Char := "\x7b\"_className_\":\"Point\"\x7d".toList

/-- Spec-side `value (',' value)*` over integers, each element followed by the
white space given with it, which then stands right before the separator or
the closing bracket. -/
def paddedItems : List (Int × List Char) → List Char
  | [] => []
  | [x] => intText x.1 ++ x.2
  | x :: y :: rest => intText x.1 ++ (x.2 ++ JSON.elementSeparator :: paddedItems (y :: rest))

/-- Spec-side `array` rule over integers with white space before its delimiters:
`w0` before the opening bracket, and after each element the white space given
with it. -/
def paddedArrayText (w0 : List Char) (xs : List (Int × List Char)) : List Char :=
  w0 ++ JSON.beginArray :: (paddedItems xs ++ [JSON.endArray])

/-- An entry of an object text with the white space that stands before its
separator and before its colon. -/
structure PaddedMember where
  beforeSeparator : List Char
  name : List Char
  beforeColon : List Char
  value : Value
  deriving DecidableEq, Repr

namespace PaddedMember

/-- The entry without its white space. -/
def entry (e : PaddedMember) : List Char × Value := (e.name, e.value)

/-- Spec-side member `',' string ':' value` with white space before the separator
and before the colon. -/
def text (e : PaddedMember) : List Char :=
  e.beforeSeparator ++ JSON.elementSeparator ::
    (quoted e.name ++ (e.beforeColon ++ JSON.valueSeparator :: Serializer.write [] e.value))

/-- White space only in the two places. -/
def spaces (e : PaddedMember) : Prop :=
  (∀ w ∈ e.beforeSeparator, isSpace w = true) ∧ (∀ w ∈ e.beforeColon, isSpace w = true)

instance (e : PaddedMember) : Decidable e.spaces := by
  unfold spaces; infer_instance

end PaddedMember

/-- Spec-side `object` rule with white space before its delimiters: `w0` before the
opening brace, `w1` before the colon of the class-name tag, the white space of
every entry, and `w2` before the closing brace. -/
def paddedObjectText (w0 w1 w2 className : List Char) (es : List PaddedMember) : List Char :=
  w0 ++ JSON.beginObject :: (quoted classNameKey ++ (w1 ++ JSON.valueSeparator ::
    (quoted className ++ (es.flatMap PaddedMember.text ++ (w2 ++ [JSON.endObject])))))

/-! ### Decode of a priority queue, and the vocabulary of the re-encoding statement -/

/-- Source `SerializableSTLQueue<std::priority_queue<T>, T>::deserializeElem`:
`T tmp; dez->read(is, tmp); _instance.push(tmp);`, where `push` of a priority queue
is `push_back` on the backing vector followed by `std::push_heap`. -/
def SerializableSTLQueue.deserializeElemPriority (t : IntType) (tmp0 : Int) (is : IStream)
    (backing : List Int) : Outcome (IStream × List Int) :=
  let r := Deserializer.readInt t is tmp0
  .ok (r.1, priorityQueuePush backing r.2)

/-- Template `Deserializer::read` for `std::priority_queue<T>`, on the backing vector. -/
def Deserializer.readPriorityQueue (t : IntType) (fuel : Nat) (c0 : Char) (tmp0 : Int)
    (is : IStream) (backing : List Int) : Outcome (IStream × List Int) :=
  JsonDeserializer.readSTLContainer
    (fun _ i s => SerializableSTLQueue.deserializeElemPriority t tmp0 i s) fuel c0 is backing

/-- The heap order that `std::priority_queue` with `std::less` keeps on its backing
vector: no element is greater than its parent, the element at index
`(i - 1) / 2`. -/
def isHeap (c : List Int) : Prop :=
  ∀ i, i < c.length → 0 < i → c.getD i 0 ≤ c.getD ((i - 1) / 2) 0

instance (c : List Int) : Decidable (isHeap c) := by
  unfold isHeap; infer_instance

/-- Values whose encoding is decoded to a value with the same encoding: every
boolean, every integer that its type holds, every character that is not
white space, and every string without a quote before its first NUL. -/
def Value.reencodes : Value → Prop
  | .scalar x => x.roundTrips
  | .string s => JSON.quotationMark ∉ cstr s

instance (v : Value) : Decidable v.reencodes := by
  cases v <;> unfold Value.reencodes <;> infer_instance

/-- The value with the characters of a string from its first NUL on dropped; scalars
are kept. -/
def Value.cut : Value → Value
  | .scalar x => .scalar x
  | .string s => .string (cstr s)

/-! ## Lemmas on the stream operations -/

section StreamLemmas

theorem takeWhile_ne_append (d : Char) (s r : List Char) (h : d ∉ s) :
    (s ++ d :: r).takeWhile (fun x => x != d) = s := by
  induction s with
  | nil => simp
  | cons a t ih =>
    have hne : a ≠ d := fun e => h (by simp [e])
    have ht : d ∉ t := fun m => h (List.mem_cons_of_mem _ m)
    have hb : (a != d) = true := by simp [hne]
    simp [List.takeWhile_cons, hb, ih ht]

theorem dropWhile_ne_append (d : Char) (s r : List Char) (h : d ∉ s) :
    (s ++ d :: r).dropWhile (fun x => x != d) = d :: r := by
  induction s with
  | nil => simp
  | cons a t ih =>
    have hne : a ≠ d := fun e => h (by simp [e])
    have ht : d ∉ t := fun m => h (List.mem_cons_of_mem _ m)
    have hb : (a != d) = true := by simp [hne]
    simp [List.dropWhile_cons, hb, ih ht]

theorem takeWhile_ne_all (d : Char) (s : List Char) (h : d ∉ s) :
    s.takeWhile (fun x => x != d) = s := by
  induction s with
  | nil => simp
  | cons a t ih =>
    have hne : a ≠ d := fun e => h (by simp [e])
    have ht : d ∉ t := fun m => h (List.mem_cons_of_mem _ m)
    have hb : (a != d) = true := by simp [hne]
    simp [List.takeWhile_cons, hb, ih ht]

theorem dropWhile_ne_all (d : Char) (s : List Char) (h : d ∉ s) :
    s.dropWhile (fun x => x != d) = [] := by
  induction s with
  | nil => simp
  | cons a t ih =>
    have hne : a ≠ d := fun e => h (by simp [e])
    have ht : d ∉ t := fun m => h (List.mem_cons_of_mem _ m)
    have hb : (a != d) = true := by simp [hne]
    simp [List.dropWhile_cons, hb, ih ht]

theorem takeWhile_ne_split (d : Char) (l : List Char) :
    ∃ rest, l ++ [d] = l.takeWhile (fun x => x != d) ++ d :: rest ∧
      d ∉ l.takeWhile (fun x => x != d) := by
  induction l with
  | nil => exact ⟨[], by simp, by simp⟩
  | cons a t ih =>
    obtain ⟨rest, h1, h2⟩ := ih
    by_cases ha : a = d
    · subst ha
      exact ⟨t ++ [a], by simp [List.takeWhile_cons], by simp [List.takeWhile_cons]⟩
    · have hb : (a != d) = true := by simp [ha]
      refine ⟨rest, ?_, ?_⟩
      · simp only [List.takeWhile_cons, hb, if_true, List.cons_append, h1]
      · simp only [List.takeWhile_cons, hb, if_true, List.mem_cons, not_or]
        exact ⟨fun e => ha e.symm, h2⟩

theorem takeWhile_cstr (d : Char) (s : List Char) :
    (cstr s).takeWhile (fun x => x != d)
      = s.takeWhile (fun x => x != Char.ofNat 0 && x != d) := by
  induction s with
  | nil => rfl
  | cons a t ih =>
    unfold cstr at ih ⊢
    by_cases h0 : a = Char.ofNat 0
    · simp [List.takeWhile_cons, h0]
    · have hb0 : (a != Char.ofNat 0) = true := by simp [h0]
      by_cases hd : a = d
      · have hbd : (a != d) = false := by simp [hd]
        simp only [List.takeWhile_cons, hb0, hbd, if_true, Bool.and_false, Bool.false_eq_true,
          if_false]
      · have hbd : (a != d) = true := by simp [hd]
        simp only [List.takeWhile_cons, hb0, hbd, if_true, Bool.and_self, ih]

theorem takeWhile_both_of_nulFree (d : Char) (s : List Char)
    (h : Char.ofNat 0 ∉ s.takeWhile (fun x => x != d)) :
    s.takeWhile (fun x => x != Char.ofNat 0 && x != d) = s.takeWhile (fun x => x != d) := by
  induction s with
  | nil => rfl
  | cons a t ih =>
    by_cases hd : a = d
    · simp [List.takeWhile_cons, hd]
    · have hb : (a != d) = true := by simp [hd]
      simp only [List.takeWhile_cons, hb, if_true, List.mem_cons, not_or] at h
      have h0 : ¬ a = Char.ofNat 0 := fun e => h.1 e.symm
      simp [List.takeWhile_cons, hd, h0, ih h.2]

theorem cstr_of_nulFree (s : List Char) (h : Char.ofNat 0 ∉ s) : cstr s = s :=
  takeWhile_ne_all _ s h

theorem extractChar_cons (c x : Char) (rest : List Char) (hx : isSpace x = false) :
    extractChar (IStream.ofList (x :: rest)) c = (IStream.ofList rest, x) := by
  simp [extractChar, IStream.ofList, IStream.good, List.dropWhile, hx]

theorem extractChar_skip (c x : Char) (ws rest : List Char) (hws : ∀ w ∈ ws, isSpace w = true)
    (hx : isSpace x = false) :
    extractChar (IStream.ofList (ws ++ x :: rest)) c = (IStream.ofList rest, x) := by
  induction ws with
  | nil => simpa using extractChar_cons c x rest hx
  | cons w t ih =>
    have hw : isSpace w = true := hws w (by simp)
    have ht : ∀ v ∈ t, isSpace v = true := fun v hv => hws v (List.mem_cons_of_mem _ hv)
    have := ih ht
    simp [extractChar, IStream.ofList, IStream.good, List.dropWhile, hw] at this ⊢
    exact this

namespace JsonDeserializer

theorem searchQuote_append (p r : List Char) (fuel : Nat)
    (hp : JSON.quotationMark ∉ p) (hfuel : p.length < fuel) :
    searchQuote fuel (IStream.ofList (p ++ JSON.quotationMark :: r))
      = some (IStream.ofList (JSON.quotationMark :: r)) := by
  induction p generalizing fuel with
  | nil =>
    cases fuel with
    | zero => simp at hfuel
    | succ f => simp [searchQuote, peek, IStream.ofList, IStream.good]
  | cons a t ih =>
    have hne : a ≠ JSON.quotationMark := fun e => hp (by simp [e])
    have ht : JSON.quotationMark ∉ t := fun m => hp (List.mem_cons_of_mem _ m)
    cases fuel with
    | zero => simp at hfuel
    | succ f =>
      have hf : t.length < f := by simpa using hfuel
      have := ih f ht hf
      simp [searchQuote, peek, ignore1, IStream.ofList, IStream.good, hne] at this ⊢
      exact this

/-- Reading a quoted run: the bytes before the opening quote are dropped, the
bytes up to the next quote are returned and the rest stays unread. -/
theorem readString_quoted (p s r value : List Char) (fuel : Nat)
    (hp : JSON.quotationMark ∉ p) (hs : JSON.quotationMark ∉ s) (hfuel : p.length < fuel) :
    readString fuel
        (IStream.ofList (p ++ JSON.quotationMark :: (s ++ JSON.quotationMark :: r))) value
      = some (IStream.ofList r, s) := by
  unfold readString
  rw [searchQuote_append p _ fuel hp hfuel]
  simp [ignore1, getline, IStream.ofList, IStream.good, takeWhile_ne_append _ s r hs,
    dropWhile_ne_append _ s r hs]

/-- Reading a run that is opened but never closed: everything up to the end of
the buffer is returned and `eofbit` is raised. -/
theorem readString_unclosed (p s value : List Char) (fuel : Nat)
    (hp : JSON.quotationMark ∉ p) (hs : JSON.quotationMark ∉ s) (hfuel : p.length < fuel) :
    readString fuel (IStream.ofList (p ++ JSON.quotationMark :: s)) value
      = some (⟨[], true, s.isEmpty⟩, s) := by
  unfold readString
  rw [searchQuote_append p _ fuel hp hfuel]
  simp [ignore1, getline, IStream.ofList, IStream.good, takeWhile_ne_all _ s hs,
    dropWhile_ne_all _ s hs]

end JsonDeserializer

end StreamLemmas

/-! ## Lemmas on the scalar inserters and extractors -/

section ScalarLemmas

theorem digitChar_isDigit (k : Nat) (hk : k < 10) :
    isDigit (Nat.digitChar k) = true ∧ (Nat.digitChar k).toNat - 48 = k := by
  interval_cases k <;> exact ⟨by decide, by decide⟩

theorem digitsValue_append (ds : List Char) (d : Char) :
    digitsValue (ds ++ [d]) = 10 * digitsValue ds + (d.toNat - 48) := by
  simp [digitsValue, List.foldl_append]

/-- The digit loop of `Nat.toDigits` puts in front of its accumulator a non-empty
run of decimal digits whose value is the number it was given. -/
theorem toDigitsCore_run : ∀ (k m : Nat) (tl : List Char), m < k →
    ∃ run : List Char, (∀ c ∈ run, isDigit c = true) ∧ digitsValue run = m ∧ run ≠ [] ∧
      Nat.toDigitsCore 10 k m tl = run ++ tl := by
  intro k
  induction k with
  | zero => intro m tl h; exact absurd h (Nat.not_lt_zero _)
  | succ f ih =>
    intro m tl h
    have hd := digitChar_isDigit (m % 10) (Nat.mod_lt _ (by decide))
    by_cases h0 : m / 10 = 0
    · refine ⟨[Nat.digitChar (m % 10)], ?_, ?_, by simp, ?_⟩
      · intro c hc
        simp at hc
        rw [hc]; exact hd.1
      · have hm : m % 10 = m := by omega
        simp only [digitsValue, List.foldl_cons, List.foldl_nil, hd.2]
        omega
      · simp [Nat.toDigitsCore, h0]
    · have hlt : m / 10 < f := by omega
      obtain ⟨run, h3, h4, _, h1⟩ := ih (m / 10) (Nat.digitChar (m % 10) :: tl) hlt
      refine ⟨run ++ [Nat.digitChar (m % 10)], ?_, ?_, by simp, ?_⟩
      · intro c hc
        rcases List.mem_append.mp hc with hc | hc
        · exact h3 c hc
        · simp at hc
          rw [hc]; exact hd.1
      · rw [digitsValue_append, h4, hd.2]; omega
      · simp [Nat.toDigitsCore, h0, h1]

/-- The decimal digits of a number: a non-empty run of digits whose value is the number. -/
theorem toDigits_spec (n : Nat) :
    ∃ (d : Char) (ds : List Char), Nat.toDigits 10 n = d :: ds ∧
      (∀ c ∈ d :: ds, isDigit c = true) ∧ digitsValue (d :: ds) = n := by
  obtain ⟨l, h3, h4, h2, h1⟩ := toDigitsCore_run (n + 1) n [] (Nat.lt_succ_self n)
  cases l with
  | nil => exact absurd rfl h2
  | cons d ds => exact ⟨d, ds, by simpa [Nat.toDigits] using h1, h3, h4⟩

theorem isDigit_not_space (c : Char) (h : isDigit c = true) : isSpace c = false := by
  simp [isDigit, isSpace] at h ⊢
  omega

theorem isDigit_not_sign (c : Char) (h : isDigit c = true) : c ≠ '-' ∧ c ≠ '+' := by
  constructor <;> intro e <;> rw [e] at h <;> exact absurd h (by decide)

theorem takeWhile_digits_append (ds tail : List Char) (h : ∀ c ∈ ds, isDigit c = true)
    (htail : ∀ c ∈ tail.head?, isDigit c = false) :
    (ds ++ tail).takeWhile isDigit = ds ∧ (ds ++ tail).dropWhile isDigit = tail := by
  induction ds with
  | nil =>
    cases tail with
    | nil => simp
    | cons x xs =>
      have hx : isDigit x = false := htail x (by simp)
      simp [List.takeWhile_cons, List.dropWhile_cons, hx]
  | cons a t ih =>
    have ha : isDigit a = true := h a (by simp)
    have ht := ih (fun c hc => h c (List.mem_cons_of_mem _ hc))
    simp [List.takeWhile_cons, List.dropWhile_cons, ha, ht.1, ht.2]

/-- What the integer extractor makes of the decimal text of any integer `n`, up to
a following character that is not a digit: the field is the whole text, and
only the range checks of the target type remain. -/
theorem extractInt_insertInt_eq (t : IntType) (n old : Int) (tail : List Char)
    (htail : ∀ c ∈ tail.head?, isDigit c = false) :
    extractInt t (IStream.ofList (insertInt [] n ++ tail)) old
      = if t.signed then
          if n < 0 then
            if n < t.minVal then (⟨tail, tail.isEmpty, true⟩, t.minVal)
            else (⟨tail, tail.isEmpty, false⟩, n)
          else
            if t.maxVal < n then (⟨tail, tail.isEmpty, true⟩, t.maxVal)
            else (⟨tail, tail.isEmpty, false⟩, n)
        else
          if t.maxVal < (n.natAbs : Int) then (⟨tail, tail.isEmpty, true⟩, t.maxVal)
          else (⟨tail, tail.isEmpty, false⟩,
            if n < 0 then (2 ^ t.bits - (n.natAbs : Int)) % 2 ^ t.bits else n) := by
  obtain ⟨d, ds, hds, hall, hval⟩ := toDigits_spec n.natAbs
  have hd : isDigit d = true := hall d (by simp)
  have hsp := isDigit_not_space d hd
  have hsg := isDigit_not_sign d hd
  have htd := takeWhile_digits_append (d :: ds) tail hall htail
  rw [List.cons_append] at htd
  have hdrop : ∀ (x : Char) (rest : List Char), isSpace x = false →
      List.dropWhile isSpace (x :: rest) = x :: rest := by
    intro x rest hx; simp [List.dropWhile_cons, hx]
  have hne : (d :: ds).isEmpty = false := rfl
  by_cases hn : n < 0
  · have hm : (-(↑(n.natAbs) : Int)) = n := by omega
    simp only [insertInt, hn, if_true, hds, List.nil_append, List.cons_append]
    have hminus : isSpace '-' = false := by decide
    simp only [extractInt, IStream.ofList, IStream.good, Bool.not_false, Bool.and_self, if_true,
      hdrop _ _ hminus]
    simp only [beq_self_eq_true, Bool.true_or, if_true, htd.1, htd.2, hne, Bool.false_eq_true,
      if_false, hval, hm]
  · have hm : ((↑(n.natAbs) : Int)) = n := by omega
    simp only [insertInt, hn, if_false, hds, List.nil_append, List.cons_append]
    simp only [extractInt, IStream.ofList, IStream.good, Bool.not_false, Bool.and_self, if_true,
      hdrop _ _ hsp]
    have h1 : (d == '-') = false := by simp [hsg.1]
    have h2 : (d == '+') = false := by simp [hsg.2]
    simp only [h1, h2, Bool.or_self, Bool.false_eq_true, if_false, htd.1, htd.2, hne, hval, hm]

/-- An integer that the type holds is read back from its decimal text, up to a
following character that is not a digit. -/
theorem extractInt_insertInt (t : IntType) (n old : Int) (tail : List Char)
    (h : t.holds n) (htail : ∀ c ∈ tail.head?, isDigit c = false) :
    extractInt t (IStream.ofList (insertInt [] n ++ tail)) old
      = (⟨tail, tail.isEmpty, false⟩, n) := by
  rw [extractInt_insertInt_eq t n old tail htail]
  have hmaxle : n ≤ t.maxVal := h.2
  have hminle : t.minVal ≤ n := h.1
  by_cases hs : t.signed = true
  · by_cases hn : n < 0
    · simp [hs, hn, not_lt.mpr hminle]
    · simp [hs, hn, not_lt.mpr hmaxle]
  · have h0 : 0 ≤ n := by
      simp [IntType.minVal, hs] at hminle
      exact hminle
    have hm : ((↑(n.natAbs) : Int)) = n := by omega
    simp [hs, hm, not_lt.mpr hmaxle, not_lt.mpr h0]

/-- An integer that the type does not hold is not read back from its decimal text. -/
theorem extractInt_insertInt_ne (t : IntType) (n old : Int) (h : ¬ t.holds n) :
    (extractInt t (IStream.ofList (insertInt [] n)) old).2 ≠ n := by
  have heq := extractInt_insertInt_eq t n old [] (by simp)
  rw [List.append_nil] at heq
  rw [heq]
  have hpow : (0 : Int) < 2 ^ t.bits := by positivity
  have hpow1 : (0 : Int) < 2 ^ (t.bits - 1) := by positivity
  by_cases hs : t.signed = true
  · simp only [IntType.holds, IntType.minVal, IntType.maxVal, hs, if_true, not_and_or, not_le] at h ⊢
    by_cases hn : n < 0
    · have hlt : n < -(2 ^ (t.bits - 1)) := by omega
      simp only [hn, hlt, if_true]
      omega
    · have hlt : 2 ^ (t.bits - 1) - 1 < n := by omega
      simp only [hn, hlt, if_true, if_false]
      omega
  · simp only [IntType.holds, IntType.minVal, IntType.maxVal, hs, if_false, not_and_or, not_le,
      Bool.false_eq_true] at h ⊢
    by_cases hbig : 2 ^ t.bits - 1 < (n.natAbs : Int)
    · simp only [hbig, if_true]
      omega
    · simp only [hbig, if_false]
      have hn : n < 0 := by omega
      simp only [hn, if_true]
      have := Int.emod_nonneg (2 ^ t.bits - (n.natAbs : Int)) (ne_of_gt hpow)
      omega

theorem extractBool_insertBool (b old : Bool) (tail : List Char) :
    extractBool (IStream.ofList (insertBool [] b ++ tail)) old = (IStream.ofList tail, b) := by
  cases b <;> simp [extractBool, insertBool, matchName, IStream.ofList, IStream.good,
    List.dropWhile_cons, isSpace]

end ScalarLemmas

/-! ## Lemmas on the member table and on the object loops -/

section ObjectLemmas

theorem write_append (os : List Char) (v : Value) :
    Serializer.write os v = os ++ Serializer.write [] v := by
  cases v with
  | scalar x =>
    cases x <;> simp [Serializer.write, JsonSerializer.writeValue, insertBool, insertInt]
    split <;> simp
  | string s => simp [Serializer.write, JsonSerializer.writeString]

theorem writeString_eq (os s : List Char) (h : Char.ofNat 0 ∉ s) :
    JsonSerializer.writeString os s = os ++ quoted s := by
  simp [JsonSerializer.writeString, quoted, cstr_of_nulFree s h]

theorem writeMembers_eq (es : Members) : ∀ (os : List Char),
    (∀ e ∈ es, Char.ofNat 0 ∉ e.1) →
    JsonSerializer.writeMembers os es = os ++ es.flatMap memberText := by
  induction es with
  | nil => intro os _; simp [JsonSerializer.writeMembers]
  | cons e t ih =>
    intro os h
    have he : Char.ofNat 0 ∉ e.1 := h e (by simp)
    have ht : ∀ x ∈ t, Char.ofNat 0 ∉ x.1 := fun x hx => h x (List.mem_cons_of_mem _ hx)
    simp only [JsonSerializer.writeMembers, Serializable.serializeElemName,
      Serializable.serializeElemValue]
    rw [ih _ ht, write_append _ e.2]
    simp [Serializer.write, writeString_eq _ _ he, memberText, List.flatMap_cons]

theorem writeSerializable_eq (os : List Char) (object : Serializable)
    (hc : Char.ofNat 0 ∉ object.className)
    (h : ∀ e ∈ object.members, Char.ofNat 0 ∉ e.1) :
    JsonSerializer.writeSerializable os object
      = os ++ objectText object.className object.members := by
  have hk : Char.ofNat 0 ∉ classNameKey := by decide
  simp only [JsonSerializer.writeSerializable, Serializable.getClassName]
  rw [writeMembers_eq _ _ h, cstr_of_nulFree _ hc, writeString_eq _ _ hc, writeString_eq _ _ hk]
  simp [objectText]

namespace Members

theorem find_assign_ne (m : Members) (n k : List Char) (v : Value) (h : k ≠ n) :
    (m.assign n v).find k = m.find k := by
  induction m with
  | nil => rfl
  | cons a t ih =>
    obtain ⟨a1, a2⟩ := a
    by_cases ha : a1 = n
    · have hk : ¬ a1 = k := fun e => h (e ▸ ha)
      simp [assign, find, ha, hk, Ne.symm h]
    · by_cases hk : a1 = k
      · subst hk
        simp [assign, find, ha]
      · simp [assign, find, ha, hk, ih]

theorem find_assign_eq (m : Members) (n : List Char) (v old : Value)
    (h : m.find n = some (n, old)) : (m.assign n v).find n = some (n, v) := by
  induction m with
  | nil => simp [find] at h
  | cons a t ih =>
    obtain ⟨a1, a2⟩ := a
    by_cases ha : a1 = n
    · simp [assign, find, ha]
    · simp [find, ha] at h
      simp [assign, find, ha, ih h]

theorem assignAll_cons_of_not_mem (es : Members) : ∀ (m : Members) (n : List Char) (v : Value),
    n ∉ es.names → assignAll ((n, v) :: m) es = (n, v) :: assignAll m es := by
  induction es with
  | nil => intro m n v _; rfl
  | cons e t ih =>
    intro m n v h
    simp only [names, List.map_cons, List.mem_cons, not_or] at h
    have ht : n ∉ names t := h.2
    have := ih (m.assign e.1 e.2) n v ht
    simp only [assignAll, List.foldl_cons, assign, h.1, if_false] at this ⊢
    exact this

theorem assignAll_self (es : Members) : ∀ (m : Members),
    es.names.Nodup → m.signature = es.signature → m.assignAll es = es := by
  induction es with
  | nil =>
    intro m _ hsig
    cases m with
    | nil => rfl
    | cons a m' => simp [signature] at hsig
  | cons e t ih =>
    intro m hnd hsig
    cases m with
    | nil => simp [signature] at hsig
    | cons a m' =>
      obtain ⟨a1, a2⟩ := a
      obtain ⟨e1, e2⟩ := e
      simp only [signature, List.map_cons, List.cons.injEq, Prod.mk.injEq] at hsig
      obtain ⟨⟨h1, _⟩, hrest⟩ := hsig
      simp only [names, List.map_cons, List.nodup_cons] at hnd
      have hstep : assignAll ((a1, a2) :: m') ((e1, e2) :: t)
          = assignAll ((e1, e2) :: m') t := by
        simp [assignAll, assign, h1]
      rw [hstep, assignAll_cons_of_not_mem t m' e1 e2 hnd.1, ih m' hnd.2 hrest]

theorem find_of_signature (es : Members) : ∀ (m : Members),
    es.names.Nodup → m.signature = es.signature →
    ∀ e ∈ es, ∃ old, m.find e.1 = some (e.1, old) ∧ old.type = e.2.type := by
  induction es with
  | nil => intro m _ _ e he; simp at he
  | cons b t ih =>
    intro m hnd hsig e he
    cases m with
    | nil => simp [signature] at hsig
    | cons a m' =>
      obtain ⟨a1, a2⟩ := a
      obtain ⟨b1, b2⟩ := b
      simp only [signature, List.map_cons, List.cons.injEq, Prod.mk.injEq] at hsig
      obtain ⟨⟨h1, h2⟩, hrest⟩ := hsig
      simp only [names, List.map_cons, List.nodup_cons] at hnd
      rcases List.mem_cons.mp he with hb | ht
      · subst hb
        exact ⟨a2, by simp [find, h1], h2⟩
      · have hne : ¬ a1 = e.1 := by
          intro x
          apply hnd.1
          rw [← h1, x]
          exact List.mem_map_of_mem Prod.fst ht
        obtain ⟨old, ho, hty⟩ := ih m' hnd.2 hrest e ht
        exact ⟨old, by simp [find, hne, ho], hty⟩

theorem find_key (m : Members) (n : List Char) (x : List Char × Value)
    (h : m.find n = some x) : x.1 = n := by
  induction m with
  | nil => simp [find] at h
  | cons a t ih =>
    by_cases ha : a.1 = n
    · simp only [find, ha, if_true, Option.some.injEq] at h
      rw [← h]
    · simp only [find, ha, if_false] at h
      exact ih h

theorem find_of_typeOf (m : Members) (n : List Char) (t : ValueType)
    (h : m.typeOf n = some t) : ∃ old, m.find n = some (n, old) ∧ old.type = t := by
  unfold typeOf at h
  cases hf : m.find n with
  | none => simp [hf] at h
  | some x =>
    have hk := find_key m n x hf
    obtain ⟨x1, x2⟩ := x
    simp at hk
    subst hk
    exact ⟨x2, rfl, by simpa [hf] using h⟩

theorem find_none_of_not_mem (m : Members) (n : List Char) (h : n ∉ m.names) :
    m.find n = none := by
  induction m with
  | nil => rfl
  | cons a t ih =>
    simp only [names, List.map_cons, List.mem_cons, not_or] at h
    have ha : ¬ a.1 = n := fun e => h.1 e.symm
    simp [find, ha, ih h.2]

theorem names_assign (m : Members) (n : List Char) (v : Value) :
    (m.assign n v).names = m.names := by
  induction m with
  | nil => rfl
  | cons a t ih =>
    by_cases ha : a.1 = n
    · simp [assign, names, ha]
    · simp only [names] at ih
      simp [assign, names, ha, ih]

theorem names_assignAll (es : Members) : ∀ (m : Members), (m.assignAll es).names = m.names := by
  induction es with
  | nil => intro m; rfl
  | cons e t ih =>
    intro m
    have := ih (m.assign e.1 e.2)
    rw [names_assign] at this
    simpa [assignAll] using this

end Members

/-- A value that round-trips is read back from its text in front of any
character that is not a digit; the rest of the buffer stays unread. -/
theorem read_write_before (v old : Value) (d : Char) (tail : List Char) (fuel : Nat)
    (hv : v.roundTrips) (hty : old.type = v.type) (hd : isDigit d = false)
    (hfuel : 0 < fuel) :
    Deserializer.read fuel (IStream.ofList (Serializer.write [] v ++ d :: tail)) old
      = .ok (IStream.ofList (d :: tail), v) := by
  cases v with
  | scalar x =>
    cases old with
    | string s => simp [Value.type] at hty
    | scalar y =>
      simp only [Value.type, ValueType.scalar.injEq] at hty
      cases x with
      | bool b =>
        cases y with
        | bool o =>
          simp [Deserializer.read, Serializer.write, JsonDeserializer.readValue,
            JsonSerializer.writeValue, extractBool_insertBool]
        | char o => simp [Scalar.type] at hty
        | unsignedChar o => simp [Scalar.type] at hty
        | int u o => simp [Scalar.type] at hty
      | char c =>
        have hc : isSpace c = false := hv
        cases y with
        | bool o => simp [Scalar.type] at hty
        | char o =>
          simp [Deserializer.read, Serializer.write, JsonDeserializer.readValue,
            JsonSerializer.writeValue, extractChar_cons _ c _ hc]
        | unsignedChar o => simp [Scalar.type] at hty
        | int u o => simp [Scalar.type] at hty
      | unsignedChar c =>
        have hc : isSpace c = false := hv
        cases y with
        | bool o => simp [Scalar.type] at hty
        | char o => simp [Scalar.type] at hty
        | unsignedChar o =>
          simp [Deserializer.read, Serializer.write, JsonDeserializer.readValue,
            JsonSerializer.writeValue, extractChar_cons _ c _ hc]
        | int u o => simp [Scalar.type] at hty
      | int t n =>
        have hn : t.holds n := hv
        cases y with
        | bool o => simp [Scalar.type] at hty
        | char o => simp [Scalar.type] at hty
        | unsignedChar o => simp [Scalar.type] at hty
        | int u o =>
          have hu : u = t := by simpa [Scalar.type] using hty
          subst hu
          have := extractInt_insertInt u n o (d :: tail) hn (by simp [hd])
          simp only [Deserializer.read, Serializer.write, JsonDeserializer.readValue,
            JsonSerializer.writeValue, this]
          simp [IStream.ofList]
  | string s =>
    cases old with
    | scalar y => simp [Value.type] at hty
    | string o =>
      have hs : JSON.quotationMark ∉ s ∧ Char.ofNat 0 ∉ s := hv
      have := JsonDeserializer.readString_quoted [] s (d :: tail) o fuel (by simp) hs.1
        (by simpa using hfuel)
      simp only [List.nil_append] at this
      simp [Deserializer.read, Serializer.write, JsonSerializer.writeString,
        cstr_of_nulFree s hs.2, this]

/-- The values singled out by `Value.roundTrips` round-trip on their own. -/
theorem roundTripsAlone_of_roundTrips (v : Value) (hv : v.roundTrips) : v.roundTripsAlone := by
  intro old fuel hty hfuel
  cases v with
  | scalar x =>
    cases old with
    | string s => simp [Value.type] at hty
    | scalar y =>
      simp only [Value.type, ValueType.scalar.injEq] at hty
      cases x with
      | bool b =>
        cases y with
        | bool o =>
          have h := extractBool_insertBool b o []
          rw [List.append_nil] at h
          exact ⟨IStream.ofList [], by simp [Deserializer.read, Serializer.write,
            JsonDeserializer.readValue, JsonSerializer.writeValue, h]⟩
        | char o => simp [Scalar.type] at hty
        | unsignedChar o => simp [Scalar.type] at hty
        | int u o => simp [Scalar.type] at hty
      | char c =>
        have hc : isSpace c = false := hv
        cases y with
        | bool o => simp [Scalar.type] at hty
        | char o =>
          exact ⟨IStream.ofList [], by simp [Deserializer.read, Serializer.write,
            JsonDeserializer.readValue, JsonSerializer.writeValue, extractChar_cons _ c _ hc]⟩
        | unsignedChar o => simp [Scalar.type] at hty
        | int u o => simp [Scalar.type] at hty
      | unsignedChar c =>
        have hc : isSpace c = false := hv
        cases y with
        | bool o => simp [Scalar.type] at hty
        | char o => simp [Scalar.type] at hty
        | unsignedChar o =>
          exact ⟨IStream.ofList [], by simp [Deserializer.read, Serializer.write,
            JsonDeserializer.readValue, JsonSerializer.writeValue, extractChar_cons _ c _ hc]⟩
        | int u o => simp [Scalar.type] at hty
      | int t n =>
        have hn : t.holds n := hv
        cases y with
        | bool o => simp [Scalar.type] at hty
        | char o => simp [Scalar.type] at hty
        | unsignedChar o => simp [Scalar.type] at hty
        | int u o =>
          have hu : u = t := by simpa [Scalar.type] using hty
          subst hu
          have h := extractInt_insertInt u n o [] hn (by simp)
          rw [List.append_nil] at h
          exact ⟨⟨[], true, false⟩, by simp [Deserializer.read, Serializer.write,
            JsonDeserializer.readValue, JsonSerializer.writeValue, h]⟩
  | string s =>
    cases old with
    | scalar y => simp [Value.type] at hty
    | string o =>
      have hs : JSON.quotationMark ∉ s ∧ Char.ofNat 0 ∉ s := hv
      have h := JsonDeserializer.readString_quoted [] s [] o fuel (by simp) hs.1
        (by simpa using hfuel)
      simp only [List.nil_append] at h
      exact ⟨IStream.ofList [], by simp [Deserializer.read, Serializer.write,
        JsonSerializer.writeString, cstr_of_nulFree s hs.2, h]⟩

/-- A value that round-trips on its own is one of those singled out by
`Value.roundTrips`: white-space characters, integers outside their type and strings
with a quote or a NUL do not come back. -/
theorem roundTrips_of_roundTripsAlone (v : Value) (hv : v.roundTripsAlone) : v.roundTrips := by
  cases v with
  | scalar x =>
    cases x with
    | bool b => trivial
    | char c =>
      show isSpace c = false
      by_contra hsp
      have hsp' : isSpace c = true := by simpa using hsp
      obtain ⟨is1, h⟩ := hv (.scalar (.char (if c = 'a' then 'b' else 'a'))) 1 rfl (by decide)
      simp [Deserializer.read, Serializer.write, JsonDeserializer.readValue,
        JsonSerializer.writeValue, extractChar, IStream.ofList, IStream.good,
        List.dropWhile_cons, hsp'] at h
      by_cases hc : c = 'a'
      · rw [hc] at h; simp at h
      · simp [hc] at h
        exact hc h.2.symm
    | unsignedChar c =>
      show isSpace c = false
      by_contra hsp
      have hsp' : isSpace c = true := by simpa using hsp
      obtain ⟨is1, h⟩ :=
        hv (.scalar (.unsignedChar (if c = 'a' then 'b' else 'a'))) 1 rfl (by decide)
      simp [Deserializer.read, Serializer.write, JsonDeserializer.readValue,
        JsonSerializer.writeValue, extractChar, IStream.ofList, IStream.good,
        List.dropWhile_cons, hsp'] at h
      by_cases hc : c = 'a'
      · rw [hc] at h; simp at h
      · simp [hc] at h
        exact hc h.2.symm
    | int t n =>
      show t.holds n
      by_contra hn
      obtain ⟨is1, h⟩ := hv (.scalar (.int t n)) 1 rfl (by decide)
      have hne := extractInt_insertInt_ne t n n hn
      simp [Deserializer.read, Serializer.write, JsonDeserializer.readValue,
        JsonSerializer.writeValue] at h
      exact hne h.2
  | string s =>
    obtain ⟨is1, h⟩ := hv (.string []) 1 rfl (by decide)
    obtain ⟨rest, h1, h2⟩ := takeWhile_ne_split JSON.quotationMark (cstr s)
    have hr := JsonDeserializer.readString_quoted [] _ rest [] 1 (by simp) h2 (by simp)
    rw [List.nil_append, ← h1] at hr
    have hw : Serializer.write [] (.string s)
        = JSON.quotationMark :: (cstr s ++ [JSON.quotationMark]) := by
      simp [Serializer.write, JsonSerializer.writeString]
    rw [hw] at h
    simp only [Deserializer.read, hr, Outcome.ok.injEq, Prod.mk.injEq, Value.string.injEq] at h
    have hnul : Char.ofNat 0 ∉ List.takeWhile (fun x => x != JSON.quotationMark) (cstr s) := by
      intro hmem
      have h3 := (List.takeWhile_sublist _).subset hmem
      unfold cstr at h3
      have h4 := List.mem_takeWhile_imp h3
      simp at h4
    rw [h.2] at h2 hnul
    exact ⟨h2, hnul⟩

theorem memberText_run_head (es : Members) (cEnd : Char) (rest : List Char)
    (h : isDigit cEnd = false) :
    ∃ d tail, es.flatMap memberText ++ cEnd :: rest = d :: tail ∧ isDigit d = false := by
  cases es with
  | nil => exact ⟨cEnd, rest, by simp, h⟩
  | cons e t =>
    exact ⟨JSON.elementSeparator, _, by simp [memberText, List.flatMap_cons]; rfl, by decide⟩

theorem deserializeElemName_quoted (p name rest : List Char) (object : Serializable) (fuel : Nat)
    (hp : JSON.quotationMark ∉ p) (hn : JSON.quotationMark ∉ name) (hfuel : p.length < fuel) :
    Serializable.deserializeElemName fuel
        (IStream.ofList (p ++ JSON.quotationMark :: (name ++ JSON.quotationMark :: rest))) object
      = some (IStream.ofList rest, object.members.find name) := by
  simp [Serializable.deserializeElemName,
    JsonDeserializer.readString_quoted p name rest [] fuel hp hn hfuel]

/-- The member loop over a run of member texts whose names are registered and
whose values round-trip: every entry is assigned in order, and the loop goes
on with the character that follows the run. -/
theorem readMembers_entries (es : Members) :
    ∀ (object : Serializable) (fuel : Nat) (c cEnd : Char) (rest : List Char),
    (∀ e ∈ es, JSON.quotationMark ∉ e.1 ∧ e.2.roundTrips ∧
        ∃ old, object.members.find e.1 = some (e.1, old) ∧ old.type = e.2.type) →
    isSpace cEnd = false → isDigit cEnd = false → 0 < fuel →
    JsonDeserializer.readMembers (fuel + es.length)
        (extractChar (IStream.ofList (es.flatMap memberText ++ cEnd :: rest)) c).1
        (extractChar (IStream.ofList (es.flatMap memberText ++ cEnd :: rest)) c).2 object
      = JsonDeserializer.readMembers fuel (IStream.ofList rest) cEnd
          { object with members := object.members.assignAll es } := by
  induction es with
  | nil =>
    intro object fuel c cEnd rest _ hsp _ _
    simp [extractChar_cons c cEnd rest hsp, Members.assignAll]
  | cons e t ih =>
    intro object fuel c cEnd rest h hsp hdg hfuel
    obtain ⟨hq, hv, old, hfind, hty⟩ := h e (by simp)
    obtain ⟨d, tl, htail, hd⟩ := memberText_run_head t cEnd rest hdg
    have hbuf : (e :: t).flatMap memberText ++ cEnd :: rest
        = JSON.elementSeparator :: ([] ++ JSON.quotationMark :: (e.1 ++ JSON.quotationMark ::
            (JSON.valueSeparator :: (Serializer.write [] e.2 ++ d :: tl)))) := by
      rw [← htail]
      simp [memberText, quoted, List.flatMap_cons]
    have hname := deserializeElemName_quoted [] e.1
      (JSON.valueSeparator :: (Serializer.write [] e.2 ++ d :: tl)) object (fuel + t.length)
      (by simp) hq (by simp; omega)
    have hval := read_write_before e.2 old d tl (fuel + t.length) hv hty hd (by omega)
    have hsep : isSpace JSON.elementSeparator = false := by decide
    have hcol : isSpace JSON.valueSeparator = false := by decide
    have hloop : (JSON.elementSeparator != JSON.endObject && !isEOFChar JSON.elementSeparator)
        = true := by decide
    have hnext : ∀ e' ∈ t, JSON.quotationMark ∉ e'.1 ∧ e'.2.roundTrips ∧
        ∃ old', (object.members.assign e.1 e.2).find e'.1 = some (e'.1, old') ∧
          old'.type = e'.2.type := by
      intro e' he'
      obtain ⟨hq', hv', old', hfind', hty'⟩ := h e' (List.mem_cons_of_mem _ he')
      refine ⟨hq', hv', ?_⟩
      by_cases hsame : e'.1 = e.1
      · refine ⟨e.2, ?_, ?_⟩
        · rw [hsame]; exact Members.find_assign_eq _ _ _ _ hfind
        · rw [hsame, hfind] at hfind'
          have : old = old' := by simpa using hfind'
          rw [← hty', ← this, hty]
      · exact ⟨old', by rw [Members.find_assign_ne _ _ _ _ hsame]; exact hfind', hty'⟩
    have hrec := ih { object with members := object.members.assign e.1 e.2 }
      fuel JSON.valueSeparator cEnd rest hnext hsp hdg hfuel
    rw [hbuf, extractChar_cons c _ _ hsep]
    have hlen : fuel + (e :: t).length = (fuel + t.length) + 1 := by simp; omega
    rw [hlen, JsonDeserializer.readMembers]
    simp only [hloop, if_true, bne_self_eq_false, Bool.false_eq_true, if_false, hname, hfind,
      extractChar_cons _ _ _ hcol, Serializable.deserializeElemValue, hval]
    rw [← htail]
    simpa [Members.assignAll] using hrec

/-- The checks of `readSerializable` before the member loop, on a text that opens
with a brace, a first key and a class-name string. -/
theorem readSerializable_header (w1 p1 w2 p2 name rest : List Char) (object : Serializable)
    (fuel : Nat) (c0 : Char)
    (hw1 : ∀ w ∈ w1, isSpace w = true) (hp1 : JSON.quotationMark ∉ p1)
    (hw2 : ∀ w ∈ w2, isSpace w = true) (hp2 : JSON.quotationMark ∉ p2)
    (hn : JSON.quotationMark ∉ name) (hf1 : p1.length < fuel) (hf2 : p2.length < fuel) :
    JsonDeserializer.readSerializable fuel c0
        (IStream.ofList (w1 ++ JSON.beginObject :: (p1 ++ JSON.quotationMark :: (classNameKey ++
          JSON.quotationMark :: (w2 ++ JSON.valueSeparator :: (p2 ++ JSON.quotationMark ::
            (name ++ JSON.quotationMark :: rest))))))) object
      = if name != object.getClassName then .thrown .jsonExceptionPtr (IStream.ofList rest, object)
        else
          match JsonDeserializer.readMembers fuel
              (extractChar (IStream.ofList rest) JSON.elementSeparator).1
              (extractChar (IStream.ofList rest) JSON.elementSeparator).2 object with
          | .ok s =>
            if s.2.1 != JSON.endObject then .thrown .jsonExceptionPtr (s.1, s.2.2)
            else .ok (s.1, s.2.2)
          | .thrown e s => .thrown e (s.1, s.2.2)
          | .outOfFuel => .outOfFuel := by
  have hb : isSpace JSON.beginObject = false := by decide
  have hc : isSpace JSON.valueSeparator = false := by decide
  have hk : JSON.quotationMark ∉ classNameKey := by decide
  unfold JsonDeserializer.readSerializable
  simp only [extractChar_skip c0 _ w1 _ hw1 hb, bne_self_eq_false, Bool.false_eq_true, if_false,
    JsonDeserializer.readString_quoted p1 classNameKey _ [] fuel hp1 hk hf1,
    extractChar_skip _ _ w2 _ hw2 hc,
    JsonDeserializer.readString_quoted p2 name rest classNameKey fuel hp2 hn hf2]

/-- Decoding the text written for an object into a target of the same class. -/
theorem readSerializable_written (obj target : Serializable) (fuel : Nat) (c0 : Char)
    (hnames : obj.plainNames) (hvals : ∀ e ∈ obj.members, e.2.roundTrips)
    (hclass : target.sameClass obj) (hfuel : obj.members.length < fuel) :
    JsonDeserializer.readSerializable fuel c0
        (IStream.ofList (JsonSerializer.writeSerializable [] obj)) target
      = .ok (IStream.ofList [], obj) := by
  obtain ⟨hq, hnul, hmem, hnd⟩ := hnames
  obtain ⟨hcn, hsig⟩ := hclass
  have htext := writeSerializable_eq [] obj hnul (fun e he => (hmem e he).2)
  have hcls : target.getClassName = obj.className := by
    simp [Serializable.getClassName, hcn, cstr_of_nulFree _ hnul]
  have hhead := readSerializable_header [] [] [] [] obj.className
    (obj.members.flatMap memberText ++ [JSON.endObject]) target fuel c0
    (by simp) (by simp) (by simp) (by simp) hq (by simp; omega) (by simp; omega)
  have hentries : ∀ e ∈ obj.members, JSON.quotationMark ∉ e.1 ∧ e.2.roundTrips ∧
      ∃ old, target.members.find e.1 = some (e.1, old) ∧ old.type = e.2.type := by
    intro e he
    exact ⟨(hmem e he).1, hvals e he, Members.find_of_signature obj.members target.members hnd hsig e he⟩
  obtain ⟨f, hf⟩ : ∃ f, fuel = (f + 1) + obj.members.length := ⟨fuel - obj.members.length - 1, by omega⟩
  have hloop := readMembers_entries obj.members target (f + 1) JSON.elementSeparator
    JSON.endObject [] hentries (by decide) (by decide) (by omega)
  rw [htext]
  simp only [List.nil_append, objectText, quoted] at hhead ⊢
  simp only [List.append_assoc, List.cons_append, List.nil_append] at hhead ⊢
  rw [hhead, hcls]
  simp only [bne_self_eq_false, Bool.false_eq_true, if_false]
  rw [hf, hloop, JsonDeserializer.readMembers]
  have hend : (JSON.endObject != JSON.endObject && !isEOFChar JSON.endObject) = false := by decide
  simp only [hend, Bool.false_eq_true, if_false, bne_self_eq_false]
  rw [Members.assignAll_self obj.members target.members hnd hsig]
  cases target
  simp at hcn
  simp [hcn]

end ObjectLemmas

/-! ## Lemmas on arrays and containers -/

section ContainerLemmas

theorem joinItems_cons (x : List Char) (rest : List (List Char)) :
    joinItems (x :: rest) = x ++ rest.flatMap (fun y => JSON.elementSeparator :: y) := by
  induction rest generalizing x with
  | nil => simp [joinItems]
  | cons y ys ih =>
    rw [joinItems, ih y]
    simp [List.flatMap_cons]

theorem joinItems_cons_cons (x y : List Char) (rest : List (List Char)) :
    joinItems (x :: y :: rest) = x ++ JSON.elementSeparator :: joinItems (y :: rest) := by
  rw [joinItems]

theorem joinItems_append (pre post : List (List Char)) (hpre : pre ≠ []) (hpost : post ≠ []) :
    joinItems (pre ++ post) = joinItems pre ++ JSON.elementSeparator :: joinItems post := by
  induction pre with
  | nil => exact absurd rfl hpre
  | cons x xs ih =>
    cases xs with
    | nil =>
      cases post with
      | nil => exact absurd rfl hpost
      | cons p ps => simp [joinItems]
    | cons y ys =>
      have h := ih (by simp)
      simp only [List.cons_append] at h ⊢
      rw [joinItems_cons_cons, h, joinItems_cons_cons]
      simp

namespace JsonSerializer

theorem writeElements_false {ε : Type} (serializeElem : List Char → ε → List Char)
    (txt : ε → List Char) (hser : ∀ os e, serializeElem os e = os ++ txt e)
    (elements : List ε) : ∀ (os : List Char),
    writeElements serializeElem os false elements
      = os ++ elements.flatMap (fun e => JSON.elementSeparator :: txt e) := by
  induction elements with
  | nil => intro os; simp [writeElements]
  | cons e rest ih =>
    intro os
    simp [writeElements, ih, hser, List.flatMap_cons]

/-- The cursor loop of `writeSTLContainer` writes the `array` rule over the element texts. -/
theorem writeSTLContainer_eq {ε : Type} (serializeElem : List Char → ε → List Char)
    (txt : ε → List Char) (hser : ∀ os e, serializeElem os e = os ++ txt e)
    (os : List Char) (elements : List ε) :
    writeSTLContainer serializeElem os elements = os ++ arrayText (elements.map txt) := by
  cases elements with
  | nil => simp [writeSTLContainer, writeElements, arrayText, joinItems]
  | cons e rest =>
    simp only [writeSTLContainer, writeElements, List.map_cons, arrayText, joinItems_cons]
    rw [writeElements_false serializeElem txt hser]
    simp [hser, List.flatMap_map]

end JsonSerializer

theorem writeInt_eq (t : IntType) (os : List Char) (n : Int) :
    Serializer.writeInt t os n = os ++ intText n := by
  simp only [Serializer.writeInt, JsonSerializer.writeValue, intText, insertInt]
  split <;> simp

theorem writeSequence_eq (t : IntType) (os : List Char) (elements : List Int) :
    Serializer.writeSequence t os elements = os ++ arrayText (elements.map intText) :=
  JsonSerializer.writeSTLContainer_eq _ intText (writeInt_eq t) os elements

theorem writePair_eq (kt vt : IntType) (os : List Char) (e : Int × Int) :
    Serializer.writePair kt vt os e = os ++ entryText e := by
  have h := JsonSerializer.writeSTLContainer_eq SerializableSTLPair.serializeElem
    (fun x : IntType × Int => intText x.2)
    (fun o x => writeInt_eq x.1 o x.2) os
    (SerializableSTLPair.elements ⟨kt, vt, e.1, e.2, 0⟩)
  simpa [Serializer.writePair, SerializableSTLPair.elements, entryText] using h

theorem writeMap_eq (kt vt : IntType) (os : List Char) (entries : List (Int × Int)) :
    Serializer.writeMap kt vt os entries = os ++ arrayText (entries.map entryText) :=
  JsonSerializer.writeSTLContainer_eq _ entryText (writePair_eq kt vt) os entries

theorem readInt_intText (t : IntType) (n old : Int) (d : Char) (tail : List Char)
    (h : t.holds n) (hd : isDigit d = false) :
    Deserializer.readInt t (IStream.ofList (intText n ++ d :: tail)) old
      = (IStream.ofList (d :: tail), n) := by
  have := extractInt_insertInt t n old (d :: tail) h (by simp [hd])
  simpa [Deserializer.readInt, intText, IStream.ofList] using this

namespace JsonDeserializer

/-- The element loop over a run of item texts that the adapter takes one by one:
while `inv` holds with the number of items still to come, `deserializeElem` reads
one item text in front of a separator or bracket and turns the state into
`push`; the loop then goes on with the character that follows the run. -/
theorem readElements_run {σ α : Type}
    (deserializeElem : Nat → IStream → σ → Outcome (IStream × σ))
    (txt : α → List Char) (accepts : α → Prop) (push : σ → α → σ) (inv : σ → Nat → Prop)
    (k : Nat)
    (hde : ∀ (f : Nat) (s : σ) (x : α) (d : Char) (tail : List Char) (m : Nat),
      k ≤ f → accepts x → isDigit d = false → inv s (m + 1) →
      deserializeElem f (IStream.ofList (txt x ++ d :: tail)) s
        = .ok (IStream.ofList (d :: tail), push s x) ∧ inv (push s x) m)
    (xs : List α) : ∀ (s : σ) (fuel : Nat) (d : Char) (rest : List Char),
    xs ≠ [] → (∀ x ∈ xs, accepts x) → inv s xs.length → k ≤ fuel →
    isSpace d = false → isDigit d = false →
    readElements deserializeElem (fuel + xs.length)
        (IStream.ofList (joinItems (xs.map txt) ++ d :: rest)) JSON.elementSeparator s
      = readElements deserializeElem fuel (IStream.ofList rest) d (xs.foldl push s) := by
  have hloop : (JSON.elementSeparator != JSON.endArray && !isEOFChar JSON.elementSeparator)
      = true := by decide
  have hsep : isSpace JSON.elementSeparator = false := by decide
  have hsepd : isDigit JSON.elementSeparator = false := by decide
  induction xs with
  | nil => intro s fuel d rest h; exact absurd rfl h
  | cons x ys ih =>
    intro s fuel d rest _ hacc hinv hk hsp hdg
    have hx : accepts x := hacc x (by simp)
    cases ys with
    | nil =>
      obtain ⟨h1, _⟩ := hde fuel s x d rest 0 hk hx hdg hinv
      show readElements deserializeElem (fuel + 1) _ _ _ = _
      rw [readElements]
      simp only [hloop, if_true, bne_self_eq_false, Bool.false_eq_true, if_false,
        List.map_cons, List.map_nil, joinItems, h1, extractChar_cons _ d rest hsp,
        List.foldl_cons, List.foldl_nil]
    | cons y zs =>
      obtain ⟨h1, h2⟩ := hde (fuel + (y :: zs).length) s x JSON.elementSeparator
        (joinItems ((y :: zs).map txt) ++ d :: rest) (y :: zs).length (by omega) hx hsepd hinv
      have hrec := ih (push s x) fuel d rest (by simp)
        (fun z hz => hacc z (List.mem_cons_of_mem _ hz)) h2 hk hsp hdg
      have hlen : fuel + (x :: y :: zs).length = (fuel + (y :: zs).length) + 1 := by
        simp only [List.length_cons]; omega
      rw [hlen, readElements]
      simp only [hloop, if_true, bne_self_eq_false, Bool.false_eq_true, if_false,
        List.map_cons, joinItems_cons_cons, List.append_assoc, List.cons_append]
      simp only [List.map_cons, List.append_assoc, List.cons_append] at h1
      rw [h1]
      simp only [extractChar_cons _ _ _ hsep, List.foldl_cons]
      simpa using hrec

/-- Decoding a non-empty array text with an adapter that takes every item. -/
theorem readSTLContainer_arrayText {σ α : Type}
    (deserializeElem : Nat → IStream → σ → Outcome (IStream × σ))
    (txt : α → List Char) (accepts : α → Prop) (push : σ → α → σ) (inv : σ → Nat → Prop)
    (k : Nat)
    (hde : ∀ (f : Nat) (s : σ) (x : α) (d : Char) (tail : List Char) (m : Nat),
      k ≤ f → accepts x → isDigit d = false → inv s (m + 1) →
      deserializeElem f (IStream.ofList (txt x ++ d :: tail)) s
        = .ok (IStream.ofList (d :: tail), push s x) ∧ inv (push s x) m)
    (xs : List α) (s : σ) (fuel : Nat) (c0 : Char) (rest : List Char)
    (hne : xs ≠ []) (hacc : ∀ x ∈ xs, accepts x) (hinv : inv s xs.length)
    (hfuel : xs.length + k < fuel) :
    readSTLContainer deserializeElem fuel c0
        (IStream.ofList (arrayText (xs.map txt) ++ rest)) s
      = .ok (IStream.ofList rest, xs.foldl push s) := by
  obtain ⟨f, hf⟩ : ∃ f, fuel = (f + 1) + xs.length := ⟨fuel - xs.length - 1, by omega⟩
  have hrun := readElements_run deserializeElem txt accepts push inv k hde xs s (f + 1)
    JSON.endArray rest hne hacc hinv (by omega) (by decide) (by decide)
  have hb : isSpace JSON.beginArray = false := by decide
  have hend : (JSON.endArray != JSON.endArray && !isEOFChar JSON.endArray) = false := by decide
  unfold readSTLContainer
  simp only [arrayText, List.cons_append, List.append_assoc, List.singleton_append,
    List.nil_append, extractChar_cons c0 _ _ hb, bne_self_eq_false, Bool.false_eq_true, if_false]
  rw [hf, hrun, readElements]
  simp only [hend, Bool.false_eq_true, if_false, bne_self_eq_false, Bool.false_and]

end JsonDeserializer

theorem set_length_append (a b : List Int) (x n : Int) :
    (a ++ x :: b).set a.length n = a ++ n :: b := by
  induction a with
  | nil => rfl
  | cons y ys ih => simp [List.set, ih]

theorem fillFrom_append (ns : List Int) : ∀ (a b : List Int), ns.length ≤ b.length →
    fillFrom (a ++ b) a.length ns = a ++ ns ++ b.drop ns.length := by
  induction ns with
  | nil => intro a b _; simp [fillFrom]
  | cons n rest ih =>
    intro a b h
    cases b with
    | nil => simp at h
    | cons x b' =>
      have hlen : rest.length ≤ b'.length := by simpa using h
      have := ih (a ++ [n]) b' hlen
      simp only [List.length_append, List.length_singleton, List.append_assoc,
        List.singleton_append] at this
      simp only [fillFrom, set_length_append, this, List.length_cons, List.drop_succ_cons]
      simp

theorem fillFrom_all (vector ns : List Int) (h : ns.length = vector.length) :
    fillFrom vector 0 ns = ns := by
  have := fillFrom_append ns [] vector (by omega)
  simp only [List.nil_append, List.length_nil] at this
  rw [this, h]
  simp

theorem foldl_push_back (ns : List Int) : ∀ (s : List Int),
    ns.foldl (fun acc n => acc ++ [n]) s = s ++ ns := by
  induction ns with
  | nil => intro s; simp
  | cons n rest ih => intro s; simp [ih]

theorem foldl_push_front (ns : List Int) : ∀ (s : List Int),
    ns.foldl (fun acc n => n :: acc) s = ns.reverse ++ s := by
  induction ns with
  | nil => intro s; simp
  | cons n rest ih => intro s; simp [ih]

theorem setInsert_last (multi : Bool) (x : Int) (acc : List Int)
    (h : ∀ y ∈ acc, if multi then y ≤ x else y < x) :
    setInsert multi x acc = acc ++ [x] := by
  induction acc with
  | nil => rfl
  | cons y ys ih =>
    have hy := h y (by simp)
    have hys := ih (fun z hz => h z (List.mem_cons_of_mem _ hz))
    cases multi with
    | true =>
      have hy' : y ≤ x := by simpa using hy
      have h1 : ¬ x < y := by omega
      simp [setInsert, h1, hys]
    | false =>
      have hy' : y < x := by simpa using hy
      have h1 : ¬ x < y := by omega
      have h2 : ¬ x = y := by omega
      simp [setInsert, h1, h2, hys]

theorem foldl_setInsert (multi : Bool) (ns : List Int) : ∀ (acc : List Int),
    ascending multi (acc ++ ns) → ns.foldl (fun s n => setInsert multi n s) acc = acc ++ ns := by
  induction ns with
  | nil => intro acc _; simp
  | cons n rest ih =>
    intro acc h
    have hp := List.pairwise_append.mp h
    have hlast := setInsert_last multi n acc (fun y hy => hp.2.2 y hy n (by simp))
    have h' : ascending multi ((acc ++ [n]) ++ rest) := by simpa [ascending] using h
    simp only [List.foldl_cons, hlast, ih (acc ++ [n]) h']
    simp

theorem mapInsert_last (multi : Bool) (e : Int × Int) (acc : List (Int × Int))
    (h : ∀ y ∈ acc, if multi then y.1 ≤ e.1 else y.1 < e.1) :
    mapInsert multi e acc = acc ++ [e] := by
  induction acc with
  | nil => rfl
  | cons y ys ih =>
    have hy := h y (by simp)
    have hys := ih (fun z hz => h z (List.mem_cons_of_mem _ hz))
    cases multi with
    | true =>
      have hy' : y.1 ≤ e.1 := by simpa using hy
      have h1 : ¬ e.1 < y.1 := by omega
      simp [mapInsert, h1, hys]
    | false =>
      have hy' : y.1 < e.1 := by simpa using hy
      have h1 : ¬ e.1 < y.1 := by omega
      have h2 : ¬ e.1 = y.1 := by omega
      simp [mapInsert, h1, h2, hys]

theorem foldl_mapInsert (multi : Bool) (es : List (Int × Int)) : ∀ (acc : List (Int × Int)),
    ascending multi ((acc ++ es).map Prod.fst) →
    es.foldl (fun s e => mapInsert multi e s) acc = acc ++ es := by
  induction es with
  | nil => intro acc _; simp
  | cons e rest ih =>
    intro acc h
    have hp := List.pairwise_append.mp (by simpa [ascending] using h :
      List.Pairwise (fun a b : Int => if multi then a ≤ b else a < b)
        (acc.map Prod.fst ++ (e :: rest).map Prod.fst))
    have hlast := mapInsert_last multi e acc (fun y hy =>
      hp.2.2 y.1 (List.mem_map_of_mem Prod.fst hy) e.1 (by simp))
    have h' : ascending multi (((acc ++ [e]) ++ rest).map Prod.fst) := by
      simpa [ascending] using h
    simp only [List.foldl_cons, hlast, ih (acc ++ [e]) h']
    simp

theorem extractChar_failed (is : IStream) (c : Char) (h : is.good = false) :
    extractChar is c = (is.setFail, c) := by
  simp [extractChar, h]

theorem readInt_failed (t : IntType) (is : IStream) (tmp : Int) (h : is.good = false) :
    Deserializer.readInt t is tmp = (is.setFail, tmp) := by
  simp [Deserializer.readInt, extractInt, h]

theorem setFail_not_good (is : IStream) : is.setFail.good = false := by
  simp [IStream.setFail, IStream.good]

namespace JsonDeserializer

/-- Once the stream has failed, the element loop of an adapter that never throws
does not end: every read returns at once and `c` keeps the separator. -/
theorem readElements_failed {σ : Type}
    (deserializeElem : Nat → IStream → σ → Outcome (IStream × σ))
    (hde : ∀ (f : Nat) (is : IStream) (s : σ), is.good = false →
      ∃ is1 s1, deserializeElem f is s = .ok (is1, s1) ∧ is1.good = false) :
    ∀ (fuel : Nat) (is : IStream) (s : σ), is.good = false →
      readElements deserializeElem fuel is JSON.elementSeparator s = .outOfFuel := by
  have hloop : (JSON.elementSeparator != JSON.endArray && !isEOFChar JSON.elementSeparator)
      = true := by decide
  intro fuel
  induction fuel with
  | zero => intro is s _; rfl
  | succ f ih =>
    intro is s h
    obtain ⟨is1, s1, h1, h2⟩ := hde f is s h
    rw [readElements]
    simp only [hloop, if_true, bne_self_eq_false, Bool.false_eq_true, if_false, h1,
      extractChar_failed is1 _ h2]
    exact ih is1.setFail s1 (setFail_not_good is1)

/-- On the text `[]` an adapter that reads one integer per element and never throws
does not return: the first read fails on the bracket, and the loop goes on
with a failed stream. -/
theorem readSTLContainer_empty_text {σ : Type} (t : IntType) (tmp0 : Int)
    (push : σ → Int → σ)
    (fuel : Nat) (c0 : Char) (s : σ) :
    readSTLContainer
        (fun _ i x => Outcome.ok ((Deserializer.readInt t i tmp0).1,
          push x (Deserializer.readInt t i tmp0).2))
        fuel c0 (IStream.ofList [JSON.beginArray, JSON.endArray]) s = .outOfFuel := by
  have hb : isSpace JSON.beginArray = false := by decide
  have hloop : (JSON.elementSeparator != JSON.endArray && !isEOFChar JSON.elementSeparator)
      = true := by decide
  have hread : Deserializer.readInt t (IStream.ofList [JSON.endArray]) tmp0
      = (⟨[JSON.endArray], false, true⟩, 0) := by
    simp [Deserializer.readInt, extractInt, IStream.ofList, IStream.good, List.dropWhile_cons,
      List.takeWhile_cons, JSON.endArray, isSpace, isDigit]
  have hfail : ∀ (f : Nat) (is : IStream) (x : σ), is.good = false →
      ∃ is1 s1, (fun (_ : Nat) i x => Outcome.ok ((Deserializer.readInt t i tmp0).1,
          push x (Deserializer.readInt t i tmp0).2)) f is x = .ok (is1, s1) ∧ is1.good = false :=
    fun f is x h => ⟨is.setFail, push x tmp0, by simp [readInt_failed t is tmp0 h],
      setFail_not_good is⟩
  unfold readSTLContainer
  simp only [extractChar_cons c0 _ _ hb, bne_self_eq_false, Bool.false_eq_true, if_false]
  cases fuel with
  | zero => rfl
  | succ f =>
    rw [readElements]
    simp only [hloop, if_true, bne_self_eq_false, Bool.false_eq_true, if_false, hread]
    rw [extractChar_failed _ _ (by rfl)]
    rw [readElements_failed _ hfail f _ _ (setFail_not_good _)]

theorem readElements_pair (kt vt : IntType) (a b x y : Int) (f : Nat) (d : Char)
    (rest : List Char) (ha : kt.holds a) (hb : vt.holds b)
    (hsp : isSpace d = false) (hdg : isDigit d = false) :
    readElements (fun _ i p => SerializableSTLPair.deserializeElem i p) (f + 2)
        (IStream.ofList (intText a ++ JSON.elementSeparator :: (intText b ++ d :: rest)))
        JSON.elementSeparator ⟨kt, vt, x, y, 0⟩
      = readElements (fun _ i p => SerializableSTLPair.deserializeElem i p) f
          (IStream.ofList rest) d ⟨kt, vt, a, b, 2⟩ := by
  have hloop : (JSON.elementSeparator != JSON.endArray && !isEOFChar JSON.elementSeparator)
      = true := by decide
  have hsep : isSpace JSON.elementSeparator = false := by decide
  have h1 := readInt_intText kt a x JSON.elementSeparator (intText b ++ d :: rest) ha
    (by decide)
  have h2 := readInt_intText vt b y d rest hb hdg
  have hde0 : SerializableSTLPair.deserializeElem
      (IStream.ofList (intText a ++ JSON.elementSeparator :: (intText b ++ d :: rest)))
      ⟨kt, vt, x, y, 0⟩
      = .ok (IStream.ofList (JSON.elementSeparator :: (intText b ++ d :: rest)),
          ⟨kt, vt, a, y, 1⟩) := by
    simp [SerializableSTLPair.deserializeElem, h1]
  have hde1 : SerializableSTLPair.deserializeElem (IStream.ofList (intText b ++ d :: rest))
      ⟨kt, vt, a, y, 1⟩ = .ok (IStream.ofList (d :: rest), ⟨kt, vt, a, b, 2⟩) := by
    simp [SerializableSTLPair.deserializeElem, h2]
  rw [readElements]
  simp only [hloop, if_true, bne_self_eq_false, Bool.false_eq_true, if_false, hde0,
    extractChar_cons _ _ _ hsep]
  rw [readElements]
  simp only [hloop, if_true, bne_self_eq_false, Bool.false_eq_true, if_false, hde1,
    extractChar_cons _ _ _ hsp]

end JsonDeserializer

/-- A pair is read from its two-element array text. -/
theorem readPair_entryText (kt vt : IntType) (e old : Int × Int) (fuel : Nat) (c0 : Char)
    (rest : List Char) (ha : kt.holds e.1) (hb : vt.holds e.2) (hfuel : 3 ≤ fuel) :
    Deserializer.readPair kt vt fuel c0 (IStream.ofList (entryText e ++ rest)) old
      = .ok (IStream.ofList rest, ⟨kt, vt, e.1, e.2, 2⟩) := by
  obtain ⟨f, hf⟩ : ∃ f, fuel = (f + 1) + 2 := ⟨fuel - 3, by omega⟩
  have hrun := JsonDeserializer.readElements_pair kt vt e.1 e.2 old.1 old.2 (f + 1)
    JSON.endArray rest ha hb (by decide) (by decide)
  have hbr : isSpace JSON.beginArray = false := by decide
  have hend : (JSON.endArray != JSON.endArray && !isEOFChar JSON.endArray) = false := by decide
  unfold Deserializer.readPair JsonDeserializer.readSTLContainer
  simp only [entryText, arrayText, joinItems, List.cons_append, List.append_assoc,
    List.singleton_append, List.nil_append, extractChar_cons c0 _ _ hbr, bne_self_eq_false,
    Bool.false_eq_true, if_false]
  rw [hf, hrun, JsonDeserializer.readElements]
  simp only [hend, Bool.false_eq_true, if_false, bne_self_eq_false, Bool.false_and]

/-- A pair adapter throws `OutOfRangeException` at the third item of an array text, after
the first two were assigned. -/
theorem readPair_third (kt vt : IntType) (a b : Int) (old : Int × Int) (fuel : Nat)
    (c0 : Char) (rest : List Char) (ha : kt.holds a) (hb : vt.holds b) (hfuel : 3 ≤ fuel) :
    Deserializer.readPair kt vt fuel c0
        (IStream.ofList (JSON.beginArray :: (intText a ++ JSON.elementSeparator ::
          (intText b ++ JSON.elementSeparator :: rest)))) old
      = .thrown .outOfRange (IStream.ofList rest, ⟨kt, vt, a, b, 2⟩) := by
  obtain ⟨f, hf⟩ : ∃ f, fuel = (f + 1) + 2 := ⟨fuel - 3, by omega⟩
  have hrun := JsonDeserializer.readElements_pair kt vt a b old.1 old.2 (f + 1)
    JSON.elementSeparator rest ha hb (by decide) (by decide)
  have hbr : isSpace JSON.beginArray = false := by decide
  have hloop : (JSON.elementSeparator != JSON.endArray && !isEOFChar JSON.elementSeparator)
      = true := by decide
  unfold Deserializer.readPair JsonDeserializer.readSTLContainer
  simp only [extractChar_cons c0 _ _ hbr, bne_self_eq_false, Bool.false_eq_true, if_false]
  rw [hf, hrun, JsonDeserializer.readElements]
  simp [hloop, SerializableSTLPair.deserializeElem]

namespace JsonDeserializer

/-- The loop of `readArray` over a run of integer texts that fits the slots left:
the values are assigned to consecutive slots and the loop goes on with the
character that follows the run. -/
theorem readArrayFrom_run (t : IntType) (pre : List Int) :
    ∀ (left length : Nat) (vector : List Int) (d : Char) (rest : List Char),
    pre ≠ [] → (∀ n ∈ pre, t.holds n) → isSpace d = false → isDigit d = false →
    readArrayFrom t (left + pre.length) length
        (IStream.ofList (joinItems (pre.map intText) ++ d :: rest)) JSON.elementSeparator vector
      = readArrayFrom t left (length + pre.length) (IStream.ofList rest) d
          (fillFrom vector length pre) := by
  have hloop : (JSON.elementSeparator != JSON.endArray) = true := by decide
  have hsep : isSpace JSON.elementSeparator = false := by decide
  induction pre with
  | nil => intro left length vector d rest h; exact absurd rfl h
  | cons n ns ih =>
    intro left length vector d rest _ hall hsp hdg
    have hn : t.holds n := hall n (by simp)
    cases ns with
    | nil =>
      have h1 := readInt_intText t n (vector.getD length 0) d rest hn hdg
      show readArrayFrom t (left + 1) _ _ _ _ = _
      rw [readArrayFrom]
      simp only [hloop, if_true, bne_self_eq_false, Bool.false_eq_true, if_false,
        List.map_cons, List.map_nil, joinItems, h1, extractChar_cons _ d rest hsp,
        List.length_singleton, fillFrom]
    | cons m ms =>
      have h1 := readInt_intText t n (vector.getD length 0) JSON.elementSeparator
        (joinItems ((m :: ms).map intText) ++ d :: rest) hn (by decide)
      have hrec := ih left (length + 1) (vector.set length n) d rest (by simp)
        (fun z hz => hall z (List.mem_cons_of_mem _ hz)) hsp hdg
      have hlen : left + (n :: m :: ms).length = (left + (m :: ms).length) + 1 := by
        simp only [List.length_cons]; omega
      rw [hlen, readArrayFrom]
      simp only [hloop, if_true, bne_self_eq_false, Bool.false_eq_true, if_false,
        List.map_cons, joinItems_cons_cons, List.append_assoc, List.cons_append]
      simp only [List.map_cons, List.append_assoc, List.cons_append] at h1
      rw [h1]
      simp only [extractChar_cons _ _ _ hsep]
      simp only [List.map_cons, List.length_cons] at hrec ⊢
      rw [hrec]
      simp only [fillFrom]
      congr 1
      omega

theorem cstr_four (a b c d : Char) :
    cstr [a, b, c, d, Char.ofNat 0] = "null".toList ↔ [a, b, c, d] = "null".toList := by
  constructor
  · intro h
    by_cases ha : a = Char.ofNat 0
    · rw [ha] at h
      simp [cstr, List.takeWhile_cons] at h
    · by_cases hb : b = Char.ofNat 0
      · rw [hb] at h
        simp [cstr, List.takeWhile_cons, ha] at h
      · by_cases hc : c = Char.ofNat 0
        · rw [hc] at h
          simp [cstr, List.takeWhile_cons, ha, hb] at h
        · by_cases hd : d = Char.ofNat 0
          · rw [hd] at h
            simp [cstr, List.takeWhile_cons, ha, hb, hc] at h
          · simpa [cstr, List.takeWhile_cons, ha, hb, hc, hd] using h
  · intro h
    rw [show [a, b, c, d, Char.ofNat 0] = [a, b, c, d] ++ [Char.ofNat 0] from rfl, h]
    decide

/-- On an input of at least four characters `readNull` consumes exactly four and
succeeds exactly when they spell `null`. -/
theorem readNull_four (value0 : List Char) (a b c d : Char) (rest : List Char) :
    readNull value0 (IStream.ofList (a :: b :: c :: d :: rest))
      = if [a, b, c, d] = "null".toList then .ok (IStream.ofList rest)
        else .thrown .jsonException (IStream.ofList rest) := by
  have h := cstr_four a b c d
  have hblock : readBlock 4 (IStream.ofList (a :: b :: c :: d :: rest)) value0
      = (IStream.ofList rest, [a, b, c, d] ++ value0.drop 4) := by
    simp [readBlock, IStream.ofList, IStream.good]
  have hvalue : ([a, b, c, d] ++ value0.drop 4).take 4 ++ [Char.ofNat 0]
      = [a, b, c, d, Char.ofNat 0] := by simp
  unfold readNull
  simp only [hblock, hvalue]
  by_cases heq : [a, b, c, d] = "null".toList
  · have h1 : (cstr [a, b, c, d, Char.ofNat 0] != "null".toList) = false := by
      simp [h.mpr heq]
    simp only [h1, heq, Bool.false_eq_true, if_false, if_true]
  · have hne : cstr [a, b, c, d, Char.ofNat 0] ≠ "null".toList := fun x => heq (h.mp x)
    have h1 : (cstr [a, b, c, d, Char.ofNat 0] != "null".toList) = true :=
      bne_iff_ne.mpr hne
    simp only [h1, heq, if_true, if_false]

end JsonDeserializer

/-- The assignments of a `std::array` adapter while the position is inside the array. -/
theorem foldl_array_push (ns : List Int) : ∀ (slots : List Int) (i : Nat) (out : List (Nat × Int)),
    i + ns.length ≤ slots.length →
    ns.foldl (fun (a : SerializableSTLArray) n =>
        if a.pos < a.slots.length then
          { a with slots := a.slots.set a.pos n, pos := a.pos + 1 }
        else { a with outside := a.outside ++ [(a.pos, n)], pos := a.pos + 1 })
      ⟨slots, i, out⟩
      = ⟨fillFrom slots i ns, i + ns.length, out⟩ := by
  induction ns with
  | nil => intro slots i out _; rfl
  | cons n rest ih =>
    intro slots i out h
    have hi : i < slots.length := by simp at h; omega
    have := ih (slots.set i n) (i + 1) out (by simp at h ⊢; omega)
    simp only [List.foldl_cons, hi, if_true, this, fillFrom, List.length_cons]
    congr 1
    omega

end ContainerLemmas

/-! ## Lemmas on failed streams, exception kinds and separators -/

section LaterLemmas

open JsonSerializer JsonDeserializer

theorem peek_failed (is : IStream) (h : is.good = false) : peek is = (is.setFail, none) := by
  simp [peek, h]

theorem ignore1_failed (is : IStream) (h : is.good = false) : ignore1 is = is.setFail := by
  simp [ignore1, h]

/-- The overloads of `read` for scalars and strings throw nothing. -/
theorem read_not_thrown (fuel : Nat) (is : IStream) (v : Value) (e : Exception)
    (s : IStream × Value) : Deserializer.read fuel is v ≠ .thrown e s := by
  cases v with
  | scalar x => simp [Deserializer.read]
  | string x =>
    simp only [Deserializer.read]
    split <;> simp

theorem deserializeElemValue_not_thrown (fuel : Nat) (is : IStream) (object : Serializable)
    (it : List Char × Value) (e : Exception) (s : IStream × Serializable) :
    Serializable.deserializeElemValue fuel is object it ≠ .thrown e s := by
  intro h
  simp only [Serializable.deserializeElemValue] at h
  split at h
  · simp at h
  · rename_i hv
    exact read_not_thrown _ _ _ _ _ hv
  · simp at h

namespace JsonDeserializer

/-- On a stream that has failed the search for the opening quote does not end:
`peek()` gives end-of-file, never the quote, and `ignore(1)` extracts nothing. -/
theorem searchQuote_failed : ∀ (fuel : Nat) (is : IStream), is.good = false →
    searchQuote fuel is = none := by
  intro fuel
  induction fuel with
  | zero => intro is _; rfl
  | succ f ih =>
    intro is h
    rw [searchQuote]
    simp only [peek_failed is h, ignore1_failed _ (setFail_not_good is)]
    exact ih _ (setFail_not_good _)

theorem readString_failed (fuel : Nat) (is : IStream) (value : List Char)
    (h : is.good = false) : readString fuel is value = none := by
  simp [readString, searchQuote_failed fuel is h]

/-- Once the stream has failed with the separator as lookahead, the member loop
does not end: the search for the next member name never finds a quote. -/
theorem readMembers_failed (fuel : Nat) (is : IStream) (object : Serializable)
    (h : is.good = false) :
    readMembers fuel is JSON.elementSeparator object = .outOfFuel := by
  have hloop : (JSON.elementSeparator != JSON.endObject && !isEOFChar JSON.elementSeparator)
      = true := by decide
  cases fuel with
  | zero => rfl
  | succ f =>
    rw [readMembers]
    simp only [hloop, if_true, bne_self_eq_false, Bool.false_eq_true, if_false,
      Serializable.deserializeElemName, readString_failed f is [] h]

/-- The member loop throws nothing but a pointer to a `JsonException`. -/
theorem readMembers_thrown : ∀ (fuel : Nat) (is : IStream) (c : Char) (object : Serializable)
    (e : Exception) (s : IStream × Char × Serializable),
    readMembers fuel is c object = .thrown e s → e = .jsonExceptionPtr := by
  intro fuel
  induction fuel with
  | zero => intro is c object e s h; simp [readMembers] at h
  | succ f ih =>
    intro is c object e s h
    rw [readMembers] at h
    split at h
    · split at h
      · simp at h; exact h.1.symm
      · split at h
        · simp at h
        · simp at h; exact h.1.symm
        · dsimp only at h
          split at h
          · simp at h; exact h.1.symm
          · split at h
            · exact ih _ _ _ _ _ h
            · rename_i hv
              exact absurd hv (deserializeElemValue_not_thrown _ _ _ _ _ _)
            · simp at h
    · simp at h

/-- Object decode throws nothing but a pointer to a `JsonException`. -/
theorem readSerializable_thrown (fuel : Nat) (c0 : Char) (is : IStream) (object : Serializable)
    (e : Exception) (s : IStream × Serializable)
    (h : readSerializable fuel c0 is object = .thrown e s) : e = .jsonExceptionPtr := by
  unfold readSerializable at h
  dsimp only at h
  split at h
  · simp at h; exact h.1.symm
  · split at h
    · simp at h
    · split at h
      · simp at h; exact h.1.symm
      · split at h
        · simp at h; exact h.1.symm
        · split at h
          · simp at h
          · split at h
            · simp at h; exact h.1.symm
            · split at h
              · split at h
                · simp at h; exact h.1.symm
                · simp at h
              · rename_i hm
                simp at h
                rw [← h.1]
                exact readMembers_thrown _ _ _ _ _ _ hm
              · simp at h

/-- The element loop throws a pointer to a `JsonException` or what the adapter throws. -/
theorem readElements_thrown {σ : Type}
    (deserializeElem : Nat → IStream → σ → Outcome (IStream × σ)) (kinds : Exception → Prop)
    (hptr : kinds .jsonExceptionPtr)
    (hde : ∀ (f : Nat) (is : IStream) (x : σ) (e : Exception) (s : IStream × σ),
      deserializeElem f is x = .thrown e s → kinds e) :
    ∀ (fuel : Nat) (is : IStream) (c : Char) (x : σ) (e : Exception) (s : IStream × Char × σ),
      readElements deserializeElem fuel is c x = .thrown e s → kinds e := by
  intro fuel
  induction fuel with
  | zero => intro is c x e s h; simp [readElements] at h
  | succ f ih =>
    intro is c x e s h
    rw [readElements] at h
    split at h
    · split at h
      · simp at h; rw [← h.1]; exact hptr
      · split at h
        · exact ih _ _ _ _ _ h
        · rename_i hd
          simp at h
          rw [← h.1]
          exact hde _ _ _ _ _ hd
        · simp at h
    · simp at h

/-- Container decode throws a pointer to a `JsonException` or what the adapter throws. -/
theorem readSTLContainer_thrown {σ : Type}
    (deserializeElem : Nat → IStream → σ → Outcome (IStream × σ)) (kinds : Exception → Prop)
    (hptr : kinds .jsonExceptionPtr)
    (hde : ∀ (f : Nat) (is : IStream) (x : σ) (e : Exception) (s : IStream × σ),
      deserializeElem f is x = .thrown e s → kinds e)
    (fuel : Nat) (c0 : Char) (is : IStream) (x : σ) (e : Exception) (s : IStream × σ)
    (h : readSTLContainer deserializeElem fuel c0 is x = .thrown e s) : kinds e := by
  unfold readSTLContainer at h
  dsimp only at h
  split at h
  · simp at h; rw [← h.1]; exact hptr
  · split at h
    · split at h
      · simp at h; rw [← h.1]; exact hptr
      · simp at h
    · rename_i hm
      simp at h
      rw [← h.1]
      exact readElements_thrown deserializeElem kinds hptr hde _ _ _ _ _ _ hm
    · simp at h

theorem readArrayFrom_thrown (t : IntType) : ∀ (left length : Nat) (is : IStream) (c : Char)
    (vector : List Int) (e : Exception) (s : IStream × Char × Nat × List Int),
    readArrayFrom t left length is c vector = .thrown e s → e = .jsonExceptionPtr := by
  intro left
  induction left with
  | zero => intro length is c vector e s h; simp [readArrayFrom] at h
  | succ l ih =>
    intro length is c vector e s h
    rw [readArrayFrom] at h
    split at h
    · split at h
      · simp at h; exact h.1.symm
      · exact ih _ _ _ _ _ _ h
    · simp at h

/-- Fixed-array decode throws nothing but a pointer to a `JsonException`. -/
theorem readArray_thrown (t : IntType) (c0 : Char) (is : IStream) (vector : List Int)
    (e : Exception) (s : IStream × Nat × List Int)
    (h : readArray t c0 is vector = .thrown e s) : e = .jsonExceptionPtr := by
  unfold readArray at h
  dsimp only at h
  split at h
  · simp at h; exact h.1.symm
  · split at h
    · split at h
      · simp at h; exact h.1.symm
      · simp at h
    · rename_i hm
      simp at h
      rw [← h.1]
      exact readArrayFrom_thrown t _ _ _ _ _ _ _ hm
    · simp at h

/-- The null path throws nothing but a `JsonException` by value. -/
theorem readNull_thrown (value0 : List Char) (is : IStream) (e : Exception) (s : IStream)
    (h : readNull value0 is = .thrown e s) : e = .jsonException := by
  unfold readNull at h
  dsimp only at h
  split at h
  · simp at h; exact h.1.symm
  · simp at h

end JsonDeserializer

/-- The exception of an outcome is among the kinds that the call can throw. -/
theorem exception_mem {σ : Type} (o : Outcome σ) (kinds : List Exception)
    (h : ∀ e s, o = .thrown e s → e ∈ kinds) : o.exception ∈ none :: kinds.map some := by
  cases o with
  | ok s => simp [Outcome.exception]
  | thrown e s =>
    have := h e s rfl
    simp [Outcome.exception, this]
  | outOfFuel => simp [Outcome.exception]

theorem isSpace_not_digit (c : Char) (h : isSpace c = true) : isDigit c = false := by
  cases hd : isDigit c with
  | false => rfl
  | true => rw [isDigit_not_space c hd] at h; exact absurd h (by decide)

/-- White space and then a character `d`, not a digit when there is no white space:
the run starts with a character that is not a digit. -/
theorem space_run_head (ws : List Char) (d : Char) (rest : List Char)
    (hws : ∀ w ∈ ws, isSpace w = true) (hdg : ws = [] → isDigit d = false) :
    ∃ h tl, ws ++ d :: rest = h :: tl ∧ isDigit h = false := by
  cases ws with
  | nil => exact ⟨d, rest, rfl, hdg rfl⟩
  | cons w t => exact ⟨w, t ++ d :: rest, rfl, isSpace_not_digit w (hws w (by simp))⟩

theorem readInt_intText_space (t : IntType) (n old : Int) (ws : List Char) (d : Char)
    (rest : List Char) (h : t.holds n) (hws : ∀ w ∈ ws, isSpace w = true)
    (hdg : ws = [] → isDigit d = false) :
    Deserializer.readInt t (IStream.ofList (intText n ++ (ws ++ d :: rest))) old
      = (IStream.ofList (ws ++ d :: rest), n) := by
  obtain ⟨x, tl, hx, hxd⟩ := space_run_head ws d rest hws hdg
  rw [hx]
  exact readInt_intText t n old x tl h hxd

theorem fillFrom_concat (ns : List Int) : ∀ (vector : List Int) (i : Nat) (n : Int),
    fillFrom vector i (ns ++ [n]) = (fillFrom vector i ns).set (i + ns.length) n := by
  induction ns with
  | nil => intro vector i n; simp [fillFrom]
  | cons m rest ih =>
    intro vector i n
    show fillFrom (vector.set i m) (i + 1) (rest ++ [n])
      = (fillFrom (vector.set i m) (i + 1) rest).set (i + (rest.length + 1)) n
    rw [ih, show i + 1 + rest.length = i + (rest.length + 1) by omega]

namespace JsonDeserializer

/-- One turn of the element loop on an item followed by white space and a
character `d`: the item is taken and `d` becomes the lookahead. -/
theorem readElements_step_space {σ : Type}
    (deserializeElem : Nat → IStream → σ → Outcome (IStream × σ))
    (item : List Char) (s s1 : σ) (f : Nat) (ws : List Char) (d : Char) (rest : List Char)
    (hws : ∀ w ∈ ws, isSpace w = true) (hsp : isSpace d = false)
    (hde : deserializeElem f (IStream.ofList (item ++ (ws ++ d :: rest))) s
      = .ok (IStream.ofList (ws ++ d :: rest), s1)) :
    readElements deserializeElem (f + 1) (IStream.ofList (item ++ (ws ++ d :: rest)))
        JSON.elementSeparator s
      = readElements deserializeElem f (IStream.ofList rest) d s1 := by
  have hloop : (JSON.elementSeparator != JSON.endArray && !isEOFChar JSON.elementSeparator)
      = true := by decide
  rw [readElements]
  simp only [hloop, if_true, bne_self_eq_false, Bool.false_eq_true, if_false, hde,
    extractChar_skip _ d ws rest hws hsp]

/-- With a lookahead that is neither the separator nor the closing bracket the
container decode throws at once, whatever the adapter. -/
theorem readElements_stop {σ : Type}
    (deserializeElem : Nat → IStream → σ → Outcome (IStream × σ))
    (f : Nat) (is : IStream) (d : Char) (s : σ)
    (hsep : d ≠ JSON.elementSeparator) (hend : d ≠ JSON.endArray) :
    (match readElements deserializeElem (f + 1) is d s with
      | .ok r =>
        if r.2.1 != JSON.endArray then Outcome.thrown Exception.jsonExceptionPtr (r.1, r.2.2)
        else .ok (r.1, r.2.2)
      | .thrown e r => .thrown e (r.1, r.2.2)
      | .outOfFuel => .outOfFuel)
      = .thrown .jsonExceptionPtr (is, s) := by
  have h1 : (d != JSON.elementSeparator) = true := bne_iff_ne.mpr hsep
  have h2 : (d != JSON.endArray) = true := bne_iff_ne.mpr hend
  rw [readElements]
  cases he : isEOFChar d <;> simp [h1, h2, he]

/-- A non-empty run of integers, then white space and a character that is neither
the separator nor the closing bracket: the list adapter takes the run and the
decode throws, nothing after that character read. -/
theorem readList_bad_separator (t : IntType) (pre : List Int) (ws : List Char) (d : Char)
    (rest : List Char) (fuel : Nat) (c0 : Char) (tmp0 : Int) (container : List Int)
    (hne : pre ≠ []) (hall : ∀ n ∈ pre, t.holds n) (hws : ∀ w ∈ ws, isSpace w = true)
    (hsp : isSpace d = false) (hdg : ws = [] → isDigit d = false)
    (hsep : d ≠ JSON.elementSeparator) (hend : d ≠ JSON.endArray)
    (hfuel : pre.length < fuel) :
    Deserializer.readList t fuel c0 tmp0
        (IStream.ofList (JSON.beginArray :: (joinItems (pre.map intText) ++ (ws ++ d :: rest))))
        container
      = .thrown .jsonExceptionPtr (IStream.ofList rest, container ++ pre) := by
  have hb : isSpace JSON.beginArray = false := by decide
  obtain ⟨f, hf⟩ : ∃ f, fuel = (f + 1) + pre.length := ⟨fuel - pre.length - 1, by omega⟩
  rcases List.eq_nil_or_concat pre with h0 | ⟨init, last, hpre⟩
  · exact absurd h0 hne
  · rw [List.concat_eq_append] at hpre
    subst hpre
    have hlast : t.holds last := hall last (by simp)
    have hstep := readElements_step_space
      (fun _ i s => SerializableSTLList.deserializeElem t tmp0 i s) (intText last)
      (container ++ init) (container ++ init ++ [last]) (f + 1) ws d rest hws hsp
      (by simp [SerializableSTLList.deserializeElem,
        readInt_intText_space t last tmp0 ws d rest hlast hws hdg])
    have hstop := readElements_stop
      (fun _ i s => SerializableSTLList.deserializeElem t tmp0 i s) f (IStream.ofList rest) d
      (container ++ init ++ [last]) hsep hend
    unfold Deserializer.readList readSTLContainer
    simp only [extractChar_cons c0 _ _ hb, bne_self_eq_false, Bool.false_eq_true, if_false]
    cases init with
    | nil =>
      simp only [List.nil_append, List.map_cons, List.map_nil, joinItems, List.length_singleton,
        List.append_nil] at hstep hstop hf ⊢
      rw [hf, hstep, hstop]
    | cons a as =>
      have hrun := readElements_run
        (fun _ i s => SerializableSTLList.deserializeElem t tmp0 i s) intText t.holds
        (fun s n => s ++ [n]) (fun _ _ => True) 0
        (fun f s x d tail m _ hx hd _ => ⟨by
          simp [SerializableSTLList.deserializeElem, readInt_intText t x tmp0 d tail hx hd],
          trivial⟩)
        (a :: as) container (f + 2) JSON.elementSeparator
        (intText last ++ (ws ++ d :: rest)) (by simp)
        (fun x hx => hall x (by simp at hx ⊢; tauto)) trivial (by omega) (by decide) (by decide)
      have hjoin := joinItems_append ((a :: as).map intText) [intText last] (by simp) (by simp)
      rw [foldl_push_back] at hrun
      have hlen : fuel = (f + 2) + (a :: as).length := by
        rw [hf]; simp only [List.length_append, List.length_singleton]; omega
      simp only [List.map_append, List.map_cons, List.map_nil, joinItems, List.cons_append]
        at hjoin hrun ⊢
      rw [hjoin, hlen]
      simp only [List.append_assoc, List.cons_append] at hrun hstep hstop ⊢
      rw [hrun, hstep, hstop]

/-- With the closing bracket as lookahead the loop of `readArray` is left at once. -/
theorem readArrayFrom_end (t : IntType) (left length : Nat) (is : IStream) (vector : List Int) :
    readArrayFrom t left length is JSON.endArray vector
      = .ok (is, JSON.endArray, length, vector) := by
  cases left with
  | zero => rfl
  | succ l => simp [readArrayFrom]

/-- A well-formed array text of at least one and at most `size` integers: `readArray`
returns their number, with the first slots assigned in order. -/
theorem readArray_arrayText (t : IntType) (pre : List Int) (vector : List Int) (c0 : Char)
    (rest : List Char) (hne : pre ≠ []) (hlen : pre.length ≤ vector.length)
    (hall : ∀ n ∈ pre, t.holds n) :
    readArray t c0 (IStream.ofList (arrayText (pre.map intText) ++ rest)) vector
      = .ok (IStream.ofList rest, pre.length, fillFrom vector 0 pre) := by
  have hb : isSpace JSON.beginArray = false := by decide
  obtain ⟨left, hleft⟩ : ∃ left, vector.length = left + pre.length :=
    ⟨vector.length - pre.length, by omega⟩
  have hrun := readArrayFrom_run t pre left 0 vector JSON.endArray rest hne hall
    (by decide) (by decide)
  unfold readArray
  simp only [arrayText, List.cons_append, List.append_assoc, List.singleton_append,
    List.nil_append, extractChar_cons c0 _ _ hb, bne_self_eq_false, Bool.false_eq_true,
    if_false]
  rw [hleft, hrun, readArrayFrom_end]
  simp

/-- One turn of the loop of `readArray` on an integer followed by white space and
a character `d`. -/
theorem readArrayFrom_step_space (t : IntType) (n : Int) (left length : Nat) (vector : List Int)
    (ws : List Char) (d : Char) (rest : List Char) (hn : t.holds n)
    (hws : ∀ w ∈ ws, isSpace w = true) (hsp : isSpace d = false)
    (hdg : ws = [] → isDigit d = false) :
    readArrayFrom t (left + 1) length (IStream.ofList (intText n ++ (ws ++ d :: rest)))
        JSON.elementSeparator vector
      = readArrayFrom t left (length + 1) (IStream.ofList rest) d (vector.set length n) := by
  have hloop : (JSON.elementSeparator != JSON.endArray) = true := by decide
  rw [readArrayFrom]
  simp only [hloop, if_true, bne_self_eq_false, Bool.false_eq_true, if_false,
    readInt_intText_space t n _ ws d rest hn hws hdg, extractChar_skip _ d ws rest hws hsp]

theorem readArrayFrom_stop (t : IntType) (left length : Nat) (is : IStream) (d : Char)
    (vector : List Int) (hsep : d ≠ JSON.elementSeparator) (hend : d ≠ JSON.endArray) :
    (match readArrayFrom t left length is d vector with
      | .ok s =>
        if s.2.1 != JSON.endArray then
          Outcome.thrown Exception.jsonExceptionPtr (s.1, s.2.2.1, s.2.2.2)
        else .ok (s.1, s.2.2.1, s.2.2.2)
      | .thrown e s => .thrown e (s.1, s.2.2.1, s.2.2.2)
      | .outOfFuel => .outOfFuel)
      = .thrown .jsonExceptionPtr (is, length, vector) := by
  have h1 : (d != JSON.elementSeparator) = true := bne_iff_ne.mpr hsep
  have h2 : (d != JSON.endArray) = true := bne_iff_ne.mpr hend
  cases left with
  | zero => simp [readArrayFrom, h2]
  | succ l => simp [readArrayFrom, h1, h2]

/-- A non-empty run of at most `size` integers, then white space and a character
that is neither the separator nor the closing bracket: `readArray` assigns the
run and throws, nothing after that character read. -/
theorem readArray_bad_separator (t : IntType) (pre : List Int) (ws : List Char) (d : Char)
    (rest : List Char) (c0 : Char) (vector : List Int)
    (hne : pre ≠ []) (hlen : pre.length ≤ vector.length) (hall : ∀ n ∈ pre, t.holds n)
    (hws : ∀ w ∈ ws, isSpace w = true) (hsp : isSpace d = false)
    (hdg : ws = [] → isDigit d = false)
    (hsep : d ≠ JSON.elementSeparator) (hend : d ≠ JSON.endArray) :
    readArray t c0
        (IStream.ofList (JSON.beginArray :: (joinItems (pre.map intText) ++ (ws ++ d :: rest))))
        vector
      = .thrown .jsonExceptionPtr (IStream.ofList rest, pre.length, fillFrom vector 0 pre) := by
  have hb : isSpace JSON.beginArray = false := by decide
  obtain ⟨left, hleft⟩ : ∃ left, vector.length = left + pre.length :=
    ⟨vector.length - pre.length, by omega⟩
  rcases List.eq_nil_or_concat pre with h0 | ⟨init, last, hpre⟩
  · exact absurd h0 hne
  · rw [List.concat_eq_append] at hpre
    subst hpre
    have hlast : t.holds last := hall last (by simp)
    unfold readArray
    simp only [extractChar_cons c0 _ _ hb, bne_self_eq_false, Bool.false_eq_true, if_false]
    cases init with
    | nil =>
      have hstep := readArrayFrom_step_space t last left 0 vector ws d rest hlast hws hsp hdg
      have hstop := readArrayFrom_stop t left 1 (IStream.ofList rest) d (vector.set 0 last)
        hsep hend
      simp only [List.nil_append, List.map_cons, List.map_nil, joinItems, List.length_singleton,
        Nat.zero_add] at hstep hstop hleft ⊢
      rw [hleft, hstep, hstop]
      simp [fillFrom]
    | cons a as =>
      have hrun := readArrayFrom_run t (a :: as) (left + 1) 0 vector JSON.elementSeparator
        (intText last ++ (ws ++ d :: rest)) (by simp)
        (fun x hx => hall x (by simp at hx ⊢; tauto)) (by decide) (by decide)
      have hstep := readArrayFrom_step_space t last left (0 + (a :: as).length)
        (fillFrom vector 0 (a :: as)) ws d rest hlast hws hsp hdg
      have hstop := readArrayFrom_stop t left (0 + (a :: as).length + 1) (IStream.ofList rest) d
        ((fillFrom vector 0 (a :: as)).set (0 + (a :: as).length) last) hsep hend
      have hjoin := joinItems_append ((a :: as).map intText) [intText last] (by simp) (by simp)
      have hl : vector.length = (left + 1) + (a :: as).length := by
        rw [hleft]; simp only [List.length_append, List.length_singleton]; omega
      simp only [List.map_append, List.map_cons, List.map_nil, joinItems, List.cons_append]
        at hjoin hrun ⊢
      rw [hjoin, hl]
      simp only [List.append_assoc, List.cons_append] at hrun hstep hstop ⊢
      rw [hrun, hstep, hstop]
      rw [show (a :: (as ++ [last])) = (a :: as) ++ [last] from rfl, fillFrom_concat]
      simp

end JsonDeserializer

namespace Members

theorem find_assignAll_not_mem (es : Members) : ∀ (m : Members) (n : List Char),
    n ∉ es.names → (m.assignAll es).find n = m.find n := by
  induction es with
  | nil => intro m n _; rfl
  | cons e t ih =>
    intro m n h
    simp only [names, List.map_cons, List.mem_cons, not_or] at h
    have := ih (m.assign e.1 e.2) n h.2
    rw [find_assign_ne m e.1 n e.2 h.1] at this
    simpa [assignAll] using this

/-- After the assignments of entries with distinct registered names, every
entry's member holds the entry's value. -/
theorem find_assignAll_mem (es : Members) : ∀ (m : Members),
    es.names.Nodup → (∀ e ∈ es, ∃ old, m.find e.1 = some (e.1, old)) →
    ∀ e ∈ es, (m.assignAll es).find e.1 = some e := by
  induction es with
  | nil => intro m _ _ e he; simp at he
  | cons b t ih =>
    intro m hnd hreg e he
    simp only [names, List.map_cons, List.nodup_cons] at hnd
    obtain ⟨old, hold⟩ := hreg b (by simp)
    have hstep : assignAll m (b :: t) = assignAll (m.assign b.1 b.2) t := by
      simp [assignAll]
    rw [hstep]
    rcases List.mem_cons.mp he with hb | ht
    · subst hb
      rw [find_assignAll_not_mem t _ e.1 hnd.1]
      exact find_assign_eq m e.1 e.2 old hold
    · have hreg' : ∀ x ∈ t, ∃ o, (m.assign b.1 b.2).find x.1 = some (x.1, o) := by
        intro x hx
        obtain ⟨o, ho⟩ := hreg x (List.mem_cons_of_mem _ hx)
        have hne : x.1 ≠ b.1 := by
          intro heq
          apply hnd.1
          rw [← heq]
          exact List.mem_map_of_mem Prod.fst hx
        exact ⟨o, by rw [find_assign_ne m b.1 x.1 b.2 hne]; exact ho⟩
      exact ih (m.assign b.1 b.2) hnd.2 hreg' e ht

end Members

/-- Object decode up to the end of a run of well-formed entries for registered
members: what is left is the member loop on the rest of the text, with the
entries assigned. -/
theorem readSerializable_entries (object : Serializable) (es : Members) (cEnd : Char)
    (rest : List Char) (f : Nat) (c0 : Char)
    (hcls : JSON.quotationMark ∉ object.getClassName) (hes : ∀ e ∈ es, object.takes e)
    (hsp : isSpace cEnd = false) (hdg : isDigit cEnd = false) :
    readSerializable ((f + 1) + es.length) c0
        (IStream.ofList (JSON.beginObject :: (quoted classNameKey ++ JSON.valueSeparator ::
          (quoted object.getClassName ++ (es.flatMap memberText ++ cEnd :: rest))))) object
      = match readMembers (f + 1) (IStream.ofList rest) cEnd
            { object with members := object.members.assignAll es } with
        | .ok s =>
          if s.2.1 != JSON.endObject then .thrown .jsonExceptionPtr (s.1, s.2.2)
          else .ok (s.1, s.2.2)
        | .thrown e s => .thrown e (s.1, s.2.2)
        | .outOfFuel => .outOfFuel := by
  have hhead := readSerializable_header [] [] [] [] object.getClassName
    (es.flatMap memberText ++ cEnd :: rest) object ((f + 1) + es.length) c0
    (by simp) (by simp) (by simp) (by simp) hcls (by simp) (by simp)
  have hes' : ∀ e ∈ es, JSON.quotationMark ∉ e.1 ∧ e.2.roundTrips ∧
      ∃ old, object.members.find e.1 = some (e.1, old) ∧ old.type = e.2.type :=
    fun e he => ⟨(hes e he).1, (hes e he).2.1, Members.find_of_typeOf _ _ _ (hes e he).2.2⟩
  have hloop := readMembers_entries es object (f + 1) JSON.elementSeparator
    cEnd rest hes' hsp hdg (by omega)
  simp only [quoted, List.append_assoc, List.cons_append, List.nil_append] at hhead hloop ⊢
  rw [hhead]
  simp only [bne_self_eq_false, Bool.false_eq_true, if_false]
  rw [hloop]

/-- After the entries, a character that is neither the separator nor the closing
brace makes object decode throw, the entries assigned. -/
theorem readSerializable_bad_separator (object : Serializable) (es : Members) (d : Char)
    (rest : List Char) (fuel : Nat) (c0 : Char)
    (hcls : JSON.quotationMark ∉ object.getClassName) (hes : ∀ e ∈ es, object.takes e)
    (hsp : isSpace d = false) (hdg : isDigit d = false)
    (hsep : d ≠ JSON.elementSeparator) (hend : d ≠ JSON.endObject)
    (hfuel : es.length < fuel) :
    readSerializable fuel c0
        (IStream.ofList (JSON.beginObject :: (quoted classNameKey ++ JSON.valueSeparator ::
          (quoted object.getClassName ++ (es.flatMap memberText ++ d :: rest))))) object
      = .thrown .jsonExceptionPtr
          (IStream.ofList rest, { object with members := object.members.assignAll es }) := by
  obtain ⟨f, hf⟩ : ∃ f, fuel = (f + 1) + es.length := ⟨fuel - es.length - 1, by omega⟩
  have h1 : (d != JSON.elementSeparator) = true := bne_iff_ne.mpr hsep
  have h2 : (d != JSON.endObject) = true := bne_iff_ne.mpr hend
  rw [hf, readSerializable_entries object es d rest f c0 hcls hes hsp hdg, readMembers]
  cases he : isEOFChar d <;> simp [h1, h2, he]

/-- After the entries, an entry whose name is not registered makes object decode
throw right after the name, the entries assigned. -/
theorem readSerializable_unknown_name (object : Serializable) (es : Members)
    (p name rest : List Char) (fuel : Nat) (c0 : Char)
    (hcls : JSON.quotationMark ∉ object.getClassName) (hes : ∀ e ∈ es, object.takes e)
    (hp : JSON.quotationMark ∉ p) (hname : JSON.quotationMark ∉ name)
    (hunknown : name ∉ object.members.names) (hfuel : es.length + p.length + 1 < fuel) :
    readSerializable fuel c0
        (IStream.ofList (JSON.beginObject :: (quoted classNameKey ++ JSON.valueSeparator ::
          (quoted object.getClassName ++ (es.flatMap memberText ++ JSON.elementSeparator ::
            (p ++ quoted name ++ rest)))))) object
      = .thrown .jsonExceptionPtr
          (IStream.ofList rest, { object with members := object.members.assignAll es }) := by
  obtain ⟨f, hf⟩ : ∃ f, fuel = (f + 1) + es.length := ⟨fuel - es.length - 1, by omega⟩
  have hfind : (object.members.assignAll es).find name = none :=
    Members.find_none_of_not_mem _ _ (by rw [Members.names_assignAll]; exact hunknown)
  have hnm := deserializeElemName_quoted p name rest
    { object with members := object.members.assignAll es } f hp hname (by omega)
  have hcont : (JSON.elementSeparator != JSON.endObject && !isEOFChar JSON.elementSeparator)
      = true := by decide
  rw [hf, readSerializable_entries object es JSON.elementSeparator _ f c0 hcls hes
    (by decide) (by decide), readMembers]
  simp only [quoted, List.append_assoc, List.cons_append, List.nil_append] at hnm ⊢
  simp only [hcont, if_true, bne_self_eq_false, Bool.false_eq_true, if_false, hnm, hfind]

/-- After the entries, a registered name that is not followed by the colon makes
object decode throw, the entries assigned and nothing assigned for that name. -/
theorem readSerializable_no_colon (object : Serializable) (es : Members)
    (p name ws rest : List Char) (d : Char) (fuel : Nat) (c0 : Char)
    (hcls : JSON.quotationMark ∉ object.getClassName) (hes : ∀ e ∈ es, object.takes e)
    (hp : JSON.quotationMark ∉ p) (hname : JSON.quotationMark ∉ name)
    (hknown : name ∈ object.members.names)
    (hws : ∀ w ∈ ws, isSpace w = true) (hsp : isSpace d = false)
    (hd : d ≠ JSON.valueSeparator) (hfuel : es.length + p.length + 1 < fuel) :
    readSerializable fuel c0
        (IStream.ofList (JSON.beginObject :: (quoted classNameKey ++ JSON.valueSeparator ::
          (quoted object.getClassName ++ (es.flatMap memberText ++ JSON.elementSeparator ::
            (p ++ quoted name ++ (ws ++ d :: rest))))))) object
      = .thrown .jsonExceptionPtr
          (IStream.ofList rest, { object with members := object.members.assignAll es }) := by
  obtain ⟨f, hf⟩ : ∃ f, fuel = (f + 1) + es.length := ⟨fuel - es.length - 1, by omega⟩
  have hfind : ∃ x, (object.members.assignAll es).find name = some x := by
    cases hx : (object.members.assignAll es).find name with
    | some x => exact ⟨x, rfl⟩
    | none =>
      exfalso
      have hmem : name ∈ (object.members.assignAll es).names := by
        rw [Members.names_assignAll]; exact hknown
      clear hf hfuel hes
      generalize object.members.assignAll es = m at hx hmem
      induction m with
      | nil => simp [Members.names] at hmem
      | cons a t ih =>
        by_cases ha : a.1 = name
        · simp [Members.find, ha] at hx
        · simp only [Members.find, ha, if_false] at hx
          simp only [Members.names, List.map_cons, List.mem_cons] at hmem
          rcases hmem with h | h
          · exact ha h.symm
          · exact ih hx h
  obtain ⟨x, hx⟩ := hfind
  have hnm := deserializeElemName_quoted p name (ws ++ d :: rest)
    { object with members := object.members.assignAll es } f hp hname (by omega)
  have hcont : (JSON.elementSeparator != JSON.endObject && !isEOFChar JSON.elementSeparator)
      = true := by decide
  have hdb : (d != JSON.valueSeparator) = true := bne_iff_ne.mpr hd
  rw [hf, readSerializable_entries object es JSON.elementSeparator _ f c0 hcls hes
    (by decide) (by decide), readMembers]
  simp only [quoted, List.append_assoc, List.cons_append, List.nil_append] at hnm ⊢
  simp only [hcont, if_true, bne_self_eq_false, Bool.false_eq_true, if_false, hnm, hx,
    extractChar_skip _ d ws rest hws hsp, hdb]

namespace JsonSerializer

theorem writeArrayFrom_pos (t : IntType) (ns : List Int) : ∀ (os : List Char) (i : Nat),
    0 < i → writeArrayFrom t os i ns
      = os ++ ns.flatMap (fun n => JSON.elementSeparator :: intText n) := by
  induction ns with
  | nil => intro os i _; simp [writeArrayFrom]
  | cons n rest ih =>
    intro os i hi
    rw [writeArrayFrom]
    simp only [hi, if_true, writeInt_eq, ih _ (i + 1) (Nat.succ_pos i), List.flatMap_cons]
    simp

/-- The index loop of `writeArray` writes the `array` rule over the element texts. -/
theorem writeArray_eq (t : IntType) (os : List Char) (ns : List Int) :
    writeArray t os ns = os ++ arrayText (ns.map intText) := by
  cases ns with
  | nil => simp [writeArray, writeArrayFrom, arrayText, joinItems]
  | cons n rest =>
    simp only [writeArray, writeArrayFrom, Nat.lt_irrefl, if_false, writeInt_eq,
      writeArrayFrom_pos t rest _ 1 Nat.one_pos, List.map_cons, arrayText, joinItems_cons,
      List.flatMap_map]
    simp

end JsonSerializer

/-- The decimal text of an integer holds a minus sign and digits only. -/
theorem intText_chars (n : Int) : ∀ c ∈ intText n, c = '-' ∨ isDigit c = true := by
  obtain ⟨d, ds, h1, h2, _⟩ := toDigits_spec n.natAbs
  intro c hc
  simp only [intText, insertInt] at hc
  split at hc
  · simp only [List.nil_append, List.mem_cons] at hc
    rcases hc with h | h
    · exact Or.inl h
    · exact Or.inr (h2 c (by rw [← h1]; exact h))
  · simp only [List.nil_append] at hc
    exact Or.inr (h2 c (by rw [← h1]; exact hc))

theorem intText_count_separator (n : Int) : (intText n).count JSON.elementSeparator = 0 := by
  rw [List.count_eq_zero]
  intro h
  rcases intText_chars n _ h with h1 | h1
  · exact absurd h1 (by decide)
  · exact absurd h1 (by decide)

theorem count_separator_flatMap (ns : List Int) :
    (ns.flatMap (fun n => JSON.elementSeparator :: intText n)).count JSON.elementSeparator
      = ns.length := by
  induction ns with
  | nil => rfl
  | cons n rest ih =>
    simp only [List.flatMap_cons, List.count_append, List.count_cons_self, ih,
      intText_count_separator, List.length_cons]
    omega

/-- The text of an array of `n` integers holds `n - 1` separators. -/
theorem arrayText_count_separator (ns : List Int) :
    (arrayText (ns.map intText)).count JSON.elementSeparator = ns.length - 1 := by
  cases ns with
  | nil => decide
  | cons n rest =>
    have hb : (JSON.beginArray == JSON.elementSeparator) = false := by decide
    have he : (JSON.endArray == JSON.elementSeparator) = false := by decide
    simp only [arrayText, List.map_cons, joinItems_cons, List.flatMap_map, List.count_cons,
      List.count_append, intText_count_separator, count_separator_flatMap, hb, he,
      List.count_nil, List.length_cons]
    simp

theorem dropWhile_space_run (ws : List Char) (c : Char) (rest : List Char)
    (hws : ∀ w ∈ ws, isSpace w = true) (hc : isSpace c = false) :
    (ws ++ c :: rest).dropWhile isSpace = c :: rest := by
  induction ws with
  | nil => simp [List.dropWhile_cons, hc]
  | cons w t ih =>
    have hw : isSpace w = true := hws w (by simp)
    simp only [List.cons_append, List.dropWhile_cons, hw, if_true]
    exact ih (fun v hv => hws v (List.mem_cons_of_mem _ hv))

/-- Where the integer extractor finds, after white space, a character that is
neither a digit nor a sign, it stores 0, raises `failbit` and extracts nothing
but the white space. -/
theorem extractInt_unparsable (t : IntType) (ws : List Char) (c : Char) (rest : List Char)
    (old : Int) (hws : ∀ w ∈ ws, isSpace w = true) (hsp : isSpace c = false)
    (hdg : isDigit c = false) (hminus : c ≠ '-') (hplus : c ≠ '+') :
    extractInt t (IStream.ofList (ws ++ c :: rest)) old = (⟨c :: rest, false, true⟩, 0) := by
  simp [extractInt, IStream.ofList, IStream.good, dropWhile_space_run ws c rest hws hsp,
    hminus, hplus, List.takeWhile_cons, List.dropWhile_cons, hdg]

namespace JsonDeserializer

/-- On an array text that is cut right after its last element an adapter that
reads one integer per element and never throws does not return: the last
read raises `eofbit`, the read of the lookahead fails, and the loop goes on with
the separator as lookahead. -/
theorem readSTLContainer_cut_text {σ : Type} (t : IntType) (tmp0 : Int)
    (push : σ → Int → σ) (pre : List Int) (fuel : Nat) (c0 : Char) (s : σ)
    (hne : pre ≠ []) (hall : ∀ n ∈ pre, t.holds n) :
    readSTLContainer
        (fun _ i x => Outcome.ok ((Deserializer.readInt t i tmp0).1,
          push x (Deserializer.readInt t i tmp0).2))
        fuel c0 (IStream.ofList (JSON.beginArray :: joinItems (pre.map intText))) s
      = .outOfFuel := by
  have hb : isSpace JSON.beginArray = false := by decide
  have hloop : (JSON.elementSeparator != JSON.endArray && !isEOFChar JSON.elementSeparator)
      = true := by decide
  have hfail : ∀ (f : Nat) (is : IStream) (x : σ), is.good = false →
      ∃ is1 s1, (fun (_ : Nat) i x => Outcome.ok ((Deserializer.readInt t i tmp0).1,
          push x (Deserializer.readInt t i tmp0).2)) f is x = .ok (is1, s1) ∧ is1.good = false :=
    fun f is x h => ⟨is.setFail, push x tmp0, by simp [readInt_failed t is tmp0 h],
      setFail_not_good is⟩
  have hlastStep : ∀ (f : Nat) (n : Int) (x : σ), t.holds n →
      readElements (fun _ i x => Outcome.ok ((Deserializer.readInt t i tmp0).1,
          push x (Deserializer.readInt t i tmp0).2)) f (IStream.ofList (intText n))
        JSON.elementSeparator x = .outOfFuel := by
    intro f n x hn
    have hread : Deserializer.readInt t (IStream.ofList (intText n)) tmp0
        = (⟨[], true, false⟩, n) := by
      have := extractInt_insertInt t n tmp0 [] hn (by simp)
      simpa [Deserializer.readInt, intText] using this
    cases f with
    | zero => rfl
    | succ g =>
      rw [readElements]
      simp only [hloop, if_true, bne_self_eq_false, Bool.false_eq_true, if_false, hread]
      rw [extractChar_failed _ _ (by rfl)]
      exact readElements_failed _ hfail g _ _ (setFail_not_good _)
  have hrun : ∀ (xs : List Int), xs ≠ [] → (∀ n ∈ xs, t.holds n) → ∀ (f : Nat) (x : σ),
      readElements (fun _ i x => Outcome.ok ((Deserializer.readInt t i tmp0).1,
          push x (Deserializer.readInt t i tmp0).2)) f
        (IStream.ofList (joinItems (xs.map intText))) JSON.elementSeparator x = .outOfFuel := by
    intro xs
    induction xs with
    | nil => intro h; exact absurd rfl h
    | cons n rest ih =>
      intro _ hxs f x
      have hn : t.holds n := hxs n (by simp)
      cases rest with
      | nil => exact hlastStep f n x hn
      | cons m ms =>
        cases f with
        | zero => rfl
        | succ g =>
          have hread := readInt_intText t n tmp0 JSON.elementSeparator
            (joinItems ((m :: ms).map intText)) hn (by decide)
          have hsep : isSpace JSON.elementSeparator = false := by decide
          simp only [List.map_cons, joinItems_cons_cons] at hread ⊢
          rw [readElements]
          simp only [hloop, if_true, bne_self_eq_false, Bool.false_eq_true, if_false, hread,
            extractChar_cons _ _ _ hsep]
          exact ih (by simp) (fun z hz => hxs z (List.mem_cons_of_mem _ hz)) g _
  unfold readSTLContainer
  simp only [extractChar_cons c0 _ _ hb, bne_self_eq_false, Bool.false_eq_true, if_false]
  rw [hrun pre hne hall fuel s]

end JsonDeserializer

theorem point_getClassName (x y : Int) : (point x y).getClassName = "Point".toList := rfl

/-- On an object text that is cut right after the class-name string object decode
does not return: the read of the lookahead fails with the separator in `c`,
and the search for the next member name never finds a quote. -/
theorem readSerializable_cut (object : Serializable) (fuel : Nat) (c0 : Char)
    (hcls : JSON.quotationMark ∉ object.getClassName) :
    readSerializable fuel c0
        (IStream.ofList (JSON.beginObject :: (quoted classNameKey ++ JSON.valueSeparator ::
          quoted object.getClassName))) object
      = .outOfFuel := by
  cases fuel with
  | zero =>
    have hb : isSpace JSON.beginObject = false := by decide
    simp [readSerializable, extractChar_cons c0 _ _ hb, readString, searchQuote]
  | succ f =>
    have hhead := readSerializable_header [] [] [] [] object.getClassName [] object (f + 1) c0
      (by simp) (by simp) (by simp) (by simp) hcls (by simp) (by simp)
    have hlook : extractChar (IStream.ofList []) JSON.elementSeparator
        = (⟨[], true, true⟩, JSON.elementSeparator) := rfl
    simp only [quoted, List.append_assoc, List.cons_append, List.nil_append] at hhead ⊢
    rw [hhead]
    simp only [bne_self_eq_false, Bool.false_eq_true, if_false, hlook]
    rw [readMembers_failed (f + 1) _ object (by rfl)]

end LaterLemmas

/-! ## Lemmas on field order, frames and white space -/

section OrderLemmas

open JsonSerializer JsonDeserializer

namespace JsonDeserializer

/-- On an input without a quote the search for the opening quote does not end:
it drops every character, and at the end of the input `peek()` gives
end-of-file and `ignore(1)` extracts nothing, for ever. -/
theorem searchQuote_no_quote (s : List Char) : ∀ (fuel : Nat),
    JSON.quotationMark ∉ s → searchQuote fuel (IStream.ofList s) = none := by
  induction s with
  | nil =>
    intro fuel _
    cases fuel with
    | zero => rfl
    | succ f =>
      rw [searchQuote]
      simp only [peek, IStream.ofList, IStream.good, Bool.not_false, Bool.and_self, if_true]
      have hne : ((none : Option Char) = some JSON.quotationMark) = False := by simp
      simp only [hne, if_false]
      exact searchQuote_failed f _ (by rfl)
  | cons a t ih =>
    intro fuel h
    have hne : a ≠ JSON.quotationMark := fun e => h (by simp [e])
    have ht : JSON.quotationMark ∉ t := fun m => h (List.mem_cons_of_mem _ m)
    cases fuel with
    | zero => rfl
    | succ f =>
      have := ih f ht
      simp [searchQuote, peek, ignore1, IStream.ofList, IStream.good, hne] at this ⊢
      exact this

theorem readString_no_quote (s value : List Char) (fuel : Nat)
    (h : JSON.quotationMark ∉ s) : readString fuel (IStream.ofList s) value = none := by
  simp [readString, searchQuote_no_quote s fuel h]

/-- Whatever the input, the element loop of the list adapter leaves the elements
that the container held in place, in front of what it appends. -/
theorem readElements_list_extends (t : IntType) (tmp0 : Int) : ∀ (fuel : Nat) (is : IStream)
    (c : Char) (container : List Int),
    (∀ s, readElements (fun _ i x => SerializableSTLList.deserializeElem t tmp0 i x) fuel is c
        container = .ok s → ∃ more, s.2.2 = container ++ more) ∧
    (∀ e s, readElements (fun _ i x => SerializableSTLList.deserializeElem t tmp0 i x) fuel is c
        container = .thrown e s → ∃ more, s.2.2 = container ++ more) := by
  intro fuel
  induction fuel with
  | zero => intro is c container; simp [readElements]
  | succ f ih =>
    intro is c container
    rw [readElements]
    split
    · split
      · simp
      · simp only [SerializableSTLList.deserializeElem]
        obtain ⟨h1, h2⟩ := ih (extractChar (Deserializer.readInt t is tmp0).1 c).1
          (extractChar (Deserializer.readInt t is tmp0).1 c).2
          (container ++ [(Deserializer.readInt t is tmp0).2])
        constructor
        · intro s hs
          obtain ⟨more, hm⟩ := h1 s hs
          exact ⟨(Deserializer.readInt t is tmp0).2 :: more, by simp [hm]⟩
        · intro e s hs
          obtain ⟨more, hm⟩ := h2 e s hs
          exact ⟨(Deserializer.readInt t is tmp0).2 :: more, by simp [hm]⟩
    · constructor
      · intro s hs
        simp at hs
        exact ⟨[], by simp [← hs]⟩
      · intro e s hs
        simp at hs

/-- Whatever the input, the decode of a vector, deque or list leaves the elements
that the target held in place, in front of what it appends. -/
theorem readList_extends (t : IntType) (fuel : Nat) (c0 : Char) (tmp0 : Int) (is : IStream)
    (container : List Int) :
    (∀ s, Deserializer.readList t fuel c0 tmp0 is container = .ok s →
      ∃ more, s.2 = container ++ more) ∧
    (∀ e s, Deserializer.readList t fuel c0 tmp0 is container = .thrown e s →
      ∃ more, s.2 = container ++ more) := by
  unfold Deserializer.readList readSTLContainer
  dsimp only
  split
  · constructor
    · intro s hs; simp at hs
    · intro e s hs
      simp at hs
      exact ⟨[], by simp [← hs.2]⟩
  · obtain ⟨h1, h2⟩ := readElements_list_extends t tmp0 fuel (extractChar is c0).1
      JSON.elementSeparator container
    split
    · rename_i r hr
      obtain ⟨more, hm⟩ := h1 r hr
      split
      · constructor
        · intro s hs; simp at hs
        · intro e s hs
          simp at hs
          exact ⟨more, by rw [← hs.2]; exact hm⟩
      · constructor
        · intro s hs
          simp at hs
          exact ⟨more, by rw [← hs]; exact hm⟩
        · intro e s hs; simp at hs
    · rename_i e1 r hr
      obtain ⟨more, hm⟩ := h2 e1 r hr
      constructor
      · intro s hs; simp at hs
      · intro e s hs
        simp at hs
        exact ⟨more, by rw [← hs.2]; exact hm⟩
    · constructor
      · intro s hs; simp at hs
      · intro e s hs; simp at hs

end JsonDeserializer

theorem char_eq_of_toNat (a b : Char) (h : a.toNat = b.toNat) : a = b := by
  rw [← Char.ofNat_toNat a, ← Char.ofNat_toNat b, h]

theorem strLt_irrefl (a : List Char) : strLt a a = false := by
  induction a with
  | nil => rfl
  | cons x xs ih => simp [strLt, ih]

theorem strLt_trans : ∀ (a b c : List Char), strLt a b = true → strLt b c = true →
    strLt a c = true := by
  intro a
  induction a with
  | nil =>
    intro b c hab hbc
    cases c with
    | nil => cases b <;> simp [strLt] at hbc
    | cons z zs => rfl
  | cons x xs ih =>
    intro b c hab hbc
    cases b with
    | nil => simp [strLt] at hab
    | cons y ys =>
      cases c with
      | nil => simp [strLt] at hbc
      | cons z zs =>
        simp only [strLt, Bool.or_eq_true, decide_eq_true_eq, Bool.and_eq_true, beq_iff_eq]
          at hab hbc ⊢
        rcases hab with h1 | ⟨h1, h2⟩
        · rcases hbc with h3 | ⟨h3, _⟩
          · exact Or.inl (by omega)
          · exact Or.inl (by rw [← h3]; exact h1)
        · rcases hbc with h3 | ⟨h3, h4⟩
          · exact Or.inl (by rw [h1]; exact h3)
          · exact Or.inr ⟨by rw [h1, h3], ih ys zs h2 h4⟩

theorem strLt_trichotomy : ∀ (a b : List Char), strLt a b = false → a ≠ b →
    strLt b a = true := by
  intro a
  induction a with
  | nil =>
    intro b h hne
    cases b with
    | nil => exact absurd rfl hne
    | cons y ys => simp [strLt] at h
  | cons x xs ih =>
    intro b h hne
    cases b with
    | nil => rfl
    | cons y ys =>
      simp only [strLt, Bool.or_eq_false_iff, decide_eq_false_iff_not, Bool.and_eq_false_imp,
        beq_iff_eq] at h
      simp only [strLt, Bool.or_eq_true, decide_eq_true_eq, Bool.and_eq_true, beq_iff_eq]
      by_cases hxy : x = y
      · subst hxy
        have hne' : xs ≠ ys := fun e => hne (by rw [e])
        exact Or.inr ⟨rfl, ih ys (h.2 rfl) hne'⟩
      · have : x.toNat ≠ y.toNat := fun e => hxy (char_eq_of_toNat x y e)
        exact Or.inl (by omega)

namespace Members

theorem names_set (m : Members) (n : List Char) (v : Value) (k : List Char) :
    k ∈ (m.set n v).names ↔ k = n ∨ k ∈ m.names := by
  induction m with
  | nil => simp only [set, names, List.map_cons, List.map_nil, List.mem_singleton,
      List.not_mem_nil, or_false]
  | cons a t ih =>
    obtain ⟨a1, a2⟩ := a
    simp only [names] at ih
    simp only [set, names]
    split
    · rename_i h
      simp only [List.map_cons, List.mem_cons, h]
      tauto
    · split
      · simp only [List.map_cons, List.mem_cons]
      · simp only [List.map_cons, List.mem_cons, ih]
        tauto

/-- The statement `_members[name] = ...` keeps the table in key order. -/
theorem sorted_set (m : Members) (n : List Char) (v : Value) (h : m.sorted) :
    (m.set n v).sorted := by
  induction m with
  | nil => simp only [set, sorted, names, List.map_cons, List.map_nil, List.pairwise_cons,
      List.not_mem_nil, false_implies, implies_true, List.Pairwise.nil, and_self]
  | cons a t ih =>
    have hp := List.pairwise_cons.mp (by simpa only [sorted, names, List.map_cons] using h :
      List.Pairwise (fun x y => strLt x y = true) (a.1 :: t.map Prod.fst))
    have ht : sorted t := hp.2
    simp only [set]
    split
    · rename_i heq
      simp only [sorted, names, List.map_cons, List.pairwise_cons]
      exact ⟨fun b hb => by rw [← heq]; exact hp.1 b hb, hp.2⟩
    · rename_i hne
      split
      · rename_i hlt
        simp only [sorted, names, List.map_cons, List.pairwise_cons]
        refine ⟨?_, hp.1, hp.2⟩
        intro b hb
        rcases List.mem_cons.mp hb with h1 | h1
        · rw [h1]; exact hlt
        · exact strLt_trans n a.1 b hlt (hp.1 b h1)
      · rename_i hnlt
        have hgt : strLt a.1 n = true :=
          strLt_trichotomy n a.1 (Bool.eq_false_iff.mpr hnlt) (fun e => hne e.symm)
        have hrec := ih ht
        simp only [sorted, names, List.map_cons, List.pairwise_cons] at hrec ⊢
        refine ⟨?_, hrec⟩
        intro b hb
        rcases (names_set t n v b).mp hb with h1 | h1
        · rw [h1]; exact hgt
        · exact hp.1 b h1

theorem find_set (m : Members) (n : List Char) (v : Value) (k : List Char) :
    (m.set n v).find k = if k = n then some (n, v) else m.find k := by
  induction m with
  | nil =>
    by_cases h : k = n
    · simp [set, find, h]
    · have h' : ¬ n = k := fun e => h e.symm
      simp [set, find, h, h']
  | cons a t ih =>
    obtain ⟨a1, a2⟩ := a
    simp only [set]
    by_cases hk : k = n
    · subst hk
      split
      · simp [find]
      · split
        · simp [find]
        · rename_i hne _
          simp [find, hne, ih]
    · have hk' : ¬ n = k := fun e => hk e.symm
      split
      · rename_i heq
        have : ¬ a1 = k := fun e => hk' (heq ▸ e)
        simp [find, hk, hk', this]
      · split
        · simp [find, hk, hk']
        · simp [find, hk, ih]

theorem sorted_nodup (m : Members) (h : m.sorted) : m.names.Nodup := by
  unfold sorted at h
  refine List.Pairwise.imp ?_ h
  intro a b hab heq
  rw [heq, strLt_irrefl] at hab
  exact absurd hab (by decide)

theorem find_some_mem (m : Members) (k : List Char) (x : List Char × Value)
    (h : m.find k = some x) : x ∈ m := by
  induction m with
  | nil => simp [find] at h
  | cons a t ih =>
    by_cases ha : a.1 = k
    · simp only [find, ha, if_true, Option.some.injEq] at h
      rw [← h, ← ha]
      exact List.mem_cons_self _ _
    · simp only [find, ha, if_false] at h
      exact List.mem_cons_of_mem _ (ih h)

/-- Two tables in key order with the same lookups are the same table. -/
theorem sorted_ext : ∀ (m1 m2 : Members), m1.sorted → m2.sorted →
    (∀ k, m1.find k = m2.find k) → m1 = m2 := by
  intro m1
  induction m1 with
  | nil =>
    intro m2 _ _ h
    cases m2 with
    | nil => rfl
    | cons b t => have := h b.1; simp [find] at this
  | cons a t1 ih =>
    intro m2 h1 h2 h
    cases m2 with
    | nil => have := h a.1; simp [find] at this
    | cons b t2 =>
      have hp1 := List.pairwise_cons.mp (by simpa only [sorted, names, List.map_cons] using h1 :
        List.Pairwise (fun x y => strLt x y = true) (a.1 :: t1.map Prod.fst))
      have hp2 := List.pairwise_cons.mp (by simpa only [sorted, names, List.map_cons] using h2 :
        List.Pairwise (fun x y => strLt x y = true) (b.1 :: t2.map Prod.fst))
      have hkey : a.1 = b.1 := by
        by_contra hne
        have ha := h a.1
        have hb := h b.1
        have hba : ¬ b.1 = a.1 := fun e => hne e.symm
        simp only [find, hne, hba, if_true, if_false] at ha hb
        have hmemA : a ∈ t2 := find_some_mem t2 a.1 a ha.symm
        have hmemB : b ∈ t1 := find_some_mem t1 b.1 b hb
        have hlt1 := hp1.1 b.1 (List.mem_map_of_mem Prod.fst hmemB)
        have hlt2 := hp2.1 a.1 (List.mem_map_of_mem Prod.fst hmemA)
        have := strLt_trans _ _ _ hlt1 hlt2
        rw [strLt_irrefl] at this
        exact absurd this (by decide)
      have hab : a = b := by
        have ha := h a.1
        simp only [find, hkey, if_true, Option.some.injEq] at ha
        rw [← hkey] at ha
        exact Prod.ext hkey (Prod.mk.inj ha).2
      subst hab
      have hnot1 : a.1 ∉ names t1 := by
        intro hm
        have := hp1.1 a.1 hm
        rw [strLt_irrefl] at this
        exact absurd this (by decide)
      have hnot2 : a.1 ∉ names t2 := by
        intro hm
        have := hp2.1 a.1 hm
        rw [strLt_irrefl] at this
        exact absurd this (by decide)
      have htail : ∀ k, find t1 k = find t2 k := by
        intro k
        by_cases hk : a.1 = k
        · rw [← hk, find_none_of_not_mem t1 a.1 hnot1, find_none_of_not_mem t2 a.1 hnot2]
        · have := h k
          simpa only [find, hk, if_false] using this
      rw [ih t2 hp1.2 hp2.2 htail]

end Members

/-- The table after a run of `ADD_MEMBER`: in key order, with the names declared. -/
theorem foldl_set_sorted (decls : List (List Char × Value)) : ∀ (m : Members), m.sorted →
    (decls.foldl (fun (m : Members) d => m.set d.1 d.2) m).sorted ∧
    (∀ k, k ∈ (decls.foldl (fun (m : Members) d => m.set d.1 d.2) m).names ↔
      k ∈ m.names ∨ k ∈ decls.map Prod.fst) := by
  induction decls with
  | nil => intro m h; simp [h]
  | cons d ds ih =>
    intro m h
    obtain ⟨h1, h2⟩ := ih (m.set d.1 d.2) (Members.sorted_set m d.1 d.2 h)
    refine ⟨h1, ?_⟩
    intro k
    simp only [List.foldl_cons, h2 k, Members.names_set, List.map_cons, List.mem_cons]
    tauto

/-- Lookups in the table after a run of `ADD_MEMBER` with distinct names. -/
theorem foldl_set_find (decls : List (List Char × Value)) : ∀ (m : Members),
    (decls.map Prod.fst).Nodup →
    (∀ d ∈ decls, (decls.foldl (fun (m : Members) d => m.set d.1 d.2) m).find d.1 = some d) ∧
    (∀ k, k ∉ decls.map Prod.fst →
      (decls.foldl (fun (m : Members) d => m.set d.1 d.2) m).find k = m.find k) := by
  induction decls with
  | nil => intro m _; simp
  | cons d ds ih =>
    intro m hnd
    simp only [List.map_cons, List.nodup_cons] at hnd
    obtain ⟨h1, h2⟩ := ih (m.set d.1 d.2) hnd.2
    constructor
    · intro x hx
      rcases List.mem_cons.mp hx with hd | hd
      · subst hd
        simp only [List.foldl_cons]
        rw [h2 x.1 hnd.1, Members.find_set]
        simp
      · exact h1 x hd
    · intro k hk
      simp only [List.map_cons, List.mem_cons, not_or] at hk
      simp only [List.foldl_cons]
      rw [h2 k hk.2, Members.find_set]
      simp [hk.1]

/-- The registration of a class does not depend on the order of its `ADD_MEMBER`
lines, the names being distinct. -/
theorem registerSerializable_perm (className : List Char)
    (decls decls' : List (List Char × Value)) (hperm : decls'.Perm decls)
    (hnd : (decls.map Prod.fst).Nodup) :
    registerSerializable className decls' = registerSerializable className decls := by
  have hnd' : (decls'.map Prod.fst).Nodup := (hperm.map Prod.fst).nodup_iff.mpr hnd
  have hs := (foldl_set_sorted decls [] (by simp [Members.sorted, Members.names])).1
  have hs' := (foldl_set_sorted decls' [] (by simp [Members.sorted, Members.names])).1
  obtain ⟨f1, f2⟩ := foldl_set_find decls [] hnd
  obtain ⟨g1, g2⟩ := foldl_set_find decls' [] hnd'
  have hfind : ∀ k, (decls'.foldl (fun (m : Members) d => m.set d.1 d.2) []).find k
      = (decls.foldl (fun (m : Members) d => m.set d.1 d.2) []).find k := by
    intro k
    by_cases hk : k ∈ decls.map Prod.fst
    · obtain ⟨d, hd, hdk⟩ := List.mem_map.mp hk
      rw [← hdk, f1 d hd, g1 d (hperm.mem_iff.mpr hd)]
    · have hk' : k ∉ decls'.map Prod.fst := fun h => hk ((hperm.map Prod.fst).mem_iff.mp h)
      rw [f2 k hk, g2 k hk']
  simp only [registerSerializable]
  rw [Members.sorted_ext _ _ hs' hs hfind]

namespace Members

theorem assign_comm (m : Members) (n1 n2 : List Char) (v1 v2 : Value) (h : n1 ≠ n2) :
    (m.assign n1 v1).assign n2 v2 = (m.assign n2 v2).assign n1 v1 := by
  induction m with
  | nil => rfl
  | cons a t ih =>
    obtain ⟨a1, a2⟩ := a
    by_cases h1 : a1 = n1
    · have h2 : ¬ a1 = n2 := fun e => h (h1.symm.trans e)
      simp [assign, h1, h2, h]
    · by_cases h2 : a1 = n2
      · have h' : ¬ n2 = n1 := fun e => h e.symm
        simp [assign, h1, h2, h']
      · simp [assign, h1, h2, ih]

/-- Assignments to distinct members can be made in any order. -/
theorem assignAll_perm (m : Members) (es es' : Members) (hperm : es'.Perm es)
    (hnd : es.names.Nodup) : m.assignAll es' = m.assignAll es := by
  have hnd' : es'.names.Nodup := (hperm.map Prod.fst).nodup_iff.mpr hnd
  unfold assignAll
  refine List.Perm.foldl_eq' hperm ?_ m
  intro x hx y hy z
  by_cases hxy : x.1 = y.1
  · have : x = y := List.inj_on_of_nodup_map hnd' hx hy hxy
    rw [this]
  · exact assign_comm z x.1 y.1 x.2 y.2 hxy

end Members

/-- A list whose elements do not all satisfy `P` splits at the first that does not. -/
theorem split_at_first {α : Type} (P : α → Prop) [DecidablePred P] (l : List α)
    (h : ¬ ∀ x ∈ l, P x) :
    ∃ pre u post, l = pre ++ u :: post ∧ (∀ x ∈ pre, P x) ∧ ¬ P u := by
  induction l with
  | nil => exact absurd (by simp) h
  | cons a t ih =>
    by_cases ha : P a
    · have ht : ¬ ∀ x ∈ t, P x := by
        intro hall
        apply h
        intro x hx
        rcases List.mem_cons.mp hx with e | e
        · rw [e]; exact ha
        · exact hall x e
      obtain ⟨pre, u, post, h1, h2, h3⟩ := ih ht
      refine ⟨a :: pre, u, post, by rw [h1]; rfl, ?_, h3⟩
      intro x hx
      rcases List.mem_cons.mp hx with e | e
      · rw [e]; exact ha
      · exact h2 x e
    · exact ⟨[], a, t, rfl, by simp, ha⟩

/-- Object decode of a well-formed text whose entries name registered members:
it returns normally with the entries assigned. -/
theorem readSerializable_objectText (object : Serializable) (es : Members) (rest : List Char)
    (fuel : Nat) (c0 : Char)
    (hcls : JSON.quotationMark ∉ object.getClassName) (hes : ∀ e ∈ es, object.takes e)
    (hfuel : es.length < fuel) :
    readSerializable fuel c0
        (IStream.ofList (objectText object.getClassName es ++ rest)) object
      = .ok (IStream.ofList rest, { object with members := object.members.assignAll es }) := by
  obtain ⟨f, hf⟩ : ∃ f, fuel = (f + 1) + es.length := ⟨fuel - es.length - 1, by omega⟩
  have h := readSerializable_entries object es JSON.endObject rest f c0 hcls hes (by decide)
    (by decide)
  have hend : (JSON.endObject != JSON.endObject && !isEOFChar JSON.endObject) = false := by
    decide
  simp only [objectText, List.append_assoc, List.cons_append, List.singleton_append,
    List.nil_append] at h ⊢
  rw [hf, h, readMembers]
  simp only [hend, Bool.false_eq_true, if_false, bne_self_eq_false, Bool.false_and]

/-- Object decode of a text with an entry whose name is not registered, the
entries before it well formed: it throws when the name has been read, with
the entries before it assigned and nothing after the name read. -/
theorem readSerializable_objectText_unknown (object : Serializable) (pre post : Members)
    (u : List Char × Value) (rest : List Char) (fuel : Nat) (c0 : Char)
    (hcls : JSON.quotationMark ∉ object.getClassName) (hpre : ∀ e ∈ pre, object.takes e)
    (hq : JSON.quotationMark ∉ u.1) (hu : u.1 ∉ object.members.names)
    (hfuel : pre.length + 1 < fuel) :
    readSerializable fuel c0
        (IStream.ofList (objectText object.getClassName (pre ++ u :: post) ++ rest)) object
      = .thrown .jsonExceptionPtr
          (IStream.ofList (JSON.valueSeparator :: (Serializer.write [] u.2 ++
            (post.flatMap memberText ++ JSON.endObject :: rest))),
            { object with members := object.members.assignAll pre }) := by
  have h := readSerializable_unknown_name object pre [] u.1
    (JSON.valueSeparator :: (Serializer.write [] u.2 ++
      (post.flatMap memberText ++ JSON.endObject :: rest))) fuel c0 hcls hpre (by simp) hq hu
    (by simp; omega)
  have htext : objectText object.getClassName (pre ++ u :: post) ++ rest
      = JSON.beginObject :: (quoted classNameKey ++ JSON.valueSeparator ::
          (quoted object.getClassName ++ (pre.flatMap memberText ++ JSON.elementSeparator ::
            ([] ++ quoted u.1 ++ (JSON.valueSeparator :: (Serializer.write [] u.2 ++
              (post.flatMap memberText ++ JSON.endObject :: rest))))))) := by
    simp [objectText, memberText, List.flatMap_append, List.flatMap_cons]
  rw [htext, h]

theorem paddedItems_cons_cons (x y : Int × List Char) (rest : List (Int × List Char)) :
    paddedItems (x :: y :: rest)
      = intText x.1 ++ (x.2 ++ JSON.elementSeparator :: paddedItems (y :: rest)) := by
  rw [paddedItems]

namespace JsonDeserializer

/-- The element loop over a run of integers, each followed by white space before
the separator or the character `d`: the adapter takes every element, and the
loop goes on with `d` as lookahead. -/
theorem readElements_padded {σ : Type} (t : IntType) (tmp0 : Int) (push : σ → Int → σ)
    (xs : List (Int × List Char)) : ∀ (s : σ) (fuel : Nat) (d : Char) (rest : List Char),
    xs ≠ [] → (∀ x ∈ xs, t.holds x.1 ∧ ∀ w ∈ x.2, isSpace w = true) →
    isSpace d = false → isDigit d = false →
    readElements (fun _ i x => Outcome.ok ((Deserializer.readInt t i tmp0).1,
          push x (Deserializer.readInt t i tmp0).2)) (fuel + xs.length)
        (IStream.ofList (paddedItems xs ++ d :: rest)) JSON.elementSeparator s
      = readElements (fun _ i x => Outcome.ok ((Deserializer.readInt t i tmp0).1,
          push x (Deserializer.readInt t i tmp0).2)) fuel (IStream.ofList rest) d
          ((xs.map Prod.fst).foldl push s) := by
  induction xs with
  | nil => intro s fuel d rest h; exact absurd rfl h
  | cons x ys ih =>
    intro s fuel d rest _ hall hsp hdg
    obtain ⟨hx, hws⟩ := hall x (by simp)
    cases ys with
    | nil =>
      have hstep := readElements_step_space
        (fun _ i x => Outcome.ok ((Deserializer.readInt t i tmp0).1,
          push x (Deserializer.readInt t i tmp0).2)) (intText x.1) s (push s x.1) fuel x.2 d rest
        hws hsp (by simp [readInt_intText_space t x.1 tmp0 x.2 d rest hx hws (fun _ => hdg)])
      simpa [paddedItems] using hstep
    | cons y zs =>
      have hstep := readElements_step_space
        (fun _ i x => Outcome.ok ((Deserializer.readInt t i tmp0).1,
          push x (Deserializer.readInt t i tmp0).2)) (intText x.1) s (push s x.1)
        (fuel + (y :: zs).length) x.2 JSON.elementSeparator
        (paddedItems (y :: zs) ++ d :: rest) hws (by decide)
        (by simp [readInt_intText_space t x.1 tmp0 x.2 JSON.elementSeparator
          (paddedItems (y :: zs) ++ d :: rest) hx hws (fun _ => by decide)])
      have hrec := ih (push s x.1) fuel d rest (by simp)
        (fun z hz => hall z (List.mem_cons_of_mem _ hz)) hsp hdg
      have hlen : fuel + (x :: y :: zs).length = (fuel + (y :: zs).length) + 1 := by
        simp only [List.length_cons]; omega
      rw [hlen, paddedItems_cons_cons]
      simp only [List.append_assoc, List.cons_append] at hstep ⊢
      rw [hstep, hrec]
      rfl

/-- The loop of `readArray` over a run of integers, each followed by white space
before the separator or the character `d`. -/
theorem readArrayFrom_padded (t : IntType) (xs : List (Int × List Char)) :
    ∀ (left length : Nat) (vector : List Int) (d : Char) (rest : List Char),
    xs ≠ [] → (∀ x ∈ xs, t.holds x.1 ∧ ∀ w ∈ x.2, isSpace w = true) →
    isSpace d = false → isDigit d = false →
    readArrayFrom t (left + xs.length) length
        (IStream.ofList (paddedItems xs ++ d :: rest)) JSON.elementSeparator vector
      = readArrayFrom t left (length + xs.length) (IStream.ofList rest) d
          (fillFrom vector length (xs.map Prod.fst)) := by
  induction xs with
  | nil => intro left length vector d rest h; exact absurd rfl h
  | cons x ys ih =>
    intro left length vector d rest _ hall hsp hdg
    obtain ⟨hx, hws⟩ := hall x (by simp)
    cases ys with
    | nil =>
      have hstep := readArrayFrom_step_space t x.1 left length vector x.2 d rest hx hws hsp
        (fun _ => hdg)
      simpa [paddedItems, fillFrom] using hstep
    | cons y zs =>
      have hstep := readArrayFrom_step_space t x.1 (left + (y :: zs).length) length vector x.2
        JSON.elementSeparator (paddedItems (y :: zs) ++ d :: rest) hx hws (by decide)
        (fun _ => by decide)
      have hrec := ih left (length + 1) (vector.set length x.1) d rest (by simp)
        (fun z hz => hall z (List.mem_cons_of_mem _ hz)) hsp hdg
      have hlen : left + (x :: y :: zs).length = (left + (y :: zs).length) + 1 := by
        simp only [List.length_cons]; omega
      rw [hlen, paddedItems_cons_cons]
      simp only [List.append_assoc, List.cons_append] at hstep ⊢
      rw [hstep, hrec]
      simp only [List.map_cons, fillFrom, List.length_cons]
      rw [show length + 1 + (zs.length + 1) = length + (zs.length + 1 + 1) by omega]

/-- Container decode of a well-formed array text with white space before its
delimiters, by an adapter that pushes every element. -/
theorem readSTLContainer_padded {σ : Type} (t : IntType) (tmp0 : Int) (push : σ → Int → σ)
    (w0 : List Char) (xs : List (Int × List Char)) (s : σ) (fuel : Nat) (c0 : Char)
    (rest : List Char) (hw0 : ∀ w ∈ w0, isSpace w = true) (hne : xs ≠ [])
    (hall : ∀ x ∈ xs, t.holds x.1 ∧ ∀ w ∈ x.2, isSpace w = true)
    (hfuel : xs.length < fuel) :
    readSTLContainer (fun _ i x => Outcome.ok ((Deserializer.readInt t i tmp0).1,
          push x (Deserializer.readInt t i tmp0).2)) fuel c0
        (IStream.ofList (paddedArrayText w0 xs ++ rest)) s
      = .ok (IStream.ofList rest, (xs.map Prod.fst).foldl push s) := by
  obtain ⟨f, hf⟩ : ∃ f, fuel = (f + 1) + xs.length := ⟨fuel - xs.length - 1, by omega⟩
  have hrun := readElements_padded t tmp0 push xs s (f + 1) JSON.endArray rest hne hall
    (by decide) (by decide)
  have hb : isSpace JSON.beginArray = false := by decide
  have hend : (JSON.endArray != JSON.endArray && !isEOFChar JSON.endArray) = false := by decide
  unfold readSTLContainer
  simp only [paddedArrayText, List.append_assoc, List.cons_append, List.singleton_append,
    List.nil_append, extractChar_skip c0 _ w0 _ hw0 hb, bne_self_eq_false, Bool.false_eq_true,
    if_false]
  rw [hf, hrun, readElements]
  simp only [hend, Bool.false_eq_true, if_false, bne_self_eq_false, Bool.false_and]

/-- Fixed-array decode of a well-formed array text with white space before its
delimiters. -/
theorem readArray_padded (t : IntType) (w0 : List Char) (xs : List (Int × List Char))
    (vector : List Int) (c0 : Char) (rest : List Char)
    (hw0 : ∀ w ∈ w0, isSpace w = true) (hne : xs ≠ [])
    (hall : ∀ x ∈ xs, t.holds x.1 ∧ ∀ w ∈ x.2, isSpace w = true)
    (hlen : xs.length ≤ vector.length) :
    readArray t c0 (IStream.ofList (paddedArrayText w0 xs ++ rest)) vector
      = .ok (IStream.ofList rest, xs.length, fillFrom vector 0 (xs.map Prod.fst)) := by
  have hb : isSpace JSON.beginArray = false := by decide
  obtain ⟨left, hleft⟩ : ∃ left, vector.length = left + xs.length :=
    ⟨vector.length - xs.length, by omega⟩
  have hrun := readArrayFrom_padded t xs left 0 vector JSON.endArray rest hne hall
    (by decide) (by decide)
  unfold readArray
  simp only [paddedArrayText, List.append_assoc, List.cons_append, List.singleton_append,
    List.nil_append, extractChar_skip c0 _ w0 _ hw0 hb, bne_self_eq_false, Bool.false_eq_true,
    if_false]
  rw [hleft, hrun, readArrayFrom_end]
  simp

end JsonDeserializer

theorem paddedMembers_run_head (es : List PaddedMember) (w2 : List Char) (cEnd : Char)
    (rest : List Char) (hes : ∀ e ∈ es, e.spaces) (hw2 : ∀ w ∈ w2, isSpace w = true)
    (h : w2 = [] → isDigit cEnd = false) :
    ∃ d tail, es.flatMap PaddedMember.text ++ (w2 ++ cEnd :: rest) = d :: tail ∧
      isDigit d = false := by
  cases es with
  | nil => simpa using space_run_head w2 cEnd rest hw2 h
  | cons e t =>
    obtain ⟨d, tl, h1, h2⟩ := space_run_head e.beforeSeparator JSON.elementSeparator
      (quoted e.name ++ (e.beforeColon ++ JSON.valueSeparator :: Serializer.write [] e.value)
        ++ (t.flatMap PaddedMember.text ++ (w2 ++ cEnd :: rest))) (hes e (by simp)).1
      (fun _ => by decide)
    refine ⟨d, tl, ?_, h2⟩
    rw [← h1]
    simp [PaddedMember.text, List.flatMap_cons]

/-- The member loop over a run of well-formed entries with white space before
their separators and colons, and before the character that follows the run. -/
theorem readMembers_padded (es : List PaddedMember) :
    ∀ (object : Serializable) (fuel : Nat) (c cEnd : Char) (w2 rest : List Char),
    (∀ e ∈ es, e.spaces ∧ JSON.quotationMark ∉ e.name ∧ e.value.roundTrips ∧
        ∃ old, object.members.find e.name = some (e.name, old) ∧ old.type = e.value.type) →
    (∀ w ∈ w2, isSpace w = true) → isSpace cEnd = false → (w2 = [] → isDigit cEnd = false) →
    0 < fuel →
    readMembers (fuel + es.length)
        (extractChar (IStream.ofList (es.flatMap PaddedMember.text ++ (w2 ++ cEnd :: rest))) c).1
        (extractChar (IStream.ofList (es.flatMap PaddedMember.text ++ (w2 ++ cEnd :: rest))) c).2
        object
      = readMembers fuel (IStream.ofList rest) cEnd
          { object with members := object.members.assignAll (es.map PaddedMember.entry) } := by
  induction es with
  | nil =>
    intro object fuel c cEnd w2 rest _ hw2 hsp _ _
    simp [extractChar_skip c cEnd w2 rest hw2 hsp, Members.assignAll]
  | cons e t ih =>
    intro object fuel c cEnd w2 rest h hw2 hsp hdg hfuel
    obtain ⟨hspaces, hq, hv, old, hfind, hty⟩ := h e (by simp)
    obtain ⟨d, tl, htail, hd⟩ := paddedMembers_run_head t w2 cEnd rest
      (fun x hx => (h x (List.mem_cons_of_mem _ hx)).1) hw2 hdg
    have hbuf : (e :: t).flatMap PaddedMember.text ++ (w2 ++ cEnd :: rest)
        = e.beforeSeparator ++ JSON.elementSeparator :: ([] ++ JSON.quotationMark ::
            (e.name ++ JSON.quotationMark :: (e.beforeColon ++ JSON.valueSeparator ::
              (Serializer.write [] e.value ++ d :: tl)))) := by
      rw [← htail]
      simp [PaddedMember.text, quoted, List.flatMap_cons]
    have hname := deserializeElemName_quoted [] e.name
      (e.beforeColon ++ JSON.valueSeparator :: (Serializer.write [] e.value ++ d :: tl)) object
      (fuel + t.length) (by simp) hq (by simp; omega)
    have hval := read_write_before e.value old d tl (fuel + t.length) hv hty hd (by omega)
    have hsep : isSpace JSON.elementSeparator = false := by decide
    have hcol : isSpace JSON.valueSeparator = false := by decide
    have hloop : (JSON.elementSeparator != JSON.endObject && !isEOFChar JSON.elementSeparator)
        = true := by decide
    have hnext : ∀ e' ∈ t, e'.spaces ∧ JSON.quotationMark ∉ e'.name ∧ e'.value.roundTrips ∧
        ∃ old', (object.members.assign e.name e.value).find e'.name = some (e'.name, old') ∧
          old'.type = e'.value.type := by
      intro e' he'
      obtain ⟨hs', hq', hv', old', hfind', hty'⟩ := h e' (List.mem_cons_of_mem _ he')
      refine ⟨hs', hq', hv', ?_⟩
      by_cases hsame : e'.name = e.name
      · refine ⟨e.value, ?_, ?_⟩
        · rw [hsame]; exact Members.find_assign_eq _ _ _ _ hfind
        · rw [hsame, hfind] at hfind'
          have : old = old' := by simpa using hfind'
          rw [← hty', ← this, hty]
      · exact ⟨old', by rw [Members.find_assign_ne _ _ _ _ hsame]; exact hfind', hty'⟩
    have hrec := ih { object with members := object.members.assign e.name e.value }
      fuel JSON.valueSeparator cEnd w2 rest hnext hw2 hsp hdg hfuel
    rw [hbuf, extractChar_skip c _ e.beforeSeparator _ hspaces.1 hsep]
    have hlen : fuel + (e :: t).length = (fuel + t.length) + 1 := by simp; omega
    rw [hlen, readMembers]
    simp only [hloop, if_true, bne_self_eq_false, Bool.false_eq_true, if_false, hname, hfind,
      extractChar_skip _ _ e.beforeColon _ hspaces.2 hcol, Serializable.deserializeElemValue,
      hval]
    rw [← htail]
    simpa [Members.assignAll, PaddedMember.entry] using hrec

/-- Object decode of a well-formed text with white space before its delimiters. -/
theorem readSerializable_padded (object : Serializable) (w0 w1 w2 : List Char)
    (es : List PaddedMember) (rest : List Char) (fuel : Nat) (c0 : Char)
    (hcls : JSON.quotationMark ∉ object.getClassName)
    (hw0 : ∀ w ∈ w0, isSpace w = true) (hw1 : ∀ w ∈ w1, isSpace w = true)
    (hw2 : ∀ w ∈ w2, isSpace w = true)
    (hes : ∀ e ∈ es, e.spaces ∧ object.takes e.entry) (hfuel : es.length < fuel) :
    readSerializable fuel c0
        (IStream.ofList (paddedObjectText w0 w1 w2 object.getClassName es ++ rest)) object
      = .ok (IStream.ofList rest,
          { object with members := object.members.assignAll (es.map PaddedMember.entry) }) := by
  obtain ⟨f, hf⟩ : ∃ f, fuel = (f + 1) + es.length := ⟨fuel - es.length - 1, by omega⟩
  have hhead := readSerializable_header w0 [] w1 [] object.getClassName
    (es.flatMap PaddedMember.text ++ (w2 ++ JSON.endObject :: rest)) object fuel c0
    hw0 (by simp) hw1 (by simp) hcls (by simp; omega) (by simp; omega)
  have hes' : ∀ e ∈ es, e.spaces ∧ JSON.quotationMark ∉ e.name ∧ e.value.roundTrips ∧
      ∃ old, object.members.find e.name = some (e.name, old) ∧ old.type = e.value.type :=
    fun e he => ⟨(hes e he).1, (hes e he).2.1, (hes e he).2.2.1,
      Members.find_of_typeOf _ _ _ (hes e he).2.2.2⟩
  have hloop := readMembers_padded es object (f + 1) JSON.elementSeparator JSON.endObject w2
    rest hes' hw2 (by decide) (fun _ => by decide) (by omega)
  have hend : (JSON.endObject != JSON.endObject && !isEOFChar JSON.endObject) = false := by
    decide
  simp only [paddedObjectText, quoted, List.append_assoc, List.cons_append,
    List.singleton_append, List.nil_append] at hhead ⊢
  rw [hhead]
  simp only [bne_self_eq_false, Bool.false_eq_true, if_false]
  rw [hf, hloop, readMembers]
  simp only [hend, Bool.false_eq_true, if_false, bne_self_eq_false, Bool.false_and]

end OrderLemmas

/-! ## Lemmas on failed extractions, overfull arrays and re-encoding -/

section ReencodeLemmas

open JsonSerializer JsonDeserializer

/-- The integer extractor skips white space before a character that is not white
space. -/
theorem extractInt_skip (t : IntType) (ws : List Char) (x : Char) (rest : List Char)
    (old : Int) (hws : ∀ w ∈ ws, isSpace w = true) (hx : isSpace x = false) :
    extractInt t (IStream.ofList (ws ++ x :: rest)) old
      = extractInt t (IStream.ofList (x :: rest)) old := by
  have h1 := dropWhile_space_run ws x rest hws hx
  have h2 := dropWhile_space_run [] x rest (by simp) hx
  rw [List.nil_append] at h2
  simp only [extractInt, IStream.ofList, IStream.good, Bool.not_false, Bool.and_self, if_true,
    h1, h2]

/-- On an input of white space only, the empty input included, the integer
extractor keeps the target and raises `eofbit` and `failbit`. -/
theorem extractInt_blank (t : IntType) (ws : List Char) (old : Int)
    (hws : ∀ w ∈ ws, isSpace w = true) :
    extractInt t (IStream.ofList ws) old = (⟨[], true, true⟩, old) := by
  have h : ws.dropWhile isSpace = [] := by
    rw [List.dropWhile_eq_nil_iff]
    exact hws
  simp only [extractInt, IStream.ofList, IStream.good, Bool.not_false, Bool.and_self, if_true, h]

/-- Where the integer extractor finds, after white space, a sign that no digit
follows, it extracts the sign, stores 0 and raises `failbit`. -/
theorem extractInt_sign_only (t : IntType) (ws : List Char) (sign : Char) (rest : List Char)
    (old : Int) (hws : ∀ w ∈ ws, isSpace w = true) (hsign : sign = '-' ∨ sign = '+')
    (hrest : ∀ c ∈ rest.head?, isDigit c = false) :
    extractInt t (IStream.ofList (ws ++ sign :: rest)) old
      = (⟨rest, rest.isEmpty, true⟩, 0) := by
  have hsp : isSpace sign = false := by
    rcases hsign with h | h <;> subst h <;> decide
  have hor : (sign == '-' || sign == '+') = true := by
    rcases hsign with h | h <;> subst h <;> decide
  have htake : rest.takeWhile isDigit = [] := by
    cases rest with
    | nil => rfl
    | cons c cs => simp [List.takeWhile_cons, hrest c (by simp)]
  have hdrop : rest.dropWhile isDigit = rest := by
    cases rest with
    | nil => rfl
    | cons c cs => simp [List.dropWhile_cons, hrest c (by simp)]
  rw [extractInt_skip t ws sign rest old hws hsp]
  have h0 := dropWhile_space_run [] sign rest (by simp) hsp
  rw [List.nil_append] at h0
  simp only [extractInt, IStream.ofList, IStream.good, Bool.not_false, Bool.and_self, if_true,
    h0, hor, htake, hdrop, List.isEmpty_nil]

/-- The decimal text of an integer starts with a character that is not white
space. -/
theorem intText_head (n : Int) : ∃ h tl, intText n = h :: tl ∧ isSpace h = false := by
  obtain ⟨d, ds, h1, h2, _⟩ := toDigits_spec n.natAbs
  by_cases hn : n < 0
  · exact ⟨'-', d :: ds, by simp [intText, insertInt, hn, h1], by decide⟩
  · exact ⟨d, ds, by simp [intText, insertInt, hn, h1],
      isDigit_not_space d (h2 d (by simp))⟩

/-- Where the integer extractor for a signed type finds, after white space, the
decimal text of an integer that the type does not hold, it extracts the
text, stores the limit of the type on the side of the integer and raises
`failbit`. -/
theorem extractInt_out_of_range (t : IntType) (ws : List Char) (n old : Int)
    (tail : List Char) (hws : ∀ w ∈ ws, isSpace w = true) (hsigned : t.signed = true)
    (hn : ¬ t.holds n) (htail : ∀ c ∈ tail.head?, isDigit c = false) :
    extractInt t (IStream.ofList (ws ++ (intText n ++ tail))) old
      = (⟨tail, tail.isEmpty, true⟩, if n < 0 then t.minVal else t.maxVal) := by
  obtain ⟨h, tl, htxt, hsp⟩ := intText_head n
  have hskip := extractInt_skip t ws h (tl ++ tail) old hws hsp
  rw [← List.cons_append, ← htxt] at hskip
  rw [hskip]
  have hmain := extractInt_insertInt_eq t n old tail htail
  rw [show insertInt [] n = intText n from rfl] at hmain
  rw [hmain]
  have hpow : (0 : Int) < 2 ^ (t.bits - 1) := by positivity
  simp only [IntType.holds, IntType.minVal, IntType.maxVal, hsigned, if_true] at hn ⊢
  by_cases hneg : n < 0
  · have hlt : n < -(2 ^ (t.bits - 1)) := by omega
    simp only [hneg, if_true, hlt]
  · have hgt : (2 : Int) ^ (t.bits - 1) - 1 < n := by omega
    simp only [hneg, if_false, hgt, if_true]

/-- C strings: cutting at the first NUL twice is cutting once. -/
theorem cstr_cstr (s : List Char) : cstr (cstr s) = cstr s := by
  unfold cstr
  induction s with
  | nil => rfl
  | cons c cs ih =>
    by_cases hc : (c != Char.ofNat 0) = true
    · simp only [List.takeWhile_cons, hc, if_true, ih]
    · simp only [List.takeWhile_cons, hc, if_false, List.takeWhile_nil]
      rfl

/-- No NUL stands before the first NUL. -/
theorem nul_not_mem_cstr (s : List Char) : Char.ofNat 0 ∉ cstr s := by
  intro h
  have := List.mem_takeWhile_imp h
  simp at this

/-- A string cut at its first NUL is written as the string itself. -/
theorem write_cut (os : List Char) (v : Value) :
    Serializer.write os v.cut = Serializer.write os v := by
  cases v with
  | scalar x => rfl
  | string s => simp only [Value.cut, Serializer.write, writeString, cstr_cstr]

theorem cut_type (v : Value) : v.cut.type = v.type := by
  cases v <;> rfl

theorem cut_roundTrips (v : Value) (h : v.reencodes) : v.cut.roundTrips := by
  cases v with
  | scalar x => exact h
  | string s => exact ⟨h, nul_not_mem_cstr s⟩

theorem memberText_cut (e : List Char × Value) : memberText (e.1, e.2.cut) = memberText e := by
  simp only [memberText, write_cut]

/-- The value read from the text written for a value whose encoding can be
decoded: the value itself, with a string cut at its first NUL. -/
theorem read_write_reencodes (v old : Value) (fuel : Nat) (hv : v.reencodes)
    (hty : old.type = v.type) (hfuel : 0 < fuel) :
    ∃ is1, Deserializer.read fuel (IStream.ofList (Serializer.write [] v)) old
      = .ok (is1, v.cut) := by
  have h := roundTripsAlone_of_roundTrips v.cut (cut_roundTrips v hv) old fuel
    (by rw [cut_type, hty]) hfuel
  rw [write_cut] at h
  exact h

/-- Decoding the text written for an object whose member values can each be
decoded gives the object with every string member cut at its first NUL, and
that object is written as the same text. -/
theorem readSerializable_written_cut (obj target : Serializable) (fuel : Nat) (c0 : Char)
    (hnames : obj.plainNames) (hvals : ∀ e ∈ obj.members, e.2.reencodes)
    (hclass : target.sameClass obj) (hfuel : obj.members.length < fuel) :
    JsonDeserializer.readSerializable fuel c0
        (IStream.ofList (JsonSerializer.writeSerializable [] obj)) target
      = .ok (IStream.ofList [],
          { obj with members := obj.members.map (fun e => (e.1, e.2.cut)) }) ∧
    JsonSerializer.writeSerializable []
        { obj with members := obj.members.map (fun e => (e.1, e.2.cut)) }
      = JsonSerializer.writeSerializable [] obj := by
  obtain ⟨hq, hz, hm, hnd⟩ := hnames
  have hnamesEq : Members.names (obj.members.map (fun e => (e.1, e.2.cut)))
      = obj.members.names := by
    simp [Members.names, List.map_map, Function.comp_def]
  have hsig : Members.signature (obj.members.map (fun e => (e.1, e.2.cut)))
      = Members.signature obj.members := by
    simp [Members.signature, List.map_map, Function.comp_def, cut_type]
  have hflat : (obj.members.map (fun e => (e.1, e.2.cut))).flatMap memberText
      = obj.members.flatMap memberText := by
    rw [List.flatMap_map]
    simp only [memberText_cut]
  have hm0 : ∀ e ∈ obj.members.map (fun e => (e.1, e.2.cut)),
      JSON.quotationMark ∉ e.1 ∧ Char.ofNat 0 ∉ e.1 := by
    intro e he
    obtain ⟨e0, he0, rfl⟩ := List.mem_map.mp he
    exact hm e0 he0
  have htext : JsonSerializer.writeSerializable []
        { obj with members := obj.members.map (fun e => (e.1, e.2.cut)) }
      = JsonSerializer.writeSerializable [] obj := by
    rw [writeSerializable_eq [] ⟨obj.className, obj.members.map (fun e => (e.1, e.2.cut))⟩ hz
        (fun e he => (hm0 e he).2),
      writeSerializable_eq [] obj hz (fun e he => (hm e he).2)]
    simp only [objectText, hflat]
  refine ⟨?_, htext⟩
  rw [← htext]
  exact readSerializable_written
    { obj with members := obj.members.map (fun e => (e.1, e.2.cut)) } target fuel c0
    ⟨hq, hz, hm0, by rw [hnamesEq]; exact hnd⟩
    (fun e he => by
      obtain ⟨e0, he0, rfl⟩ := List.mem_map.mp he
      exact cut_roundTrips e0.2 (hvals e0 he0))
    ⟨hclass.1, by rw [hclass.2]; exact hsig.symm⟩
    (by simpa using hfuel)

theorem cstr_length_le (s : List Char) : (cstr s).length ≤ s.length := by
  unfold cstr
  induction s with
  | nil => simp
  | cons c cs ih =>
    rw [List.takeWhile_cons]
    split
    · simpa using ih
    · simp

/-- A string with a quote before its first NUL: the decode of its encoding stops
at that quote and gives the characters before it. -/
theorem read_write_quote_inside (s old : List Char) (fuel : Nat)
    (hq : JSON.quotationMark ∈ cstr s) (hfuel : 0 < fuel) :
    ∃ pre post, cstr s = pre ++ JSON.quotationMark :: post ∧ JSON.quotationMark ∉ pre ∧
      Deserializer.read fuel (IStream.ofList (Serializer.write [] (.string s))) (.string old)
        = .ok (IStream.ofList (post ++ [JSON.quotationMark]), .string pre) := by
  obtain ⟨pre, u, post, hsplit, hpre, hu⟩ :=
    split_at_first (fun x : Char => x ≠ JSON.quotationMark) (cstr s)
      (fun hall => hall _ hq rfl)
  have hu1 : u = JSON.quotationMark := not_not.mp hu
  subst hu1
  have hpre1 : JSON.quotationMark ∉ pre := fun hm => hpre _ hm rfl
  refine ⟨pre, post, hsplit, hpre1, ?_⟩
  have h := readString_quoted [] pre (post ++ [JSON.quotationMark]) old fuel (by simp) hpre1
    (by simpa using hfuel)
  have htext : Serializer.write [] (.string s)
      = [] ++ JSON.quotationMark :: (pre ++ JSON.quotationMark ::
          (post ++ [JSON.quotationMark])) := by
    simp [Serializer.write, writeString, hsplit]
  rw [htext]
  simp only [Deserializer.read, h]

/-- The texts written for two strings of which one keeps more characters before
its first NUL are different. -/
theorem write_string_ne (a b : List Char) (h : (cstr a).length < (cstr b).length) :
    Serializer.write [] (.string a) ≠ Serializer.write [] (.string b) := by
  intro heq
  have := congrArg List.length heq
  simp [Serializer.write, writeString] at this
  omega

/-- The heap order of a vector holds on each of its initial parts. -/
theorem isHeap_append_left (a b : List Int) (h : isHeap (a ++ b)) : isHeap a := by
  intro i hi hpos
  have h1 := h i (by simp; omega) hpos
  have hp : (i - 1) / 2 < a.length := by omega
  simpa [List.getD_eq_getElem?_getD, List.getElem?_append_left hi,
    List.getElem?_append_left hp] using h1

/-- Pushing onto a priority queue a value that is not greater than the element at
its parent index leaves it at the end of the backing vector. -/
theorem priorityQueuePush_heap (c : List Int) (x : Int) (h : isHeap (c ++ [x])) :
    priorityQueuePush c x = c ++ [x] := by
  unfold priorityQueuePush
  cases hc : c.length with
  | zero =>
    have : c = [] := List.length_eq_zero.mp hc
    subst this
    rfl
  | succ k =>
    have h1 := h (k + 1) (by simp [hc]) (by omega)
    have hx : (c ++ [x]).getD (k + 1) 0 = x := by
      simp [List.getD_eq_getElem?_getD, ← hc]
    rw [hx] at h1
    have hset : (c ++ [x]).set (k + 1) x = c ++ [x] := by
      rw [← hc]
      simp
    simp only [pushHeap, Nat.add_sub_cancel]
    rw [if_neg (by
      intro hcon
      have := hcon.2
      simp only [Nat.add_sub_cancel] at h1
      omega)]
    exact hset

/-- Pushing the elements of a vector in heap order, one by one from the front,
builds that vector. -/
theorem foldl_priorityQueuePush (ns : List Int) : ∀ (s : List Int), isHeap (s ++ ns) →
    ns.foldl priorityQueuePush s = s ++ ns := by
  induction ns with
  | nil => intro s _; simp
  | cons n rest ih =>
    intro s h
    have h1 : isHeap (s ++ [n]) := by
      apply isHeap_append_left (s ++ [n]) rest
      simpa using h
    rw [List.foldl_cons, priorityQueuePush_heap s n h1, ih (s ++ [n]) (by simpa using h)]
    simp

theorem writeQueue_eq (t : IntType) (os : List Char) (backing : List Int) :
    Serializer.writeQueue t os backing = os ++ arrayText (backing.map intText) :=
  JsonSerializer.writeSTLContainer_eq (SerializableSTLQueue.serializeElem t) intText
    (fun os n => writeInt_eq t os n) os backing

/-- A non-empty priority queue of integers that their type holds is read back from
its own encoding into an empty priority queue, with the same backing vector. -/
theorem readPriorityQueue_written (t : IntType) (backing : List Int) (fuel : Nat) (c0 : Char)
    (tmp0 : Int) (hne : backing ≠ []) (hall : ∀ n ∈ backing, t.holds n)
    (hheap : isHeap backing) (hfuel : backing.length < fuel) :
    Deserializer.readPriorityQueue t fuel c0 tmp0
        (IStream.ofList (Serializer.writeQueue t [] backing)) []
      = .ok (IStream.ofList [], backing) := by
  have h := JsonDeserializer.readSTLContainer_arrayText
    (fun _ i s => SerializableSTLQueue.deserializeElemPriority t tmp0 i s) intText t.holds
    priorityQueuePush (fun _ _ => True) 0
    (fun f s x d tail m _ hx hd _ => ⟨by
      simp [SerializableSTLQueue.deserializeElemPriority, readInt_intText t x tmp0 d tail hx hd],
      trivial⟩)
    backing [] fuel c0 [] hne hall trivial (by omega)
  rw [List.append_nil, foldl_priorityQueuePush backing [] (by simpa using hheap),
    List.nil_append] at h
  rw [writeQueue_eq, List.nil_append, Deserializer.readPriorityQueue, h]

/-- The adapter of a `std::array` over a run of integer texts: the state after the
elements of the run, as long as the position before each element is not
beyond the size. -/
theorem stdArray_hde (t : IntType) (tmp0 : Int) (f : Nat) (s : SerializableSTLArray) (x : Int)
    (d : Char) (tail : List Char) (m : Nat) (hx : t.holds x) (hd : isDigit d = false)
    (hinv : s.pos + (m + 1) ≤ s.slots.length + 1) :
    (fun (_ : Nat) i a => SerializableSTLArray.deserializeElem t tmp0 i a) f
        (IStream.ofList (intText x ++ d :: tail)) s
      = .ok (IStream.ofList (d :: tail),
          if s.pos < s.slots.length then
            { s with slots := s.slots.set s.pos x, pos := s.pos + 1 }
          else { s with outside := s.outside ++ [(s.pos, x)], pos := s.pos + 1 }) ∧
    (if s.pos < s.slots.length then
        ({ s with slots := s.slots.set s.pos x, pos := s.pos + 1 } : SerializableSTLArray)
      else { s with outside := s.outside ++ [(s.pos, x)], pos := s.pos + 1 }).pos + m
      ≤ (if s.pos < s.slots.length then
        ({ s with slots := s.slots.set s.pos x, pos := s.pos + 1 } : SerializableSTLArray)
      else { s with outside := s.outside ++ [(s.pos, x)], pos := s.pos + 1 }).slots.length + 1 := by
  have hpos : ¬ s.pos > s.slots.length := by omega
  have hr := readInt_intText t x tmp0 d tail hx hd
  by_cases hin : s.pos < s.slots.length
  · refine ⟨by simp [SerializableSTLArray.deserializeElem, hpos, hr, hin], ?_⟩
    simp only [hin, if_true, List.length_set]
    omega
  · refine ⟨by simp [SerializableSTLArray.deserializeElem, hpos, hr, hin], ?_⟩
    simp only [hin, if_false]
    omega

/-- A non-empty `std::array` of integers that their type holds is read back from its
own encoding into an array of the same size: every slot is assigned and
nothing is assigned outside. -/
theorem readStdArray_written (t : IntType) (ns slots : List Int) (fuel : Nat) (c0 : Char)
    (tmp0 : Int) (hne : ns ≠ []) (hall : ∀ n ∈ ns, t.holds n)
    (hlen : slots.length = ns.length) (hfuel : ns.length < fuel) :
    Deserializer.readStdArray t fuel c0 tmp0
        (IStream.ofList (Serializer.writeSequence t [] ns)) slots
      = .ok (IStream.ofList [], ⟨ns, ns.length, []⟩) := by
  have h := JsonDeserializer.readSTLContainer_arrayText
    (fun _ i s => SerializableSTLArray.deserializeElem t tmp0 i s) intText t.holds
    (fun (a : SerializableSTLArray) n =>
        if a.pos < a.slots.length then
          { a with slots := a.slots.set a.pos n, pos := a.pos + 1 }
        else { a with outside := a.outside ++ [(a.pos, n)], pos := a.pos + 1 })
    (fun a m => a.pos + m ≤ a.slots.length + 1) 0
    (fun f s x d tail m _ hx hd hinv => stdArray_hde t tmp0 f s x d tail m hx hd hinv)
    ns ⟨slots, 0, []⟩ fuel c0 [] hne hall (by simp [hlen]) (by omega)
  rw [List.append_nil, foldl_array_push ns slots 0 [] (by omega),
    fillFrom_all slots ns hlen.symm] at h
  rw [writeSequence_eq, List.nil_append, Deserializer.readStdArray, h]
  simp

/-- A `std::array` that is given at least two elements more than it has slots: the
decode throws `OutOfRangeException` when the second surplus element is due, after
the first one was assigned past the last slot. -/
theorem readStdArray_two_past (t : IntType) (pre : List Int) (last : Int) (slots : List Int)
    (fuel : Nat) (c0 : Char) (tmp0 : Int) (rest : List Char)
    (hlen : pre.length = slots.length) (hall : ∀ n ∈ pre ++ [last], t.holds n)
    (hfuel : slots.length + 2 < fuel) :
    Deserializer.readStdArray t fuel c0 tmp0
        (IStream.ofList (JSON.beginArray :: (joinItems ((pre ++ [last]).map intText) ++
          JSON.elementSeparator :: rest))) slots
      = .thrown .outOfRange
          (IStream.ofList rest, ⟨pre, slots.length + 1, [(slots.length, last)]⟩) := by
  obtain ⟨f, hf⟩ : ∃ f, fuel = (f + 1) + (pre ++ [last]).length :=
    ⟨fuel - (pre ++ [last]).length - 1, by simp; omega⟩
  have hrun := JsonDeserializer.readElements_run
    (fun _ i s => SerializableSTLArray.deserializeElem t tmp0 i s) intText t.holds
    (fun (a : SerializableSTLArray) n =>
        if a.pos < a.slots.length then
          { a with slots := a.slots.set a.pos n, pos := a.pos + 1 }
        else { a with outside := a.outside ++ [(a.pos, n)], pos := a.pos + 1 })
    (fun a m => a.pos + m ≤ a.slots.length + 1) 0
    (fun f s x d tail m _ hx hd hinv => stdArray_hde t tmp0 f s x d tail m hx hd hinv)
    (pre ++ [last]) ⟨slots, 0, []⟩ (f + 1) JSON.elementSeparator rest (by simp) hall
    (by simp [hlen]) (by omega) (by decide) (by decide)
  rw [List.foldl_append, foldl_array_push pre slots 0 [] (by omega),
    fillFrom_all slots pre hlen] at hrun
  have hbr : isSpace JSON.beginArray = false := by decide
  have hloop : (JSON.elementSeparator != JSON.endArray && !isEOFChar JSON.elementSeparator)
      = true := by decide
  unfold Deserializer.readStdArray JsonDeserializer.readSTLContainer
  simp only [extractChar_cons c0 _ _ hbr, bne_self_eq_false, Bool.false_eq_true, if_false]
  rw [hf, hrun, JsonDeserializer.readElements]
  simp [hloop, SerializableSTLArray.deserializeElem, hlen]

/-- A fixed array that is given more items than it has slots, the first `size` of
them integers: `readArray` throws when the separator after the last slot has
been read. -/
theorem readArray_past_size (t : IntType) (pre : List Int) (item : List Char)
    (more : List (List Char)) (vector : List Int) (c0 : Char) (rest : List Char)
    (hlen : pre.length = vector.length) (hall : ∀ n ∈ pre, t.holds n) :
    readArray t c0 (IStream.ofList (arrayText (pre.map intText ++ item :: more) ++ rest)) vector
      = .thrown .jsonExceptionPtr
          (IStream.ofList (joinItems (item :: more) ++ JSON.endArray :: rest),
            vector.length, pre) := by
  have hb : isSpace JSON.beginArray = false := by decide
  have hne : (JSON.elementSeparator != JSON.endArray) = true := by decide
  cases pre with
  | nil =>
    have hv : vector = [] := List.length_eq_zero.mp hlen.symm
    subst hv
    simp [readArray, readArrayFrom, arrayText, extractChar_cons c0 _ _ hb, hne]
  | cons n ns =>
    have hjoin := joinItems_append ((n :: ns).map intText) (item :: more) (by simp) (by simp)
    have hrun := readArrayFrom_run t (n :: ns) 0 0 vector JSON.elementSeparator
      (joinItems (item :: more) ++ JSON.endArray :: rest) (by simp) hall (by decide) (by decide)
    rw [Nat.zero_add, hlen] at hrun
    unfold readArray
    simp only [arrayText, hjoin, List.cons_append, List.append_assoc, List.singleton_append,
      List.nil_append, extractChar_cons c0 _ _ hb, bne_self_eq_false, Bool.false_eq_true,
      if_false]
    rw [hrun]
    simp only [readArrayFrom, hne, if_true, Nat.zero_add, fillFrom_all vector (n :: ns) hlen,
      hlen]

/-- An object text whose class name is another than the one of the target: object
decode throws when the name has been read, and nothing is assigned. -/
theorem readSerializable_other_class (object : Serializable) (name rest : List Char)
    (fuel : Nat) (c0 : Char) (hname : JSON.quotationMark ∉ name)
    (hother : name ≠ object.getClassName) (hfuel : 0 < fuel) :
    readSerializable fuel c0
        (IStream.ofList (JSON.beginObject :: (quoted classNameKey ++ JSON.valueSeparator ::
          (quoted name ++ rest)))) object
      = .thrown .jsonExceptionPtr (IStream.ofList rest, object) := by
  have h := readSerializable_header [] [] [] [] name rest object fuel c0 (by simp) (by simp)
    (by simp) (by simp) hname (by simpa using hfuel) (by simpa using hfuel)
  have hne : (name != object.getClassName) = true := by simpa using hother
  simp only [List.nil_append, hne, if_true] at h
  simpa [quoted] using h

/-- The character extractor on a single white-space character: nothing is stored,
and the stream is at its end and failed. -/
theorem extractChar_space (c old : Char) (hc : isSpace c = true) :
    extractChar (IStream.ofList [c]) old = (⟨[], true, true⟩, old) := by
  simp [extractChar, IStream.ofList, IStream.good, List.dropWhile_cons, hc]

end ReencodeLemmas

/-! ## The claims -/

section Claims

open JsonSerializer JsonDeserializer

/-- C1: for an object with plain registered names whose member values each
round-trip on their own, decoding the text written by `writeSerializable` into a
target of the same class (any previous member values) succeeds, consumes the
whole text and leaves every registered member with the value it had in the
encoded object. -/
theorem decode_encode_object (obj target : Serializable) (fuel : Nat) (c0 : Char)
    (hnames : obj.plainNames) (hvals : ∀ e ∈ obj.members, e.2.roundTripsAlone)
    (hclass : target.sameClass obj) (hfuel : obj.members.length < fuel) :
    readSerializable fuel c0 (IStream.ofList (writeSerializable [] obj)) target
      = .ok (IStream.ofList [], obj) :=
  readSerializable_written obj target fuel c0 hnames
    (fun e he => roundTrips_of_roundTripsAlone e.2 (hvals e he)) hclass hfuel

theorem decode_encode_object_witness :
    readSerializable 3 'c' (IStream.ofList (writeSerializable [] (point 1 2))) (point 7 8)
      = .ok (IStream.ofList [], point 1 2) :=
  decode_encode_object (point 1 2) (point 7 8) 3 'c' (by decide)
    (fun e he => roundTripsAlone_of_roundTrips e.2
      ((by decide : ∀ x ∈ (point 1 2).members, x.2.roundTrips) e he))
    (by decide) (by decide)

/-- C2: decoding the text `{"_className_":"Point","x":1,"y":2}` into a `Point` target
succeeds and leaves it with x = 1 and y = 2, whatever x and y held before. -/
theorem decode_point_text (x y : Int) (c0 : Char) (fuel : Nat) :
    readSerializable (fuel + 3) c0 (IStream.ofList pointText) (point x y)
      = .ok (IStream.ofList [], point 1 2) := by
  have htext : pointText = writeSerializable [] (point 1 2) := by decide
  have hlen : (point 1 2).members.length < fuel + 3 := by
    show 2 < fuel + 3
    omega
  rw [htext]
  exact readSerializable_written (point 1 2) (point x y) (fuel + 3) c0 (by decide) (by decide)
    ⟨rfl, rfl⟩ hlen

/-- C3: when the class-name string of the input differs from the class name of
the target, object decode throws right after that string and the target is
the one the call received, no member modified. -/
theorem decode_className_mismatch (w1 p1 w2 p2 name rest : List Char) (object : Serializable)
    (fuel : Nat) (c0 : Char)
    (hw1 : ∀ w ∈ w1, isSpace w = true) (hp1 : JSON.quotationMark ∉ p1)
    (hw2 : ∀ w ∈ w2, isSpace w = true) (hp2 : JSON.quotationMark ∉ p2)
    (hn : JSON.quotationMark ∉ name) (hf1 : p1.length < fuel) (hf2 : p2.length < fuel)
    (hne : name ≠ object.getClassName) :
    readSerializable fuel c0
        (IStream.ofList (w1 ++ JSON.beginObject :: (p1 ++ quoted classNameKey ++
          (w2 ++ JSON.valueSeparator :: (p2 ++ quoted name ++ rest))))) object
      = .thrown .jsonExceptionPtr (IStream.ofList rest, object) := by
  have h := readSerializable_header w1 p1 w2 p2 name rest object fuel c0 hw1 hp1 hw2 hp2 hn hf1 hf2
  have hb : (name != object.getClassName) = true := by simp [hne]
  simp only [quoted, List.append_assoc, List.cons_append, List.nil_append] at h ⊢
  rw [h, hb]
  rfl

theorem decode_className_mismatch_witness :
    readSerializable 1 'c' (IStream.ofList pointText) ⟨"Vector".toList, (point 7 8).members⟩
      = .thrown .jsonExceptionPtr
          (IStream.ofList ",\"x\":1,\"y\":2\x7d".toList, ⟨"Vector".toList, (point 7 8).members⟩) :=
  decode_className_mismatch [] [] [] [] "Point".toList ",\"x\":1,\"y\":2\x7d".toList
    ⟨"Vector".toList, (point 7 8).members⟩ 1 'c' (by decide) (by decide) (by decide) (by decide)
    (by decide) (by decide) (by decide) (by decide)

/-- C4: when the first key inside the braces is not `_className_`, object decode
throws right after that key, be the key closed by a quote or cut by the end of
the input; the target is not modified. -/
theorem decode_first_key_mismatch (w1 p1 k rest : List Char) (object : Serializable)
    (fuel : Nat) (c0 : Char)
    (hw1 : ∀ w ∈ w1, isSpace w = true) (hp1 : JSON.quotationMark ∉ p1)
    (hk : JSON.quotationMark ∉ k) (hf1 : p1.length < fuel) (hne : k ≠ classNameKey) :
    readSerializable fuel c0
        (IStream.ofList (w1 ++ JSON.beginObject :: (p1 ++ quoted k ++ rest))) object
      = .thrown .jsonExceptionPtr (IStream.ofList rest, object) ∧
    readSerializable fuel c0
        (IStream.ofList (w1 ++ JSON.beginObject :: (p1 ++ JSON.quotationMark :: k))) object
      = .thrown .jsonExceptionPtr (⟨[], true, k.isEmpty⟩, object) := by
  have hb : isSpace JSON.beginObject = false := by decide
  have hkb : (k != classNameKey) = true := by simp [hne]
  constructor
  · have h := readString_quoted p1 k rest [] fuel hp1 hk hf1
    unfold readSerializable
    simp only [quoted, List.append_assoc, List.cons_append, List.nil_append]
    simp only [extractChar_skip c0 _ w1 _ hw1 hb, bne_self_eq_false, Bool.false_eq_true, if_false,
      h, hkb, if_true]
  · have h := readString_unclosed p1 k [] fuel hp1 hk hf1
    unfold readSerializable
    simp only [extractChar_skip c0 _ w1 _ hw1 hb, bne_self_eq_false, Bool.false_eq_true, if_false,
      h, hkb, if_true]

theorem decode_first_key_mismatch_witness :
    readSerializable 1 'c'
        (IStream.ofList "\x7b\"x\":1,\"_className_\":\"Point\",\"y\":2\x7d".toList) (point 7 8)
      = .thrown .jsonExceptionPtr
          (IStream.ofList ":1,\"_className_\":\"Point\",\"y\":2\x7d".toList, point 7 8) :=
  (decode_first_key_mismatch [] [] "x".toList ":1,\"_className_\":\"Point\",\"y\":2\x7d".toList
    (point 7 8) 1 'c' (by decide) (by decide) (by decide) (by decide) (by decide)).1

/-- C5: after the class-name tag and any run of well-formed entries for registered
members, an entry whose name is not registered makes object decode throw
right after that name: nothing of the entry's value is consumed, and the
members hold the assignments of the earlier entries and nothing else. -/
theorem decode_unknown_field (object : Serializable) (es : Members) (p name rest : List Char)
    (fuel : Nat) (c0 : Char)
    (hcls : JSON.quotationMark ∉ object.getClassName)
    (hes : ∀ e ∈ es, object.takes e)
    (hp : JSON.quotationMark ∉ p) (hname : JSON.quotationMark ∉ name)
    (hunknown : name ∉ object.members.names)
    (hfuel : es.length + p.length + 1 < fuel) :
    readSerializable fuel c0
        (IStream.ofList (JSON.beginObject :: (quoted classNameKey ++ JSON.valueSeparator ::
          (quoted object.getClassName ++ (es.flatMap memberText ++ JSON.elementSeparator ::
            (p ++ quoted name ++ rest)))))) object
      = .thrown .jsonExceptionPtr
          (IStream.ofList rest, { object with members := object.members.assignAll es }) := by
  have hhead := readSerializable_header [] [] [] [] object.getClassName
    (es.flatMap memberText ++ JSON.elementSeparator :: (p ++ quoted name ++ rest)) object fuel c0
    (by simp) (by simp) (by simp) (by simp) hcls (by simp; omega) (by simp; omega)
  obtain ⟨f, hf⟩ : ∃ f, fuel = (f + 1) + es.length := ⟨fuel - es.length - 1, by omega⟩
  have hes' : ∀ e ∈ es, JSON.quotationMark ∉ e.1 ∧ e.2.roundTrips ∧
      ∃ old, object.members.find e.1 = some (e.1, old) ∧ old.type = e.2.type :=
    fun e he => ⟨(hes e he).1, (hes e he).2.1, Members.find_of_typeOf _ _ _ (hes e he).2.2⟩
  have hloop := readMembers_entries es object (f + 1) JSON.elementSeparator
    JSON.elementSeparator (p ++ quoted name ++ rest) hes' (by decide) (by decide) (by omega)
  have hfind : (object.members.assignAll es).find name = none :=
    Members.find_none_of_not_mem _ _ (by rw [Members.names_assignAll]; exact hunknown)
  have hnm := deserializeElemName_quoted p name rest
    { object with members := object.members.assignAll es } f hp hname (by omega)
  have hcont : (JSON.elementSeparator != JSON.endObject && !isEOFChar JSON.elementSeparator)
      = true := by decide
  simp only [quoted, List.append_assoc, List.cons_append, List.nil_append] at hhead hloop hnm ⊢
  rw [hhead]
  simp only [bne_self_eq_false, Bool.false_eq_true, if_false]
  rw [hf, hloop, readMembers]
  simp only [hcont, if_true, bne_self_eq_false, Bool.false_eq_true, if_false, hnm, hfind]

theorem decode_unknown_field_witness :
    readSerializable 3 'c'
        (IStream.ofList "\x7b\"_className_\":\"Point\",\"x\":1,\"z\":2\x7d".toList) (point 7 8)
      = .thrown .jsonExceptionPtr (IStream.ofList ":2\x7d".toList, point 1 8) :=
  decode_unknown_field (point 7 8) [("x".toList, .scalar (.int .int 1))] [] "z".toList
    ":2\x7d".toList 3 'c' (by decide) (by decide) (by decide) (by decide) (by decide) (by decide)

/-- C6: for an object whose class name and member names hold no NUL, `writeSerializable`
appends exactly the text of the `object` rule: the brace, the quoted key
`_className_`, a colon, the quoted class name, then for every registered member
in turn a comma, the quoted member name, a colon and the encoding of the
member value, then the closing brace.  For `Point{x=1,y=2}` this is
`{"_className_":"Point","x":1,"y":2}`. -/
theorem writeSerializable_grammar (os : List Char) (object : Serializable)
    (hc : Char.ofNat 0 ∉ object.className)
    (hm : ∀ e ∈ object.members, Char.ofNat 0 ∉ e.1) :
    writeSerializable os object
        = os ++ (JSON.beginObject :: (quoted classNameKey ++ JSON.valueSeparator ::
            (quoted object.className ++
              (object.members.flatMap (fun e =>
                  JSON.elementSeparator ::
                    (quoted e.1 ++ JSON.valueSeparator :: Serializer.write [] e.2))
                ++ [JSON.endObject])))) ∧
    writeSerializable [] (point 1 2) = pointText := by
  refine ⟨?_, by decide⟩
  rw [writeSerializable_eq os object hc hm]
  rfl

theorem writeSerializable_grammar_witness :
    writeSerializable "ab".toList (point 1 2) = "ab".toList ++ pointText :=
  (writeSerializable_grammar "ab".toList (point 1 2) (by decide) (by decide)).1

/-- C7: every boolean, and every integer of any width and signedness that its
type holds, is read back by `readValue` from the text `writeValue` wrote for it,
whatever the target held before, and `failbit` stays clear. -/
theorem readValue_writeValue_bool_int :
    (∀ b old : Bool,
      readValue (IStream.ofList (writeValue [] (.bool b))) (.bool old)
        = (IStream.ofList [], .bool b)) ∧
    (∀ (t : IntType) (n old : Int), t.holds n →
      readValue (IStream.ofList (writeValue [] (.int t n))) (.int t old)
        = (⟨[], true, false⟩, .int t n)) := by
  constructor
  · intro b old
    have h := extractBool_insertBool b old []
    simp only [List.append_nil] at h
    simp [readValue, writeValue, h]
  · intro t n old hn
    have h := extractInt_insertInt t n old [] hn (by simp)
    simp only [List.append_nil] at h
    simp [readValue, writeValue, h]

theorem readValue_writeValue_bool_int_witness :
    readValue (IStream.ofList (writeValue [] (.int IntType.short (-32768))))
        (.int IntType.short 5)
      = (⟨[], true, false⟩, .int IntType.short (-32768)) :=
  readValue_writeValue_bool_int.2 IntType.short (-32768) 5 (by decide)

/-- C8, as stated, fails: the text written for the space character is read back
as nothing; the target keeps its previous value and `failbit` is raised. -/
theorem readValue_writeValue_space :
    readValue (IStream.ofList (writeValue [] (.char ' '))) (.char 'a')
        = (⟨[], true, true⟩, .char 'a') ∧
    readValue (IStream.ofList (writeValue [] (.unsignedChar ' '))) (.unsignedChar 'a')
        = (⟨[], true, true⟩, .unsignedChar 'a') := by
  decide

/-- C8, amended: every character that is not white space (`char` or `unsigned char`) is
read back by `readValue` from the text `writeValue` wrote for it. -/
theorem readValue_writeValue_char (c old : Char) (hc : isSpace c = false) :
    readValue (IStream.ofList (writeValue [] (.char c))) (.char old)
        = (IStream.ofList [], .char c) ∧
    readValue (IStream.ofList (writeValue [] (.unsignedChar c))) (.unsignedChar old)
        = (IStream.ofList [], .unsignedChar c) := by
  have h := extractChar_cons old c [] hc
  simp [readValue, writeValue, h]

theorem readValue_writeValue_char_witness :
    readValue (IStream.ofList (writeValue [] (.char ','))) (.char 'a')
        = (IStream.ofList [], .char ',') ∧
    readValue (IStream.ofList (writeValue [] (.unsignedChar ','))) (.unsignedChar 'a')
        = (IStream.ofList [], .unsignedChar ',') :=
  readValue_writeValue_char ',' 'a' (by decide)

/-- C9: on a quote-free run `p`, a quote, a quote-free string `s`, a quote and any rest
`r`, `readString` returns exactly `s` and leaves exactly `r` unread; in particular
a quote-free string without NUL is read back from the text `writeString` wrote. -/
theorem readString_spec (p s r value : List Char) (fuel : Nat)
    (hp : JSON.quotationMark ∉ p) (hs : JSON.quotationMark ∉ s) (hfuel : p.length < fuel) :
    readString fuel (IStream.ofList (p ++ quoted s ++ r)) value = some (IStream.ofList r, s) ∧
    (Char.ofNat 0 ∉ s →
      readString fuel (IStream.ofList (writeString [] s)) value = some (IStream.ofList [], s)) := by
  constructor
  · have h := readString_quoted p s r value fuel hp hs hfuel
    simpa [quoted] using h
  · intro hnul
    have h := readString_quoted [] s [] value fuel (by simp) hs (by simp; omega)
    simpa [writeString, cstr_of_nulFree s hnul] using h

theorem readString_spec_witness :
    readString 3 (IStream.ofList (", ".toList ++ quoted "ab".toList ++ ":1".toList)) "old".toList
        = some (IStream.ofList ":1".toList, "ab".toList) ∧
    readString 3 (IStream.ofList (writeString [] "ab".toList)) "old".toList
        = some (IStream.ofList [], "ab".toList) :=
  ⟨(readString_spec ", ".toList "ab".toList ":1".toList "old".toList 3 (by decide) (by decide)
      (by decide)).1,
    (readString_spec ", ".toList "ab".toList ":1".toList "old".toList 3 (by decide) (by decide)
      (by decide)).2 (by decide)⟩

/-- C10, as stated, fails on a string with a NUL before its first quote: the text
written for NUL-quote is two quotes, read back as the empty string, while the
part of the string before its first quote is the NUL. -/
theorem readString_writeString_nul_quote :
    JSON.quotationMark ∈ [Char.ofNat 0, JSON.quotationMark] ∧
    readString 1 (IStream.ofList (writeString [] [Char.ofNat 0, JSON.quotationMark])) []
      = some (IStream.ofList [], []) ∧
    [Char.ofNat 0, JSON.quotationMark].takeWhile (fun x => x != JSON.quotationMark)
      = [Char.ofNat 0] := by
  decide

/-- C10, amended: for a string that holds a quote, reading back the text that
`writeString` wrote returns the part of the string before its first quote or NUL,
whichever comes first; this differs from the string, and it is the part before
the first quote when no NUL precedes that quote. -/
theorem readString_writeString_quote (s value : List Char) (fuel : Nat)
    (hq : JSON.quotationMark ∈ s) (hfuel : 0 < fuel) :
    (∃ is1, readString fuel (IStream.ofList (writeString [] s)) value
      = some (is1, s.takeWhile (fun x => x != Char.ofNat 0 && x != JSON.quotationMark))) ∧
    s.takeWhile (fun x => x != Char.ofNat 0 && x != JSON.quotationMark) ≠ s ∧
    (Char.ofNat 0 ∉ s.takeWhile (fun x => x != JSON.quotationMark) →
      s.takeWhile (fun x => x != Char.ofNat 0 && x != JSON.quotationMark)
        = s.takeWhile (fun x => x != JSON.quotationMark)) := by
  obtain ⟨rest, h1, h2⟩ := takeWhile_ne_split JSON.quotationMark (cstr s)
  rw [takeWhile_cstr] at h1 h2
  refine ⟨⟨IStream.ofList rest, ?_⟩, ?_, takeWhile_both_of_nulFree _ s⟩
  · have h := readString_quoted [] _ rest value fuel (by simp) h2 (by simpa using hfuel)
    rw [List.nil_append, ← h1] at h
    simpa [writeString] using h
  · intro e
    rw [e] at h2
    exact h2 hq

theorem readString_writeString_quote_witness :
    (∃ is1, readString 1 (IStream.ofList (writeString [] "a\"b".toList)) []
      = some (is1, "a\"b".toList.takeWhile
          (fun x => x != Char.ofNat 0 && x != JSON.quotationMark))) ∧
    "a\"b".toList.takeWhile (fun x => x != Char.ofNat 0 && x != JSON.quotationMark)
      ≠ "a\"b".toList ∧
    "a\"b".toList.takeWhile (fun x => x != Char.ofNat 0 && x != JSON.quotationMark)
      = "a\"b".toList.takeWhile (fun x => x != JSON.quotationMark) :=
  ⟨(readString_writeString_quote "a\"b".toList [] 1 (by decide) (by decide)).1,
    (readString_writeString_quote "a\"b".toList [] 1 (by decide) (by decide)).2.1,
    (readString_writeString_quote "a\"b".toList [] 1 (by decide) (by decide)).2.2 (by decide)⟩

/-- C11: a non-empty vector, deque or list of integers that their type holds is
read back, same elements in the same order, from its own encoding into an
empty sequence of the same type. -/
theorem decode_encode_sequence (t : IntType) (ns : List Int) (fuel : Nat) (c0 : Char)
    (tmp0 : Int) (hne : ns ≠ []) (hall : ∀ n ∈ ns, t.holds n) (hfuel : ns.length < fuel) :
    Deserializer.readList t fuel c0 tmp0
        (IStream.ofList (Serializer.writeSequence t [] ns)) []
      = .ok (IStream.ofList [], ns) := by
  have h := readSTLContainer_arrayText
    (fun _ i s => SerializableSTLList.deserializeElem t tmp0 i s) intText t.holds
    (fun s n => s ++ [n]) (fun _ _ => True) 0
    (fun f s x d tail m _ hx hd _ => ⟨by
      simp [SerializableSTLList.deserializeElem, readInt_intText t x tmp0 d tail hx hd],
      trivial⟩)
    ns [] fuel c0 [] hne hall trivial (by omega)
  rw [writeSequence_eq, List.nil_append]
  rw [List.append_nil] at h
  rw [Deserializer.readList, h, foldl_push_back]
  simp

theorem decode_encode_sequence_witness :
    Deserializer.readList IntType.int 4 'c' 7
        (IStream.ofList (Serializer.writeSequence IntType.int [] [3, -1, 3])) []
      = .ok (IStream.ofList [], [3, -1, 3]) :=
  decode_encode_sequence IntType.int [3, -1, 3] 4 'c' 7 (by decide) (by decide) (by decide)

/-- C12, at the failing input: an empty container and an empty fixed array are
written as `[]`, but on the text `[]` the container decode of a vector, deque,
list, forward_list, set, multiset, stack or queue is out of fuel for every
amount of fuel, and `readArray` into an array of length 0 throws. -/
theorem decode_empty_array_text (t : IntType) (multi : Bool) (fuel : Nat) (c0 : Char)
    (tmp0 : Int) :
    Serializer.writeSequence t [] [] = [JSON.beginArray, JSON.endArray] ∧
    writeArray t [] [] = [JSON.beginArray, JSON.endArray] ∧
    Deserializer.readList t fuel c0 tmp0 (IStream.ofList [JSON.beginArray, JSON.endArray]) []
      = .outOfFuel ∧
    Deserializer.readForwardList t fuel c0 tmp0
        (IStream.ofList [JSON.beginArray, JSON.endArray]) [] = .outOfFuel ∧
    Deserializer.readSet multi t fuel c0 tmp0
        (IStream.ofList [JSON.beginArray, JSON.endArray]) [] = .outOfFuel ∧
    Deserializer.readQueue t fuel c0 tmp0
        (IStream.ofList [JSON.beginArray, JSON.endArray]) [] = .outOfFuel ∧
    readArray t c0 (IStream.ofList [JSON.beginArray, JSON.endArray]) []
      = .thrown .jsonExceptionPtr (IStream.ofList [JSON.endArray], 0, []) := by
  refine ⟨by rfl, by rfl, ?_, ?_, ?_, ?_, ?_⟩
  · exact readSTLContainer_empty_text t tmp0 (fun s n => s ++ [n]) fuel c0 []
  · have h := readSTLContainer_empty_text t tmp0 (fun (s : List Int) n => n :: s) fuel c0 []
    unfold Deserializer.readForwardList
    simp only [SerializableSTLForwardList.deserializeElem]
    rw [h]
  · exact readSTLContainer_empty_text t tmp0 (fun s n => setInsert multi n s) fuel c0 []
  · exact readSTLContainer_empty_text t tmp0 (fun s n => s ++ [n]) fuel c0 []
  · have hb : isSpace JSON.beginArray = false := by decide
    simp [readArray, readArrayFrom, extractChar_cons c0 _ _ hb]
    decide

/-- C13: a non-empty forward_list of integers that their type holds is read back
in the original order from its own encoding into an empty forward_list: the
elements are prepended one by one and the list is reversed once at the end. -/
theorem decode_encode_forward_list (t : IntType) (ns : List Int) (fuel : Nat) (c0 : Char)
    (tmp0 : Int) (hne : ns ≠ []) (hall : ∀ n ∈ ns, t.holds n) (hfuel : ns.length < fuel) :
    Deserializer.readForwardList t fuel c0 tmp0
        (IStream.ofList (Serializer.writeSequence t [] ns)) []
      = .ok (IStream.ofList [], ns) := by
  have h := readSTLContainer_arrayText
    (fun _ i s => SerializableSTLForwardList.deserializeElem t tmp0 i s) intText t.holds
    (fun s n => n :: s) (fun _ _ => True) 0
    (fun f s x d tail m _ hx hd _ => ⟨by
      simp [SerializableSTLForwardList.deserializeElem,
        readInt_intText t x tmp0 d tail hx hd],
      trivial⟩)
    ns [] fuel c0 [] hne hall trivial (by omega)
  rw [writeSequence_eq, List.nil_append]
  rw [List.append_nil] at h
  rw [Deserializer.readForwardList, h, foldl_push_front]
  simp

theorem decode_encode_forward_list_witness :
    Deserializer.readForwardList IntType.int 4 'c' 7
        (IStream.ofList (Serializer.writeSequence IntType.int [] [1, 2, 3])) []
      = .ok (IStream.ofList [], [1, 2, 3]) :=
  decode_encode_forward_list IntType.int [1, 2, 3] 4 'c' 7 (by decide) (by decide) (by decide)

/-- C14: a non-empty set or multiset of integers, and a non-empty map or multimap
from integers to integers, is read back from its own encoding into an empty
container of the same type as the same container (same members, same
multiplicities); every map entry is written as the two-element array
`[key,value]`. -/
theorem decode_encode_ordered (multi : Bool) (t kt vt : IntType) (ns : List Int)
    (es : List (Int × Int)) (fuel : Nat) (c0 : Char) (tmp0 : Int)
    (hns : ns ≠ []) (hasc : ascending multi ns) (hall : ∀ n ∈ ns, t.holds n)
    (hes : es ≠ []) (hkeys : ascending multi (es.map Prod.fst))
    (hentries : ∀ e ∈ es, kt.holds e.1 ∧ vt.holds e.2)
    (hfuel : ns.length < fuel) (hfuel2 : es.length + 3 < fuel) :
    Deserializer.readSet multi t fuel c0 tmp0
        (IStream.ofList (Serializer.writeSequence t [] ns)) []
      = .ok (IStream.ofList [], ns) ∧
    Serializer.writeMap kt vt [] es = arrayText (es.map entryText) ∧
    Deserializer.readMap multi kt vt fuel c0 (IStream.ofList (Serializer.writeMap kt vt [] es)) []
      = .ok (IStream.ofList [], es) := by
  refine ⟨?_, by simpa using writeMap_eq kt vt [] es, ?_⟩
  · have h := readSTLContainer_arrayText
      (fun _ i s => SerializableSTLSet.deserializeElem multi t tmp0 i s) intText t.holds
      (fun s n => setInsert multi n s) (fun _ _ => True) 0
      (fun f s x d tail m _ hx hd _ => ⟨by
        simp [SerializableSTLSet.deserializeElem, readInt_intText t x tmp0 d tail hx hd],
        trivial⟩)
      ns [] fuel c0 [] hns hall trivial (by omega)
    rw [writeSequence_eq, List.nil_append]
    rw [List.append_nil] at h
    rw [Deserializer.readSet, h, foldl_setInsert multi ns [] (by simpa using hasc)]
    simp
  · have h := readSTLContainer_arrayText
      (SerializableSTLMap.deserializeElem multi kt vt c0) entryText
      (fun e => kt.holds e.1 ∧ vt.holds e.2)
      (fun s e => mapInsert multi e s) (fun _ _ => True) 3
      (fun f s x d tail m hf hx _ _ => ⟨by
        unfold SerializableSTLMap.deserializeElem
        rw [readPair_entryText kt vt x (0, 0) f c0 (d :: tail) hx.1 hx.2 hf],
        trivial⟩)
      es [] fuel c0 [] hes hentries trivial (by omega)
    rw [writeMap_eq, List.nil_append]
    rw [List.append_nil] at h
    rw [Deserializer.readMap, h, foldl_mapInsert multi es [] (by simpa using hkeys)]
    simp

theorem decode_encode_ordered_witness :
    Deserializer.readSet true IntType.int 6 'c' 7
        (IStream.ofList (Serializer.writeSequence IntType.int [] [1, 2, 2])) []
      = .ok (IStream.ofList [], [1, 2, 2]) ∧
    Serializer.writeMap IntType.int IntType.short [] [(1, 5), (1, 4), (3, 0)]
      = arrayText ([(1, 5), (1, 4), (3, 0)].map entryText) ∧
    Deserializer.readMap true IntType.int IntType.short 7 'c'
        (IStream.ofList (Serializer.writeMap IntType.int IntType.short []
          [(1, 5), (1, 4), (3, 0)])) []
      = .ok (IStream.ofList [], [(1, 5), (1, 4), (3, 0)]) :=
  decode_encode_ordered true IntType.int IntType.int IntType.short [1, 2, 2]
    [(1, 5), (1, 4), (3, 0)] 7 'c' 7 (by decide) (by decide) (by decide) (by decide)
    (by decide) (by decide) (by decide) (by decide)

/-- C15: the backing sequence of a non-empty stack or queue of integers that their
type holds is read back, element by element in the same order, from its own
encoding into an empty adapter of the same type. -/
theorem decode_encode_queue (t : IntType) (backing : List Int) (fuel : Nat) (c0 : Char)
    (tmp0 : Int) (hne : backing ≠ []) (hall : ∀ n ∈ backing, t.holds n)
    (hfuel : backing.length < fuel) :
    Deserializer.readQueue t fuel c0 tmp0
        (IStream.ofList (Serializer.writeSequence t [] backing)) []
      = .ok (IStream.ofList [], backing) := by
  have h := readSTLContainer_arrayText
    (fun _ i s => SerializableSTLQueue.deserializeElem t tmp0 i s) intText t.holds
    (fun s n => s ++ [n]) (fun _ _ => True) 0
    (fun f s x d tail m _ hx hd _ => ⟨by
      simp [SerializableSTLQueue.deserializeElem, readInt_intText t x tmp0 d tail hx hd],
      trivial⟩)
    backing [] fuel c0 [] hne hall trivial (by omega)
  rw [writeSequence_eq, List.nil_append]
  rw [List.append_nil] at h
  rw [Deserializer.readQueue, h, foldl_push_back]
  simp

theorem decode_encode_queue_witness :
    Deserializer.readQueue IntType.int 4 'c' 7
        (IStream.ofList (Serializer.writeSequence IntType.int [] [5, 1, 9])) []
      = .ok (IStream.ofList [], [5, 1, 9]) :=
  decode_encode_queue IntType.int [5, 1, 9] 4 'c' 7 (by decide) (by decide) (by decide)

/-- C16, at the failing input: on an input of at least four characters `readNull`
consumes exactly four and succeeds exactly when they spell `null` (so `Null`
fails); on the three-character input `nul` the fourth byte compared is the one
the uninitialised buffer happens to hold, and the call succeeds when that
byte is `l`, as it is when the buffer still holds `null`. -/
theorem readNull_buffer :
    (∀ (value0 : List Char) (a b c d : Char) (rest : List Char),
      readNull value0 (IStream.ofList (a :: b :: c :: d :: rest))
        = if [a, b, c, d] = "null".toList then .ok (IStream.ofList rest)
          else .thrown .jsonException (IStream.ofList rest)) ∧
    (∀ v0 v1 v2 v3 : Char,
      readNull [v0, v1, v2, v3] (IStream.ofList "nul".toList)
        = if v3 = 'l' then .ok ⟨[], true, true⟩ else .thrown .jsonException ⟨[], true, true⟩) ∧
    readNull "null".toList (IStream.ofList "nul".toList) = .ok ⟨[], true, true⟩ := by
  refine ⟨readNull_four, ?_, by decide⟩
  intro v0 v1 v2 v3
  have h := cstr_four 'n' 'u' 'l' v3
  have hblock : readBlock 4 (IStream.ofList "nul".toList) [v0, v1, v2, v3]
      = (⟨[], true, true⟩, ['n', 'u', 'l', v3]) := by
    simp [readBlock, IStream.ofList, IStream.good]
  unfold readNull
  simp only [hblock, List.take, List.cons_append, List.nil_append]
  by_cases h3 : v3 = 'l'
  · subst h3
    decide
  · have hne : cstr ['n', 'u', 'l', v3, Char.ofNat 0] ≠ "null".toList := by
      intro x
      have := h.mp x
      simp at this
      exact h3 this
    simp only [bne_iff_ne.mpr hne, h3, if_true, if_false]

/-- C17, as stated, fails: the input `null` followed by one more character is
decoded by the null path without an exception, and that character stays
unread. -/
theorem readNull_trailing_example :
    readNull "xxxx".toList (IStream.ofList "nullx".toList) = .ok (IStream.ofList "x".toList) := by
  decide

/-- C17, amended: for every string `t`, decoding `null` followed by `t` by the null path
succeeds, consumes exactly the four characters and leaves `t` unread; four
characters that do not spell `null` make it throw. -/
theorem readNull_trailing :
    (∀ (value0 t : List Char),
      readNull value0 (IStream.ofList ("null".toList ++ t)) = .ok (IStream.ofList t)) ∧
    (∀ (value0 : List Char) (a b c d : Char) (t : List Char), [a, b, c, d] ≠ "null".toList →
      readNull value0 (IStream.ofList (a :: b :: c :: d :: t))
        = .thrown .jsonException (IStream.ofList t)) := by
  constructor
  · intro value0 t
    have h := readNull_four value0 'n' 'u' 'l' 'l' t
    simpa using h
  · intro value0 a b c d t hne
    rw [readNull_four, if_neg hne]

theorem readNull_trailing_witness :
    readNull "xxxx".toList (IStream.ofList "Null,1".toList)
      = .thrown .jsonException (IStream.ofList ",1".toList) :=
  readNull_trailing.2 "xxxx".toList 'N' 'u' 'l' 'l' ",1".toList (by decide)

/-- C18, as stated, fails: on `[1,2,3]` with two slots `readArray` throws when the
separator after the second element has been read; the third element is not
attempted and its text stays unread. -/
theorem readArray_third_unread :
    readArray IntType.int 'c' (IStream.ofList "[1,2,3]".toList) [0, 0]
      = .thrown .jsonExceptionPtr (IStream.ofList "3]".toList, 2, [1, 2]) := by
  decide

/-- C18, amended: on every array text with more items than the array has slots,
the first `size` of them integers, `readArray` throws; the slots then hold the
first `size` elements and the items after them are unread. -/
theorem readArray_overfull (t : IntType) (pre : List Int) (post : List (List Char))
    (vector : List Int) (c0 : Char) (rest : List Char)
    (hlen : pre.length = vector.length) (hpost : post ≠ []) (hall : ∀ n ∈ pre, t.holds n) :
    readArray t c0 (IStream.ofList (arrayText (pre.map intText ++ post) ++ rest)) vector
      = .thrown .jsonExceptionPtr
          (IStream.ofList (joinItems post ++ JSON.endArray :: rest), vector.length, pre) := by
  have hb : isSpace JSON.beginArray = false := by decide
  have hne : (JSON.elementSeparator != JSON.endArray) = true := by decide
  cases pre with
  | nil =>
    have hv : vector = [] := List.length_eq_zero.mp hlen.symm
    subst hv
    simp [readArray, readArrayFrom, arrayText, extractChar_cons c0 _ _ hb, hne]
  | cons n ns =>
    have hjoin := joinItems_append ((n :: ns).map intText) post (by simp) hpost
    have hrun := readArrayFrom_run t (n :: ns) 0 0 vector JSON.elementSeparator
      (joinItems post ++ JSON.endArray :: rest) (by simp) hall (by decide) (by decide)
    rw [Nat.zero_add, hlen] at hrun
    unfold readArray
    simp only [arrayText, hjoin, List.cons_append, List.append_assoc, List.singleton_append,
      List.nil_append, extractChar_cons c0 _ _ hb, bne_self_eq_false, Bool.false_eq_true,
      if_false]
    rw [hrun]
    simp only [readArrayFrom, hne, if_true, Nat.zero_add, fillFrom_all vector (n :: ns) hlen,
      hlen]

theorem readArray_overfull_witness :
    readArray IntType.int 'c'
        (IStream.ofList (arrayText ([1, 2].map intText ++ ["3".toList]) ++ [])) [0, 0]
      = .thrown .jsonExceptionPtr
          (IStream.ofList (joinItems ["3".toList] ++ JSON.endArray :: []), [0, 0].length, [1, 2]) :=
  readArray_overfull IntType.int [1, 2] ["3".toList] [0, 0] 'c' [] (by decide) (by decide)
    (by decide)

/-- C19, at the failing input: an array text with exactly one element more than
the `std::array` has slots is decoded without an exception, and the last element
is assigned at the index one past the last slot; `OutOfRangeException` comes
only with a second surplus element, after that assignment. -/
theorem stdArray_one_past (t : IntType) (pre : List Int) (last : Int) (slots : List Int)
    (fuel : Nat) (c0 : Char) (tmp0 : Int)
    (hlen : pre.length = slots.length) (hall : ∀ n ∈ pre ++ [last], t.holds n)
    (hfuel : slots.length + 1 < fuel) :
    Deserializer.readStdArray t fuel c0 tmp0
        (IStream.ofList (arrayText ((pre ++ [last]).map intText))) slots
      = .ok (IStream.ofList [], ⟨pre, slots.length + 1, [(slots.length, last)]⟩) ∧
    Deserializer.readStdArray IntType.int 5 'c' 7 (IStream.ofList "[1,2,3,4]".toList) [0, 0]
      = .thrown .outOfRange (IStream.ofList "4]".toList, ⟨[1, 2], 3, [(2, 3)]⟩) := by
  refine ⟨?_, by decide⟩
  have h := readSTLContainer_arrayText
    (fun _ i s => SerializableSTLArray.deserializeElem t tmp0 i s) intText t.holds
    (fun (a : SerializableSTLArray) n =>
        if a.pos < a.slots.length then
          { a with slots := a.slots.set a.pos n, pos := a.pos + 1 }
        else { a with outside := a.outside ++ [(a.pos, n)], pos := a.pos + 1 })
    (fun a m => a.pos + m ≤ a.slots.length + 1) 0
    (fun f s x d tail m _ hx hd hinv => by
      have hpos : ¬ s.pos > s.slots.length := by omega
      have hr := readInt_intText t x tmp0 d tail hx hd
      by_cases hin : s.pos < s.slots.length
      · refine ⟨by simp [SerializableSTLArray.deserializeElem, hpos, hr, hin], ?_⟩
        simp only [hin, if_true, List.length_set]
        omega
      · refine ⟨by simp [SerializableSTLArray.deserializeElem, hpos, hr, hin], ?_⟩
        simp only [hin, if_false]
        omega)
    (pre ++ [last]) ⟨slots, 0, []⟩ fuel c0 [] (by simp) hall
    (by simp [hlen]) (by simp [hlen]; omega)
  rw [List.append_nil] at h
  rw [Deserializer.readStdArray, h, List.foldl_append,
    foldl_array_push pre slots 0 [] (by omega), fillFrom_all slots pre hlen]
  simp [hlen]

theorem stdArray_one_past_witness :
    Deserializer.readStdArray IntType.int 5 'c' 7
        (IStream.ofList (arrayText (([1, 2] ++ [3]).map intText))) [0, 0]
      = .ok (IStream.ofList [], ⟨[1, 2], [0, 0].length + 1, [([0, 0].length, 3)]⟩) :=
  (stdArray_one_past IntType.int [1, 2] 3 [0, 0] 5 'c' 7 (by decide) (by decide)
    (by decide)).1

/-- C20: on every array text with more than two items, the first two of them
integers, decoding into a pair throws `OutOfRangeException` after `first` and `second`
were assigned in this order, the third item unread; a text with exactly two
elements is decoded without an exception. -/
theorem decode_pair_arity (kt vt : IntType) (a b : Int) (old : Int × Int)
    (more : List (List Char)) (fuel : Nat) (c0 : Char) (rest : List Char)
    (ha : kt.holds a) (hb : vt.holds b) (hmore : more ≠ []) (hfuel : 3 ≤ fuel) :
    Deserializer.readPair kt vt fuel c0
        (IStream.ofList (arrayText (intText a :: intText b :: more) ++ rest)) old
      = .thrown .outOfRange
          (IStream.ofList (joinItems more ++ JSON.endArray :: rest), ⟨kt, vt, a, b, 2⟩) ∧
    Deserializer.readPair kt vt fuel c0
        (IStream.ofList (arrayText [intText a, intText b] ++ rest)) old
      = .ok (IStream.ofList rest, ⟨kt, vt, a, b, 2⟩) := by
  constructor
  · cases more with
    | nil => exact absurd rfl hmore
    | cons m ms =>
      have h := readPair_third kt vt a b old fuel c0
        (joinItems (m :: ms) ++ JSON.endArray :: rest) ha hb hfuel
      simpa [arrayText, joinItems_cons_cons] using h
  · exact readPair_entryText kt vt (a, b) old fuel c0 rest ha hb hfuel

theorem decode_pair_arity_witness :
    Deserializer.readPair IntType.int IntType.int 3 'c'
        (IStream.ofList (arrayText (intText 1 :: intText 2 :: ["3".toList]) ++ [])) (0, 0)
      = .thrown .outOfRange
          (IStream.ofList (joinItems ["3".toList] ++ JSON.endArray :: []),
            ⟨IntType.int, IntType.int, 1, 2, 2⟩) ∧
    Deserializer.readPair IntType.int IntType.int 3 'c'
        (IStream.ofList (arrayText [intText 1, intText 2] ++ [])) (0, 0)
      = .ok (IStream.ofList [], ⟨IntType.int, IntType.int, 1, 2, 2⟩) :=
  decode_pair_arity IntType.int IntType.int 1 2 (0, 0) ["3".toList] 3 'c' [] (by decide)
    (by decide) (by decide) (by decide)

/-- C21: an enumerated value is written as the decimal text of the `int` it holds;
the text of any `int` n, declared by the enumeration or not, is read into an
enum target without a failure, the target then holds n, and writing it again
gives the text of n. -/
theorem enum_as_int (object target : EnumObject) (n tmp0 : Int) (os tail : List Char)
    (hn : IntType.int.holds n) (htail : ∀ c ∈ tail.head?, isDigit c = false) :
    Serializer.writeEnum os object = os ++ intText object.value ∧
    Deserializer.readEnum tmp0 (IStream.ofList (intText n ++ tail)) target
      = (⟨tail, tail.isEmpty, false⟩, { target with value := n }) ∧
    Serializer.writeEnum []
        (Deserializer.readEnum tmp0 (IStream.ofList (intText n ++ tail)) target).2
      = intText n := by
  have hread : Deserializer.readEnum tmp0 (IStream.ofList (intText n ++ tail)) target
      = (⟨tail, tail.isEmpty, false⟩, { target with value := n }) := by
    have h := extractInt_insertInt IntType.int n tmp0 tail hn htail
    simp only [Deserializer.readEnum, Deserializer.readInt, intText, h]
  refine ⟨writeInt_eq IntType.int os object.value, hread, ?_⟩
  rw [hread]
  simpa [Serializer.writeEnum] using writeInt_eq IntType.int [] n

theorem enum_as_int_witness :
    Serializer.writeEnum [] ⟨[0, 1, 2], 1⟩ = [] ++ intText (1 : Int) ∧
    Deserializer.readEnum 5 (IStream.ofList (intText 7 ++ [])) ⟨[0, 1, 2], 0⟩
      = (⟨[], ([] : List Char).isEmpty, false⟩, ⟨[0, 1, 2], 7⟩) ∧
    Serializer.writeEnum []
        (Deserializer.readEnum 5 (IStream.ofList (intText 7 ++ [])) ⟨[0, 1, 2], 0⟩).2
      = intText 7 :=
  enum_as_int ⟨[0, 1, 2], 1⟩ ⟨[0, 1, 2], 0⟩ 7 5 [] [] (by decide) (by decide)

/-- C23, as stated, fails: the read of an `int` from the text `abc` returns normally;
the target is set to 0, the text stays unread and only `failbit` tells of the
failure. -/
theorem read_int_abc :
    Deserializer.read 1 (IStream.ofList "abc".toList) (.scalar (.int IntType.int 7))
      = .ok (⟨"abc".toList, false, true⟩, .scalar (.int IntType.int 0)) := by
  decide

/-- C23, amended: the read of an integer target returns normally on every input,
and where the text is not parsed only `failbit` tells of it.  Where the text
starts, after white space, with a character that is neither a digit nor a
sign, the target is set to 0 and that character stays unread; where it starts
with a sign that no digit follows, the sign is extracted and the target is
set to 0; where it is empty or white space only, the target keeps its value
and `eofbit` is raised too; where it is the decimal text of an integer outside
a signed type, the text is extracted and the target is set to the limit of
the type on the side of the integer. -/
theorem read_int_unparsable (t : IntType) (old : Int) (fuel : Nat) :
    (∀ (is : IStream), ∃ is1 n,
      Deserializer.read fuel is (.scalar (.int t old)) = .ok (is1, .scalar (.int t n))) ∧
    (∀ (ws : List Char) (c : Char) (rest : List Char),
      (∀ w ∈ ws, isSpace w = true) → isSpace c = false → isDigit c = false →
      c ≠ '-' → c ≠ '+' →
      Deserializer.read fuel (IStream.ofList (ws ++ c :: rest)) (.scalar (.int t old))
        = .ok (⟨c :: rest, false, true⟩, .scalar (.int t 0))) ∧
    (∀ (ws : List Char) (sign : Char) (rest : List Char),
      (∀ w ∈ ws, isSpace w = true) → (sign = '-' ∨ sign = '+') →
      (∀ c ∈ rest.head?, isDigit c = false) →
      Deserializer.read fuel (IStream.ofList (ws ++ sign :: rest)) (.scalar (.int t old))
        = .ok (⟨rest, rest.isEmpty, true⟩, .scalar (.int t 0))) ∧
    (∀ (ws : List Char), (∀ w ∈ ws, isSpace w = true) →
      Deserializer.read fuel (IStream.ofList ws) (.scalar (.int t old))
        = .ok (⟨[], true, true⟩, .scalar (.int t old))) ∧
    (∀ (ws : List Char) (n : Int) (tail : List Char),
      (∀ w ∈ ws, isSpace w = true) → t.signed = true → ¬ t.holds n →
      (∀ c ∈ tail.head?, isDigit c = false) →
      Deserializer.read fuel (IStream.ofList (ws ++ (intText n ++ tail))) (.scalar (.int t old))
        = .ok (⟨tail, tail.isEmpty, true⟩,
            .scalar (.int t (if n < 0 then t.minVal else t.maxVal)))) := by
  refine ⟨?_, ?_, ?_, ?_, ?_⟩
  · intro is
    exact ⟨(extractInt t is old).1, (extractInt t is old).2, rfl⟩
  · intro ws c rest hws hsp hdg hminus hplus
    simp [Deserializer.read, readValue,
      extractInt_unparsable t ws c rest old hws hsp hdg hminus hplus]
  · intro ws sign rest hws hsign hrest
    simp only [Deserializer.read, readValue,
      extractInt_sign_only t ws sign rest old hws hsign hrest]
  · intro ws hws
    simp only [Deserializer.read, readValue, extractInt_blank t ws old hws]
  · intro ws n tail hws hsigned hn htail
    simp only [Deserializer.read, readValue,
      extractInt_out_of_range t ws n old tail hws hsigned hn htail]

theorem read_int_unparsable_witness :
    Deserializer.read 1 (IStream.ofList (" ".toList ++ 'a' :: "bc".toList))
        (.scalar (.int IntType.int 7))
      = .ok (⟨'a' :: "bc".toList, false, true⟩, .scalar (.int IntType.int 0)) ∧
    Deserializer.read 1 (IStream.ofList (" ".toList ++ '-' :: "abc".toList))
        (.scalar (.int IntType.int 7))
      = .ok (⟨"abc".toList, "abc".toList.isEmpty, true⟩, .scalar (.int IntType.int 0)) ∧
    Deserializer.read 1 (IStream.ofList " ".toList) (.scalar (.int IntType.int 7))
      = .ok (⟨[], true, true⟩, .scalar (.int IntType.int 7)) ∧
    Deserializer.read 1 (IStream.ofList ([] ++ (intText 99999999999 ++ "]".toList)))
        (.scalar (.int IntType.int 7))
      = .ok (⟨"]".toList, "]".toList.isEmpty, true⟩,
          .scalar (.int IntType.int
            (if (99999999999 : Int) < 0 then IntType.int.minVal else IntType.int.maxVal))) :=
  ⟨(read_int_unparsable IntType.int 7 1).2.1 " ".toList 'a' "bc".toList (by decide) (by decide)
      (by decide) (by decide) (by decide),
    (read_int_unparsable IntType.int 7 1).2.2.1 " ".toList '-' "abc".toList (by decide)
      (by decide) (by decide),
    (read_int_unparsable IntType.int 7 1).2.2.2.1 " ".toList (by decide),
    (read_int_unparsable IntType.int 7 1).2.2.2.2 [] 99999999999 "]".toList (by decide)
      (by decide) (by decide) (by decide)⟩

/-- C24, at the failing inputs: on the text `[1`, cut before the closing bracket, the
container decode of a vector, deque, list, set, multiset, stack or queue of
`int` is out of fuel for every amount of fuel, and so is object decode on the
text `{"_className_":"Point"`, cut before the closing brace: neither loop ends at
the end of the input. -/
theorem decode_cut_text (multi : Bool) (fuel : Nat) (c0 : Char) (tmp0 x y : Int) :
    Deserializer.readList IntType.int fuel c0 tmp0 (IStream.ofList "[1".toList) []
      = .outOfFuel ∧
    Deserializer.readSet multi IntType.int fuel c0 tmp0 (IStream.ofList "[1".toList) []
      = .outOfFuel ∧
    Deserializer.readQueue IntType.int fuel c0 tmp0 (IStream.ofList "[1".toList) []
      = .outOfFuel ∧
    readSerializable fuel c0 (IStream.ofList pointTextCut) (point x y) = .outOfFuel := by
  have htext : "[1".toList = JSON.beginArray :: joinItems ([1].map intText) := by decide
  refine ⟨?_, ?_, ?_, ?_⟩
  · rw [htext]
    exact readSTLContainer_cut_text IntType.int tmp0 (fun s n => s ++ [n]) [1] fuel c0 []
      (by simp) (by decide)
  · rw [htext]
    exact readSTLContainer_cut_text IntType.int tmp0 (fun s n => setInsert multi n s) [1]
      fuel c0 [] (by simp) (by decide)
  · rw [htext]
    exact readSTLContainer_cut_text IntType.int tmp0 (fun s n => s ++ [n]) [1] fuel c0 []
      (by simp) (by decide)
  · have h := readSerializable_cut (point x y) fuel c0 (by rw [point_getClassName]; decide)
    rw [point_getClassName] at h
    exact h

/-- C26, as stated, fails: in `[1 ,2]` the character that follows the first decoded
element is a space, neither the separator nor the closing bracket, and both
the container decode and the fixed-array decode succeed with both elements. -/
theorem decode_space_before_separator :
    Deserializer.readList IntType.int 4 'c' 7 (IStream.ofList "[1 ,2]".toList) []
      = .ok (IStream.ofList [], [1, 2]) ∧
    readArray IntType.int 'c' (IStream.ofList "[1 ,2]".toList) [0, 0]
      = .ok (IStream.ofList [], 2, [1, 2]) := by
  decide

/-- C26, amended: where the first character that is not white space after a
decoded element is neither the separator nor the closing bracket, the decode
of a vector, deque or list and the fixed-array decode throw as soon as that
character is read: the elements before it are assigned, and nothing after it
is read. -/
theorem decode_bad_separator (t : IntType) (pre : List Int) (ws : List Char) (d : Char)
    (rest : List Char) (fuel : Nat) (c0 : Char) (tmp0 : Int) (container vector : List Int)
    (hne : pre ≠ []) (hall : ∀ n ∈ pre, t.holds n) (hlen : pre.length ≤ vector.length)
    (hws : ∀ w ∈ ws, isSpace w = true) (hsp : isSpace d = false)
    (hdg : ws = [] → isDigit d = false)
    (hsep : d ≠ JSON.elementSeparator) (hend : d ≠ JSON.endArray)
    (hfuel : pre.length < fuel) :
    Deserializer.readList t fuel c0 tmp0
        (IStream.ofList (JSON.beginArray :: (joinItems (pre.map intText) ++ (ws ++ d :: rest))))
        container
      = .thrown .jsonExceptionPtr (IStream.ofList rest, container ++ pre) ∧
    readArray t c0
        (IStream.ofList (JSON.beginArray :: (joinItems (pre.map intText) ++ (ws ++ d :: rest))))
        vector
      = .thrown .jsonExceptionPtr (IStream.ofList rest, pre.length, fillFrom vector 0 pre) :=
  ⟨readList_bad_separator t pre ws d rest fuel c0 tmp0 container hne hall hws hsp hdg hsep hend
      hfuel,
    readArray_bad_separator t pre ws d rest c0 vector hne hlen hall hws hsp hdg hsep hend⟩

theorem decode_bad_separator_witness :
    (Deserializer.readList IntType.int 2 'c' 7 (IStream.ofList "[1;2]".toList) []
      = .thrown .jsonExceptionPtr (IStream.ofList "2]".toList, [1]) ∧
    readArray IntType.int 'c' (IStream.ofList "[1;2]".toList) [0, 0]
      = .thrown .jsonExceptionPtr (IStream.ofList "2]".toList, 1, [1, 0])) ∧
    (Deserializer.readList IntType.int 2 'c' 7 (IStream.ofList "[1 2]".toList) []
      = .thrown .jsonExceptionPtr (IStream.ofList "]".toList, [1]) ∧
    readArray IntType.int 'c' (IStream.ofList "[1 2]".toList) [0, 0]
      = .thrown .jsonExceptionPtr (IStream.ofList "]".toList, 1, [1, 0])) :=
  ⟨decode_bad_separator IntType.int [1] [] ';' "2]".toList 2 'c' 7 [] [0, 0] (by decide)
      (by decide) (by decide) (by decide) (by decide) (by decide) (by decide) (by decide)
      (by decide),
    decode_bad_separator IntType.int [1] " ".toList '2' "]".toList 2 'c' 7 [] [0, 0] (by decide)
      (by decide) (by decide) (by decide) (by decide) (by decide) (by decide) (by decide)
      (by decide)⟩

/-- C27: after the class-name tag and a run of well-formed entries with distinct
registered names, object decode throws at an entry whose name is not
registered, at a registered name that no colon follows, and at a character
in place of the separator; in each case the thrown state holds, for every
entry of the run, the value decoded from it, and every other member as it
was.  Decoding `{"_className_":"Point","x":1,"z":2}` into a `Point` throws and leaves
x = 1, with y as before. -/
theorem decode_not_atomic (object : Serializable) (es : Members)
    (p name known ws rest : List Char) (d : Char) (fuel : Nat) (c0 : Char) (x y : Int)
    (hcls : JSON.quotationMark ∉ object.getClassName) (hes : ∀ e ∈ es, object.takes e)
    (hnd : es.names.Nodup) (hp : JSON.quotationMark ∉ p)
    (hname : JSON.quotationMark ∉ name) (hunknown : name ∉ object.members.names)
    (hkq : JSON.quotationMark ∉ known) (hknown : known ∈ object.members.names)
    (hws : ∀ w ∈ ws, isSpace w = true) (hsp : isSpace d = false) (hdg : isDigit d = false)
    (hsep : d ≠ JSON.elementSeparator) (hend : d ≠ JSON.endObject)
    (hcolon : d ≠ JSON.valueSeparator) (hfuel : es.length + p.length + 2 < fuel) :
    readSerializable fuel c0
        (IStream.ofList (JSON.beginObject :: (quoted classNameKey ++ JSON.valueSeparator ::
          (quoted object.getClassName ++ (es.flatMap memberText ++ JSON.elementSeparator ::
            (p ++ quoted name ++ rest)))))) object
      = .thrown .jsonExceptionPtr
          (IStream.ofList rest, { object with members := object.members.assignAll es }) ∧
    readSerializable fuel c0
        (IStream.ofList (JSON.beginObject :: (quoted classNameKey ++ JSON.valueSeparator ::
          (quoted object.getClassName ++ (es.flatMap memberText ++ JSON.elementSeparator ::
            (p ++ quoted known ++ (ws ++ d :: rest))))))) object
      = .thrown .jsonExceptionPtr
          (IStream.ofList rest, { object with members := object.members.assignAll es }) ∧
    readSerializable fuel c0
        (IStream.ofList (JSON.beginObject :: (quoted classNameKey ++ JSON.valueSeparator ::
          (quoted object.getClassName ++ (es.flatMap memberText ++ d :: rest))))) object
      = .thrown .jsonExceptionPtr
          (IStream.ofList rest, { object with members := object.members.assignAll es }) ∧
    (∀ e ∈ es, (object.members.assignAll es).find e.1 = some e) ∧
    (∀ n, n ∉ es.names → (object.members.assignAll es).find n = object.members.find n) ∧
    readSerializable fuel c0 (IStream.ofList pointTextUnknown) (point x y)
      = .thrown .jsonExceptionPtr (IStream.ofList ":2\x7d".toList, point 1 y) := by
  refine ⟨?_, ?_, ?_, ?_, ?_, ?_⟩
  · exact readSerializable_unknown_name object es p name rest fuel c0 hcls hes hp hname
      hunknown (by omega)
  · exact readSerializable_no_colon object es p known ws rest d fuel c0 hcls hes hp hkq hknown
      hws hsp hcolon (by omega)
  · exact readSerializable_bad_separator object es d rest fuel c0 hcls hes hsp hdg hsep hend
      (by omega)
  · exact Members.find_assignAll_mem es object.members hnd
      (fun e he => by
        obtain ⟨old, ho, _⟩ := Members.find_of_typeOf _ _ _ (hes e he).2.2
        exact ⟨old, ho⟩)
  · exact fun n hn => Members.find_assignAll_not_mem es object.members n hn
  · have h := readSerializable_unknown_name (point x y) [("x".toList, .scalar (.int .int 1))] []
      "z".toList ":2\x7d".toList fuel c0 (by rw [point_getClassName]; decide)
      (by
        intro e he
        simp only [List.mem_singleton] at he
        subst he
        exact ⟨by decide, by decide, rfl⟩)
      (by simp) (by decide)
      (by rw [show (point x y).members.names = ["x".toList, "y".toList] from rfl]; decide)
      (by simp at hfuel ⊢; omega)
    exact h

theorem decode_not_atomic_witness :
    readSerializable 4 'c' (IStream.ofList pointTextUnknown) (point 0 0)
      = .thrown .jsonExceptionPtr (IStream.ofList ":2\x7d".toList, point 1 0) ∧
    (∀ e ∈ [("x".toList, Value.scalar (.int IntType.int 1))],
      ((point 0 0).members.assignAll [("x".toList, Value.scalar (.int IntType.int 1))]).find e.1
        = some e) :=
  ⟨(decode_not_atomic (point 0 0) [("x".toList, .scalar (.int .int 1))] [] "z".toList
      "y".toList [] "2\x7d".toList ';' 4 'c' 0 0 (by decide) (by decide) (by decide)
      (by decide) (by decide) (by decide) (by decide) (by decide) (by decide) (by decide)
      (by decide) (by decide) (by decide) (by decide) (by decide)).2.2.2.2.2,
    (decode_not_atomic (point 0 0) [("x".toList, .scalar (.int .int 1))] [] "z".toList
      "y".toList [] "2\x7d".toList ';' 4 'c' 0 0 (by decide) (by decide) (by decide)
      (by decide) (by decide) (by decide) (by decide) (by decide) (by decide) (by decide)
      (by decide) (by decide) (by decide) (by decide) (by decide)).2.2.2.1⟩

/-- C28: an object of a class that is neither registered nor an enumeration is
written as the text `null`, whatever it holds; reading into such a target
returns normally exactly when `readNull` does, throws what `readNull` throws, and
in either case the target is the one the call received; the text written is
read back without an exception. -/
theorem nonSerializable_null_path {C : Type} (object target : C) (os value0 rest : List Char)
    (is : IStream) :
    Serializer.writeNonSerializable os object = os ++ "null".toList ∧
    (∀ (s : IStream × C), Deserializer.readNonSerializable value0 is target = .ok s ↔
      (readNull value0 is = .ok s.1 ∧ s.2 = target)) ∧
    (∀ (e : Exception) (s : IStream × C),
      Deserializer.readNonSerializable value0 is target = .thrown e s ↔
        (readNull value0 is = .thrown e s.1 ∧ s.2 = target)) ∧
    Deserializer.readNonSerializable value0
        (IStream.ofList (Serializer.writeNonSerializable [] object ++ rest)) target
      = .ok (IStream.ofList rest, target) := by
  refine ⟨rfl, ?_, ?_, ?_⟩
  · intro s
    obtain ⟨s1, s2⟩ := s
    unfold Deserializer.readNonSerializable
    cases readNull value0 is with
    | ok r => simp [eq_comm]
    | thrown e r => simp
    | outOfFuel => simp
  · intro e s
    obtain ⟨s1, s2⟩ := s
    unfold Deserializer.readNonSerializable
    cases readNull value0 is with
    | ok r => simp
    | thrown e1 r => simp [eq_comm]; tauto
    | outOfFuel => simp
  · have h := readNull_four value0 'n' 'u' 'l' 'l' rest
    simp only [show (['n', 'u', 'l', 'l'] : List Char) = "null".toList from rfl, if_true] at h
    unfold Deserializer.readNonSerializable
    simp only [Serializer.writeNonSerializable, writeNull, List.nil_append]
    rw [show "null".toList ++ rest = 'n' :: 'u' :: 'l' :: 'l' :: rest from rfl, h]

theorem nonSerializable_null_path_witness :
    Deserializer.readNonSerializable "xxxx".toList (IStream.ofList "null,1".toList) (5 : Nat)
      = .ok (IStream.ofList ",1".toList, 5) :=
  ((nonSerializable_null_path (3 : Nat) (5 : Nat) [] "xxxx".toList []
      (IStream.ofList "null,1".toList)).2.1 (IStream.ofList ",1".toList, 5)).mpr
    ⟨by decide, rfl⟩

/-- C29: on every array of integers the index loop of `writeArray` and the cursor
loop of `writeSTLContainer` append the same text: the opening bracket, the
element texts in order joined by single separators, the closing bracket; it
holds one separator less than there are elements. -/
theorem writeArray_writeSTLContainer (t : IntType) (os : List Char) (ns : List Int) :
    writeArray t os ns = writeSTLContainer (Serializer.writeInt t) os ns ∧
    writeArray t os ns = os ++ arrayText (ns.map intText) ∧
    (writeArray t [] ns).count JSON.elementSeparator = ns.length - 1 ∧
    writeArray IntType.int [] [1, 2, 3] = "[1,2,3]".toList := by
  refine ⟨?_, writeArray_eq t os ns, ?_, by decide⟩
  · rw [writeArray_eq, writeSTLContainer_eq (Serializer.writeInt t) intText (writeInt_eq t)]
  · rw [writeArray_eq, List.nil_append, arrayText_count_separator]

/-- C30: the encoding of a stack, queue or priority queue is the encoding of its
backing sequence as a vector or deque would be written; the priority queue
built by pushing 1, 2, 3 has the backing vector 3, 1, 2 and is written as
`[3,1,2]`, which lists the elements neither from the greatest down, as they
are popped, nor in ascending order. -/
theorem writeQueue_backing (t : IntType) (os : List Char) (backing : List Int) :
    Serializer.writeQueue t os backing = Serializer.writeSequence t os backing ∧
    Serializer.writeQueue t os backing = os ++ arrayText (backing.map intText) ∧
    priorityQueueOf [1, 2, 3] = [3, 1, 2] ∧
    Serializer.writeQueue IntType.int [] (priorityQueueOf [1, 2, 3]) = "[3,1,2]".toList ∧
    ¬ descending (priorityQueueOf [1, 2, 3]) ∧
    ¬ ascending true (priorityQueueOf [1, 2, 3]) := by
  refine ⟨rfl, ?_, by decide, by decide, by decide, by decide⟩
  exact writeSTLContainer_eq (SerializableSTLQueue.serializeElem t) intText
    (fun o n => writeInt_eq t o n) os backing

/-- C31: the member table that the registration builds lists the declared names
in ascending order of `std::string`, each name once, whatever the order of the
`ADD_MEMBER` lines; with distinct names the table, and so the text that
`writeSerializable` writes, does not depend on that order, and the text lists the
members in the order of the table.  The names b, ab, B, a are listed as
B, a, ab, b. -/
theorem writeSerializable_field_order (className : List Char)
    (decls decls' : List (List Char × Value)) (os : List Char)
    (hperm : decls'.Perm decls) (hnd : (decls.map Prod.fst).Nodup)
    (hc : Char.ofNat 0 ∉ className) (hm : ∀ d ∈ decls, Char.ofNat 0 ∉ d.1) :
    (registerSerializable className decls).members.sorted ∧
    (registerSerializable className decls).members.names.Nodup ∧
    (∀ n, n ∈ (registerSerializable className decls).members.names ↔ n ∈ decls.map Prod.fst) ∧
    (∀ d ∈ decls, (registerSerializable className decls).members.find d.1 = some d) ∧
    writeSerializable os (registerSerializable className decls)
      = os ++ objectText className (registerSerializable className decls).members ∧
    writeSerializable os (registerSerializable className decls')
      = writeSerializable os (registerSerializable className decls) ∧
    (registerSerializable className
        [("b".toList, .scalar (.bool true)), ("ab".toList, .scalar (.bool true)),
          ("B".toList, .scalar (.bool true)), ("a".toList, .scalar (.bool true))]).members.names
      = ["B".toList, "a".toList, "ab".toList, "b".toList] := by
  obtain ⟨hs, hnames⟩ := foldl_set_sorted decls []
    (by simp [Members.sorted, Members.names])
  have hmem : ∀ n, n ∈ (registerSerializable className decls).members.names
      ↔ n ∈ decls.map Prod.fst := by
    intro n
    rw [show (registerSerializable className decls).members
      = decls.foldl (fun (m : Members) d => m.set d.1 d.2) [] from rfl, hnames n]
    simp only [Members.names, List.map_nil, List.not_mem_nil, false_or]
  refine ⟨hs, Members.sorted_nodup _ hs, hmem, (foldl_set_find decls [] hnd).1, ?_, ?_,
    rfl⟩
  · refine writeSerializable_eq os _ hc ?_
    intro e he
    have hn : e.1 ∈ (registerSerializable className decls).members.names :=
      List.mem_map_of_mem Prod.fst he
    obtain ⟨d, hd, hde⟩ := List.mem_map.mp ((hmem e.1).mp hn)
    rw [← hde]
    exact hm d hd
  · rw [registerSerializable_perm className decls decls' hperm hnd]

theorem writeSerializable_field_order_witness :
    writeSerializable []
        (registerSerializable "Point".toList
          [("y".toList, .scalar (.int .int 2)), ("x".toList, .scalar (.int .int 1))])
      = writeSerializable [] (point 1 2) :=
  (writeSerializable_field_order "Point".toList
    [("x".toList, .scalar (.int .int 1)), ("y".toList, .scalar (.int .int 2))]
    [("y".toList, .scalar (.int .int 2)), ("x".toList, .scalar (.int .int 1))] []
    (List.Perm.swap _ _ _) (by decide) (by decide) (by decide)).2.2.2.2.2.1

/-- C32, as stated, fails: the entries `x`, `z` and their permutation `z`, `x`, with `z` not
registered, both make object decode throw, but the final field values are
not the same: in the first order `x` has been assigned, in the second order
nothing has. -/
theorem decode_field_order_failing :
    readSerializable 4 'c'
        (IStream.ofList (objectText (point 7 8).getClassName
          [("x".toList, .scalar (.int .int 1)), ("z".toList, .scalar (.int .int 2))]))
        (point 7 8)
      = .thrown .jsonExceptionPtr (IStream.ofList ":2\x7d".toList, point 1 8) ∧
    readSerializable 4 'c'
        (IStream.ofList (objectText (point 7 8).getClassName
          [("z".toList, .scalar (.int .int 2)), ("x".toList, .scalar (.int .int 1))]))
        (point 7 8)
      = .thrown .jsonExceptionPtr (IStream.ofList ":2,\"x\":1\x7d".toList, point 7 8) ∧
    point 1 8 ≠ point 7 8 := by
  decide

/-- C32, amended: for entries with distinct names whose values are read back from
their text, each for a registered member of its type or for no registered
member, the decode of the object text succeeds for every order of the
entries or for none.  Where every name is registered, each order is decoded
without an exception to the same members.  Where a name is not registered,
each order throws, at its own first entry with such a name and with just the
entries before that one assigned, so that the members then depend on the
order. -/
theorem decode_field_order (object : Serializable) (es es' : Members) (fuel : Nat) (c0 : Char)
    (hcls : JSON.quotationMark ∉ object.getClassName) (hperm : es'.Perm es)
    (hnd : es.names.Nodup)
    (hes : ∀ e ∈ es, JSON.quotationMark ∉ e.1 ∧ e.2.roundTrips ∧
      (object.members.typeOf e.1 = some e.2.type ∨ e.1 ∉ object.members.names))
    (hfuel : es.length + 1 < fuel) :
    ((∀ e ∈ es, e.1 ∈ object.members.names) →
      readSerializable fuel c0 (IStream.ofList (objectText object.getClassName es')) object
        = .ok (IStream.ofList [], { object with members := object.members.assignAll es }) ∧
      readSerializable fuel c0 (IStream.ofList (objectText object.getClassName es)) object
        = .ok (IStream.ofList [], { object with members := object.members.assignAll es })) ∧
    ((¬ ∀ e ∈ es, e.1 ∈ object.members.names) →
      (∃ pre u post, es' = pre ++ u :: post ∧ (∀ e ∈ pre, e.1 ∈ object.members.names) ∧
        u.1 ∉ object.members.names ∧
        readSerializable fuel c0 (IStream.ofList (objectText object.getClassName es')) object
          = .thrown .jsonExceptionPtr
              (IStream.ofList (JSON.valueSeparator :: (Serializer.write [] u.2 ++
                (post.flatMap memberText ++ [JSON.endObject]))),
                { object with members := object.members.assignAll pre })) ∧
      (∃ pre u post, es = pre ++ u :: post ∧ (∀ e ∈ pre, e.1 ∈ object.members.names) ∧
        u.1 ∉ object.members.names ∧
        readSerializable fuel c0 (IStream.ofList (objectText object.getClassName es)) object
          = .thrown .jsonExceptionPtr
              (IStream.ofList (JSON.valueSeparator :: (Serializer.write [] u.2 ++
                (post.flatMap memberText ++ [JSON.endObject]))),
                { object with members := object.members.assignAll pre }))) := by
  have hes' : ∀ e ∈ es', JSON.quotationMark ∉ e.1 ∧ e.2.roundTrips ∧
      (object.members.typeOf e.1 = some e.2.type ∨ e.1 ∉ object.members.names) :=
    fun e he => hes e (hperm.mem_iff.mp he)
  have hlen : es'.length = es.length := hperm.length_eq
  have htakes : ∀ (l : Members), (∀ e ∈ l, JSON.quotationMark ∉ e.1 ∧ e.2.roundTrips ∧
      (object.members.typeOf e.1 = some e.2.type ∨ e.1 ∉ object.members.names)) →
      ∀ e ∈ l, e.1 ∈ object.members.names → object.takes e := by
    intro l hl e he hreg
    obtain ⟨h1, h2, h3⟩ := hl e he
    rcases h3 with h3 | h3
    · exact ⟨h1, h2, h3⟩
    · exact absurd hreg h3
  have hthrow : ∀ (l : Members), l.length = es.length →
      (∀ e ∈ l, JSON.quotationMark ∉ e.1 ∧ e.2.roundTrips ∧
        (object.members.typeOf e.1 = some e.2.type ∨ e.1 ∉ object.members.names)) →
      (¬ ∀ e ∈ l, e.1 ∈ object.members.names) →
      ∃ pre u post, l = pre ++ u :: post ∧ (∀ e ∈ pre, e.1 ∈ object.members.names) ∧
        u.1 ∉ object.members.names ∧
        readSerializable fuel c0 (IStream.ofList (objectText object.getClassName l)) object
          = .thrown .jsonExceptionPtr
              (IStream.ofList (JSON.valueSeparator :: (Serializer.write [] u.2 ++
                (post.flatMap memberText ++ [JSON.endObject]))),
                { object with members := object.members.assignAll pre }) := by
    intro l hl hall hnot
    obtain ⟨pre, u, post, hsplit, hpre, hu⟩ :=
      split_at_first (fun e : List Char × Value => e.1 ∈ object.members.names) l hnot
    have hpre' : ∀ e ∈ pre, object.takes e := fun e he =>
      htakes l hall e (by rw [hsplit]; simp [he]) (hpre e he)
    have hq : JSON.quotationMark ∉ u.1 := (hall u (by rw [hsplit]; simp)).1
    have hpl : pre.length + 1 < fuel := by
      have : pre.length ≤ l.length := by rw [hsplit]; simp
      omega
    have h := readSerializable_objectText_unknown object pre post u [] fuel c0 hcls hpre' hq hu
      hpl
    rw [List.append_nil, ← hsplit] at h
    exact ⟨pre, u, post, hsplit, hpre, hu, h⟩
  constructor
  · intro hall
    have h1 := readSerializable_objectText object es' [] fuel c0 hcls
      (fun e he => htakes es' hes' e he (hall e (hperm.mem_iff.mp he))) (by omega)
    have h2 := readSerializable_objectText object es [] fuel c0 hcls
      (fun e he => htakes es hes e he (hall e he)) (by omega)
    rw [List.append_nil] at h1 h2
    rw [Members.assignAll_perm object.members es es' hperm hnd] at h1
    exact ⟨h1, h2⟩
  · intro hnot
    refine ⟨hthrow es' hlen hes' ?_, hthrow es rfl hes hnot⟩
    intro hall
    exact hnot (fun e he => hall e (hperm.mem_iff.mpr he))

theorem decode_field_order_witness :
    (readSerializable 4 'c'
        (IStream.ofList (objectText (point 7 8).getClassName
          [("y".toList, .scalar (.int .int 2)), ("x".toList, .scalar (.int .int 1))]))
        (point 7 8)
      = .ok (IStream.ofList [], point 1 2) ∧
    readSerializable 4 'c'
        (IStream.ofList (objectText (point 7 8).getClassName
          [("x".toList, .scalar (.int .int 1)), ("y".toList, .scalar (.int .int 2))]))
        (point 7 8)
      = .ok (IStream.ofList [], point 1 2)) ∧
    ((∃ pre u post,
        [("z".toList, Value.scalar (.int .int 2)), ("x".toList, Value.scalar (.int .int 1))]
          = pre ++ u :: post ∧
        (∀ e ∈ pre, e.1 ∈ (point 7 8).members.names) ∧ u.1 ∉ (point 7 8).members.names ∧
        readSerializable 4 'c'
            (IStream.ofList (objectText (point 7 8).getClassName
              [("z".toList, .scalar (.int .int 2)), ("x".toList, .scalar (.int .int 1))]))
            (point 7 8)
          = .thrown .jsonExceptionPtr
              (IStream.ofList (JSON.valueSeparator :: (Serializer.write [] u.2 ++
                (post.flatMap memberText ++ [JSON.endObject]))),
                { point 7 8 with members := (point 7 8).members.assignAll pre })) ∧
      (∃ pre u post,
        [("x".toList, Value.scalar (.int .int 1)), ("z".toList, Value.scalar (.int .int 2))]
          = pre ++ u :: post ∧
        (∀ e ∈ pre, e.1 ∈ (point 7 8).members.names) ∧ u.1 ∉ (point 7 8).members.names ∧
        readSerializable 4 'c'
            (IStream.ofList (objectText (point 7 8).getClassName
              [("x".toList, .scalar (.int .int 1)), ("z".toList, .scalar (.int .int 2))]))
            (point 7 8)
          = .thrown .jsonExceptionPtr
              (IStream.ofList (JSON.valueSeparator :: (Serializer.write [] u.2 ++
                (post.flatMap memberText ++ [JSON.endObject]))),
                { point 7 8 with members := (point 7 8).members.assignAll pre }))) :=
  ⟨(decode_field_order (point 7 8)
      [("x".toList, .scalar (.int .int 1)), ("y".toList, .scalar (.int .int 2))]
      [("y".toList, .scalar (.int .int 2)), ("x".toList, .scalar (.int .int 1))] 4 'c'
      (by decide) (List.Perm.swap _ _ _) (by decide) (by decide) (by decide)).1 (by decide),
    (decode_field_order (point 7 8)
      [("x".toList, .scalar (.int .int 1)), ("z".toList, .scalar (.int .int 2))]
      [("z".toList, .scalar (.int .int 2)), ("x".toList, .scalar (.int .int 1))] 4 'c'
      (by decide) (List.Perm.swap _ _ _) (by decide) (by decide) (by decide)).2 (by decide)⟩

/-- C33: a well-formed object text whose entries name registered members, be it
a part of them or none, is decoded without an exception; the members it
names hold the decoded values, every member it does not name holds the value
it had, and no member is added or removed.  Decoding `{"_className_":"Point"}` into a
`Point` leaves x and y as they were. -/
theorem decode_field_subset (object : Serializable) (es : Members) (rest : List Char)
    (fuel : Nat) (c0 : Char) (x y : Int)
    (hcls : JSON.quotationMark ∉ object.getClassName) (hes : ∀ e ∈ es, object.takes e)
    (hfuel : es.length < fuel) :
    readSerializable fuel c0
        (IStream.ofList (objectText object.getClassName es ++ rest)) object
      = .ok (IStream.ofList rest, { object with members := object.members.assignAll es }) ∧
    (∀ n, n ∉ es.names → (object.members.assignAll es).find n = object.members.find n) ∧
    (object.members.assignAll es).names = object.members.names ∧
    readSerializable fuel c0 (IStream.ofList pointTextEmpty) (point x y)
      = .ok (IStream.ofList [], point x y) := by
  refine ⟨readSerializable_objectText object es rest fuel c0 hcls hes hfuel,
    fun n hn => Members.find_assignAll_not_mem es object.members n hn,
    Members.names_assignAll es object.members, ?_⟩
  have h := readSerializable_objectText (point x y) [] [] fuel c0
    (by rw [point_getClassName]; decide) (by simp) (by simp at hfuel ⊢; omega)
  rw [point_getClassName] at h
  exact h

theorem decode_field_subset_witness :
    readSerializable 2 'c'
        (IStream.ofList (objectText (point 7 8).getClassName
          [("y".toList, .scalar (.int .int 2))] ++ []))
        (point 7 8)
      = .ok (IStream.ofList [], point 7 2) ∧
    ((point 7 8).members.assignAll [("y".toList, .scalar (.int .int 2))]).find "x".toList
      = (point 7 8).members.find "x".toList :=
  ⟨(decode_field_subset (point 7 8) [("y".toList, .scalar (.int .int 2))] [] 2 'c' 0 0
      (by decide) (by decide) (by decide)).1,
    (decode_field_subset (point 7 8) [("y".toList, .scalar (.int .int 2))] [] 2 'c' 0 0
      (by decide) (by decide) (by decide)).2.1 "x".toList (by decide)⟩

/-- C34: decoding a well-formed array text of integers into a vector, deque or
list that holds elements returns normally with the elements it held, in
place, followed by the decoded elements in input order; and whatever the
input, a decode that returns or throws leaves the elements it held in place
at the front. -/
theorem decode_appends (t : IntType) (ns old : List Int) (fuel : Nat) (c0 : Char) (tmp0 : Int)
    (rest : List Char) (is : IStream)
    (hne : ns ≠ []) (hall : ∀ n ∈ ns, t.holds n) (hfuel : ns.length < fuel) :
    Deserializer.readList t fuel c0 tmp0
        (IStream.ofList (arrayText (ns.map intText) ++ rest)) old
      = .ok (IStream.ofList rest, old ++ ns) ∧
    (∀ s, Deserializer.readList t fuel c0 tmp0 is old = .ok s → ∃ more, s.2 = old ++ more) ∧
    (∀ e s, Deserializer.readList t fuel c0 tmp0 is old = .thrown e s →
      ∃ more, s.2 = old ++ more) := by
  refine ⟨?_, (readList_extends t fuel c0 tmp0 is old).1,
    (readList_extends t fuel c0 tmp0 is old).2⟩
  have h := readSTLContainer_arrayText
    (fun _ i s => SerializableSTLList.deserializeElem t tmp0 i s) intText t.holds
    (fun s n => s ++ [n]) (fun _ _ => True) 0
    (fun f s x d tail m _ hx hd _ => ⟨by
      simp [SerializableSTLList.deserializeElem, readInt_intText t x tmp0 d tail hx hd],
      trivial⟩)
    ns old fuel c0 rest hne hall trivial (by omega)
  rw [Deserializer.readList, h, foldl_push_back]

theorem decode_appends_witness :
    Deserializer.readList IntType.int 3 'c' 7
        (IStream.ofList (arrayText ([3, 4].map intText) ++ [])) [1, 2]
      = .ok (IStream.ofList [], [1, 2] ++ [3, 4]) :=
  (decode_appends IntType.int [3, 4] [1, 2] 3 'c' 7 [] (IStream.ofList []) (by decide)
    (by decide) (by decide)).1

/-- C35: decoding a well-formed array text of integers into a forward_list that
holds the elements `old` returns normally with `old` reversed, followed by the
decoded elements in input order. -/
theorem decode_into_forward_list (t : IntType) (ns old : List Int) (fuel : Nat) (c0 : Char)
    (tmp0 : Int) (rest : List Char)
    (hne : ns ≠ []) (hall : ∀ n ∈ ns, t.holds n) (hfuel : ns.length < fuel) :
    Deserializer.readForwardList t fuel c0 tmp0
        (IStream.ofList (arrayText (ns.map intText) ++ rest)) old
      = .ok (IStream.ofList rest, old.reverse ++ ns) := by
  have h := readSTLContainer_arrayText
    (fun _ i s => SerializableSTLForwardList.deserializeElem t tmp0 i s) intText t.holds
    (fun s n => n :: s) (fun _ _ => True) 0
    (fun f s x d tail m _ hx hd _ => ⟨by
      simp [SerializableSTLForwardList.deserializeElem,
        readInt_intText t x tmp0 d tail hx hd],
      trivial⟩)
    ns old fuel c0 rest hne hall trivial (by omega)
  rw [Deserializer.readForwardList, h, foldl_push_front]
  simp

theorem decode_into_forward_list_witness :
    Deserializer.readForwardList IntType.int 3 'c' 7
        (IStream.ofList (arrayText ([3, 4].map intText) ++ [])) [1, 2]
      = .ok (IStream.ofList [], [1, 2].reverse ++ [3, 4]) :=
  decode_into_forward_list IntType.int [3, 4] [1, 2] 3 'c' 7 [] (by decide) (by decide)
    (by decide)

/-- C36: on a well-formed array text of n integers, n at least 1 and at most the
size of the array, `readArray` returns n; the slots 0 to n - 1 hold the decoded
elements in order and every slot from n on holds what it held. -/
theorem readArray_frame (t : IntType) (ns vector : List Int) (c0 : Char) (rest : List Char)
    (hne : ns ≠ []) (hlen : ns.length ≤ vector.length) (hall : ∀ n ∈ ns, t.holds n) :
    readArray t c0 (IStream.ofList (arrayText (ns.map intText) ++ rest)) vector
      = .ok (IStream.ofList rest, ns.length, ns ++ vector.drop ns.length) ∧
    (ns ++ vector.drop ns.length).length = vector.length ∧
    (∀ i, i < ns.length → (ns ++ vector.drop ns.length)[i]? = ns[i]?) ∧
    (∀ i, ns.length ≤ i → (ns ++ vector.drop ns.length)[i]? = vector[i]?) := by
  have h := readArray_arrayText t ns vector c0 rest hne hlen hall
  have hfill := fillFrom_append ns [] vector hlen
  simp only [List.nil_append, List.length_nil] at hfill
  rw [hfill] at h
  refine ⟨h, by simp; omega, ?_, ?_⟩
  · intro i hi
    rw [List.getElem?_append_left hi]
  · intro i hi
    rw [List.getElem?_append_right hi, List.getElem?_drop]
    congr 1
    omega

theorem readArray_frame_witness :
    readArray IntType.int 'c' (IStream.ofList (arrayText ([5, 6].map intText) ++ []))
        [1, 2, 3]
      = .ok (IStream.ofList [], [(5 : Int), 6].length,
          [5, 6] ++ [1, 2, 3].drop [(5 : Int), 6].length) :=
  (readArray_frame IntType.int [5, 6] [1, 2, 3] 'c' [] (by decide) (by decide) (by decide)).1

/-- C37: white space before the opening bracket, before every separator and
before the closing bracket of a well-formed array text of integers, and
before the opening brace, the colons, the separators and the closing brace of
a well-formed object text, changes nothing: the decode of a vector, deque or
list, the fixed-array decode and object decode return what they return on
the text without the white space. -/
theorem decode_padded (t : IntType) (w0 : List Char) (xs : List (Int × List Char))
    (old vector : List Int) (object : Serializable) (v0 v1 v2 : List Char)
    (es : List PaddedMember) (fuel : Nat) (c0 : Char) (tmp0 : Int)
    (hw0 : ∀ w ∈ w0, isSpace w = true) (hne : xs ≠ [])
    (hall : ∀ x ∈ xs, t.holds x.1 ∧ ∀ w ∈ x.2, isSpace w = true)
    (hlen : xs.length ≤ vector.length)
    (hcls : JSON.quotationMark ∉ object.getClassName)
    (hv0 : ∀ w ∈ v0, isSpace w = true) (hv1 : ∀ w ∈ v1, isSpace w = true)
    (hv2 : ∀ w ∈ v2, isSpace w = true)
    (hes : ∀ e ∈ es, e.spaces ∧ object.takes e.entry)
    (hfuel : xs.length + es.length < fuel) :
    (Deserializer.readList t fuel c0 tmp0 (IStream.ofList (paddedArrayText w0 xs)) old
        = .ok (IStream.ofList [], old ++ xs.map Prod.fst) ∧
      Deserializer.readList t fuel c0 tmp0
          (IStream.ofList (arrayText ((xs.map Prod.fst).map intText))) old
        = .ok (IStream.ofList [], old ++ xs.map Prod.fst)) ∧
    (readArray t c0 (IStream.ofList (paddedArrayText w0 xs)) vector
        = .ok (IStream.ofList [], xs.length, fillFrom vector 0 (xs.map Prod.fst)) ∧
      readArray t c0 (IStream.ofList (arrayText ((xs.map Prod.fst).map intText))) vector
        = .ok (IStream.ofList [], xs.length, fillFrom vector 0 (xs.map Prod.fst))) ∧
    (readSerializable fuel c0
          (IStream.ofList (paddedObjectText v0 v1 v2 object.getClassName es)) object
        = .ok (IStream.ofList [],
            { object with members := object.members.assignAll (es.map PaddedMember.entry) }) ∧
      readSerializable fuel c0
          (IStream.ofList (objectText object.getClassName (es.map PaddedMember.entry))) object
        = .ok (IStream.ofList [],
            { object with members := object.members.assignAll (es.map PaddedMember.entry) })) := by
  have hne' : xs.map Prod.fst ≠ [] := by
    intro h
    exact hne (List.map_eq_nil_iff.mp h)
  have hall' : ∀ n ∈ xs.map Prod.fst, t.holds n := by
    intro n hn
    obtain ⟨x, hx, hxn⟩ := List.mem_map.mp hn
    rw [← hxn]
    exact (hall x hx).1
  refine ⟨⟨?_, ?_⟩, ⟨?_, ?_⟩, ⟨?_, ?_⟩⟩
  · have h := readSTLContainer_padded t tmp0 (fun (s : List Int) n => s ++ [n]) w0 xs old fuel
      c0 [] hw0 hne hall (by omega)
    rw [List.append_nil, foldl_push_back] at h
    simpa [Deserializer.readList, SerializableSTLList.deserializeElem] using h
  · have h := readSTLContainer_arrayText
      (fun _ i s => SerializableSTLList.deserializeElem t tmp0 i s) intText t.holds
      (fun s n => s ++ [n]) (fun _ _ => True) 0
      (fun f s x d tail m _ hx hd _ => ⟨by
        simp [SerializableSTLList.deserializeElem, readInt_intText t x tmp0 d tail hx hd],
        trivial⟩)
      (xs.map Prod.fst) old fuel c0 [] hne' hall' trivial (by simp; omega)
    rw [List.append_nil, foldl_push_back] at h
    rw [Deserializer.readList, h]
  · have h := readArray_padded t w0 xs vector c0 [] hw0 hne hall hlen
    rw [List.append_nil] at h
    exact h
  · have h := readArray_arrayText t (xs.map Prod.fst) vector c0 [] hne' (by simpa using hlen)
      hall'
    rw [List.append_nil, List.length_map] at h
    exact h
  · have h := readSerializable_padded object v0 v1 v2 es [] fuel c0 hcls hv0 hv1 hv2 hes
      (by omega)
    rw [List.append_nil] at h
    exact h
  · have h := readSerializable_objectText object (es.map PaddedMember.entry) [] fuel c0 hcls
      (by
        intro e he
        obtain ⟨x, hx, hxe⟩ := List.mem_map.mp he
        rw [← hxe]
        exact (hes x hx).2)
      (by simp; omega)
    rw [List.append_nil] at h
    exact h

theorem decode_padded_witness :
    (Deserializer.readList IntType.int 4 'c' 7 (IStream.ofList " [1 ,2\n]".toList) []
        = .ok (IStream.ofList [], [1, 2]) ∧
      Deserializer.readList IntType.int 4 'c' 7 (IStream.ofList "[1,2]".toList) []
        = .ok (IStream.ofList [], [1, 2])) ∧
    (readSerializable 4 'c'
          (IStream.ofList " \x7b\"_className_\" :\"Point\" ,\"x\" :1 \x7d".toList)
          (point 7 8)
        = .ok (IStream.ofList [], point 1 8) ∧
      readSerializable 4 'c' (IStream.ofList "\x7b\"_className_\":\"Point\",\"x\":1\x7d".toList)
          (point 7 8)
        = .ok (IStream.ofList [], point 1 8)) :=
  ⟨(decode_padded IntType.int " ".toList [(1, " ".toList), (2, "\n".toList)] [] [0, 0]
      (point 7 8) " ".toList " ".toList " ".toList
      [⟨" ".toList, "x".toList, " ".toList, .scalar (.int .int 1)⟩] 4 'c' 7
      (by decide) (by decide) (by decide) (by decide) (by decide) (by decide) (by decide)
      (by decide) (by decide) (by decide)).1,
    (decode_padded IntType.int " ".toList [(1, " ".toList), (2, "\n".toList)] [] [0, 0]
      (point 7 8) " ".toList " ".toList " ".toList
      [⟨" ".toList, "x".toList, " ".toList, .scalar (.int .int 1)⟩] 4 'c' 7
      (by decide) (by decide) (by decide) (by decide) (by decide) (by decide) (by decide)
      (by decide) (by decide) (by decide)).2.2⟩

/-- C38: `writeString` writes, between the two quotes, the characters of the string
before its first NUL and nothing else; a string with a NUL is written as the
part before the NUL is, and the two are different strings. -/
theorem writeString_until_nul (os pre post : List Char) (h : Char.ofNat 0 ∉ pre) :
    (∀ (s : List Char),
      writeString os s = os ++ quoted (s.takeWhile (fun x => x != Char.ofNat 0))) ∧
    writeString os (pre ++ Char.ofNat 0 :: post) = os ++ quoted pre ∧
    writeString os (pre ++ Char.ofNat 0 :: post) = writeString os pre ∧
    pre ++ Char.ofNat 0 :: post ≠ pre := by
  have hcut : cstr (pre ++ Char.ofNat 0 :: post) = pre := by
    unfold cstr
    exact takeWhile_ne_append (Char.ofNat 0) pre post h
  refine ⟨fun s => by simp [writeString, cstr, quoted], ?_, ?_, ?_⟩
  · simp [writeString, hcut, quoted]
  · simp [writeString, hcut, cstr_of_nulFree pre h]
  · intro e
    have := congrArg List.length e
    simp at this

theorem writeString_until_nul_witness :
    writeString [] ("ab".toList ++ Char.ofNat 0 :: "cd".toList) = writeString [] "ab".toList ∧
    "ab".toList ++ Char.ofNat 0 :: "cd".toList ≠ "ab".toList :=
  ⟨(writeString_until_nul [] "ab".toList "cd".toList (by decide)).2.2.1,
    (writeString_until_nul [] "ab".toList "cd".toList (by decide)).2.2.2⟩

/-- C39, at the failing inputs: on an input that holds no quote, the empty input
among them, `readString` is out of fuel for every amount of fuel, the search for
the opening quote going on at the end of the input; on an input with an
opening quote and no closing quote it returns, with the rest of the input
as the string. -/
theorem readString_without_quote (s u value : List Char) (fuel : Nat)
    (hs : JSON.quotationMark ∉ s) (hu : JSON.quotationMark ∉ u) :
    readString fuel (IStream.ofList s) value = none ∧
    readString (s.length + 1 + fuel) (IStream.ofList (s ++ JSON.quotationMark :: u)) value
      = some (⟨[], true, u.isEmpty⟩, u) :=
  ⟨readString_no_quote s value fuel hs,
    readString_unclosed s u value (s.length + 1 + fuel) hs hu (by omega)⟩

theorem readString_without_quote_witness :
    readString 1000 (IStream.ofList "abc".toList) [] = none ∧
    readString ("abc".toList.length + 1 + 1000)
        (IStream.ofList ("abc".toList ++ JSON.quotationMark :: "de".toList)) []
      = some (⟨[], true, "de".toList.isEmpty⟩, "de".toList) :=
  readString_without_quote "abc".toList "de".toList [] 1000 (by decide) (by decide)

end Claims

end Seza
